import Mathlib

/-!
# Verification development for `src/e_ibmca.c` (openssl-ibmca engine)

Shallow embedding of the two stateful adapters of the engine:

* the SHA-1 / SHA-256 / SHA-512 block accumulators
  (`ibmca_sha1_update`, `ibmca_sha1_final`, and their SHA-256 / SHA-512 twins);
* the AES-GCM session controller (`ibmca_aes_gcm_init_key`, `ibmca_aes_gcm_ctrl`,
  `ibmca_gcm_aad`, `ibmca_aes_gcm`, `ibmca_gcm_tag`, `ibmca_aes_gcm_tls_cipher`,
  `ibmca_aes_gcm_cipher`).

Conventions of the embedding.

* Memory regions are functions `Nat → Byte` addressed from their base pointer; a
  pointer `p + k` is the region read at offset `k`.  Caller-supplied pointers that
  may be `NULL` are `Option Buf`.
* Machine integers are `Nat` / `Int` with explicit wrap-around.  The data model is
  LP64 (s390x): `unsigned long` and `size_t` are 64 bit, `unsigned int` and `int`
  are 32 bit.
* The libica primitives (`p_ica_sha1`, `p_ica_aes_gcm_*`) are external: they are
  parameters of the model, and every call made to them is recorded in a trace.
-/

namespace Ibmca

/-! ## Memory helpers -/

abbrev Byte := Nat

abbrev Buf := Nat → Byte

/-- The C `memcpy (dst + doff, src + soff, n)`, as a pure update of the region `dst`. -/
def memcpy (dst : Buf) (doff : Nat) (src : Buf) (soff n : Nat) : Buf :=
  fun i => if doff ≤ i ∧ i < doff + n then src (soff + (i - doff)) else dst i

/-- The `len` bytes found at `b + off`. -/
def slice (b : Buf) (off len : Nat) : List Byte :=
  (List.range len).map (fun i => b (off + i))

/-- A caller buffer: a pointer together with the byte count passed alongside it. -/
structure Chunk where
  data : Buf
  len : Nat

/-- The bytes a chunk denotes. -/
def Chunk.bytes (ch : Chunk) : List Byte := slice ch.data 0 ch.len

/-! ## Digest block accumulator -/

/-- Segment kinds of libica (`SHA_MSG_PART_ONLY = 0`, `FIRST = 1`, `MIDDLE = 2`, `FINAL = 3`). -/
inductive SHA_MSG_PART where
  | ONLY
  | FIRST
  | MIDDLE
  | FINAL
  deriving DecidableEq, Repr

/-- The libica hash context (`sha_context_t`, `sha256_context_t`, `sha512_context_t`).
The engine reads only `runningLength` (`runningLengthLow` for SHA-512). -/
structure sha_context_t where
  runningLength : Nat
  shaHash : List Byte
  deriving DecidableEq, Repr

/-- The external hash primitive `p_ica_sha1 (message_part, input_length, input_data,
&context, output)`: it receives the `input_length` bytes at `input_data` and the context,
and yields the return code (`0` is success), the new context and the output hash. -/
abbrev ShaPrim := SHA_MSG_PART → List Byte → sha_context_t → Nat × sha_context_t × List Byte

/-- The accumulator (`IBMCA_SHA_CTX`, `IBMCA_SHA256_CTX`, `IBMCA_SHA512_CTX`). -/
structure IBMCA_SHA_CTX where
  c : sha_context_t
  tail : Buf
  tail_len : Nat

/-- One recorded call of the hash primitive. -/
structure ShaCall where
  part : SHA_MSG_PART
  len : Nat
  data : List Byte
  rc : Nat
  deriving DecidableEq, Repr

/-- Outcome of an `update`: return value, accumulator, primitive calls made (in order),
and the `memcpy`s made into `tail`, each as (destination offset, byte count). -/
structure ShaResult where
  ret : Nat
  ctx : IBMCA_SHA_CTX
  calls : List ShaCall
  copies : List (Nat × Nat)

/-- Outcome of a `final`: return value, accumulator, the primitive call, the digest. -/
structure ShaFinal where
  ret : Nat
  ctx : IBMCA_SHA_CTX
  call : ShaCall
  md : List Byte

/-- The `memset (ctx, 0, sizeof ( *ctx))` of `ibmca_sha1_init`; `hlen` is the hash length. -/
def sha_init (hlen : Nat) : IBMCA_SHA_CTX :=
  { c := { runningLength := 0, shaHash := List.replicate hlen 0 },
    tail := fun _ => 0,
    tail_len := 0 }

/-- The block repeated four times in each `update`:
`tail_len = in_data_len & mask; if (tail_len) { in_data_len &= ~mask;
memcpy (tail, in_data + fill_size + in_data_len, tail_len); }`.
Yields the new `tail_len`, `in_data_len`, `tail` and the copy made. -/
def sha_split (bs : Nat) (tail in_data : Buf) (fill_size in_data_len : Nat) :
    Nat × Nat × Buf × List (Nat × Nat) :=
  let tail_len := in_data_len &&& (bs - 1)
  if tail_len ≠ 0 then
    let in_data_len1 := in_data_len &&& (2 ^ 64 - bs)
    (tail_len, in_data_len1, memcpy tail 0 in_data (fill_size + in_data_len1) tail_len,
      [(0, tail_len)])
  else
    (tail_len, in_data_len, tail, [])

/-- The closing statement of each `update`:
`if (in_data_len && p_ica_sha1 (message_part, (unsigned int) in_data_len,
in_data + fill_size, &c, tmp_hash)) return 0; return 1;`. -/
def sha_submit (P : ShaPrim) (message_part : SHA_MSG_PART) (ctx : IBMCA_SHA_CTX)
    (in_data : Buf) (fill_size in_data_len : Nat)
    (calls : List ShaCall) (copies : List (Nat × Nat)) : ShaResult :=
  if in_data_len ≠ 0 then
    let n := in_data_len % 2 ^ 32
    let r := P message_part (slice in_data fill_size n) ctx.c
    let call : ShaCall := { part := message_part, len := n, data := slice in_data fill_size n,
                            rc := r.1 }
    { ret := if r.1 ≠ 0 then 0 else 1,
      ctx := { ctx with c := r.2.1 },
      calls := calls ++ [call],
      copies := copies }
  else
    { ret := 1, ctx := ctx, calls := calls, copies := copies }

/-- The top-up of a pending tail, shared by the branch `runningLength == 0 && tail_len > 0`
(where the completed tail is submitted as `SHA_MSG_PART_FIRST`) and the branch
`runningLength > 0` with `tail_len != 0` (where it is submitted as `message_part`,
which is `SHA_MSG_PART_MIDDLE`).  In both, the closing call uses `SHA_MSG_PART_MIDDLE`. -/
def sha_fill (bs : Nat) (P : ShaPrim) (tail_part : SHA_MSG_PART) (ctx : IBMCA_SHA_CTX)
    (in_data : Buf) (in_data_len : Nat) : ShaResult :=
  let fill_size := (2 ^ 32 + bs - ctx.tail_len % 2 ^ 32) % 2 ^ 32
  if fill_size < in_data_len then
    let tail1 := memcpy ctx.tail ctx.tail_len in_data 0 fill_size
    let r := P tail_part (slice tail1 0 bs) ctx.c
    let call : ShaCall := { part := tail_part, len := bs, data := slice tail1 0 bs, rc := r.1 }
    if r.1 ≠ 0 then
      { ret := 0,
        ctx := { ctx with c := r.2.1, tail := tail1 },
        calls := [call],
        copies := [(ctx.tail_len, fill_size)] }
    else
      let s := sha_split bs tail1 in_data fill_size (in_data_len - fill_size)
      sha_submit P SHA_MSG_PART.MIDDLE
        { c := r.2.1, tail := s.2.2.1, tail_len := s.1 }
        in_data fill_size s.2.1 [call] ((ctx.tail_len, fill_size) :: s.2.2.2)
  else
    { ret := 1,
      ctx := { ctx with tail := memcpy ctx.tail ctx.tail_len in_data 0 in_data_len,
                        tail_len := (ctx.tail_len + in_data_len) % 2 ^ 32 },
      calls := [],
      copies := [(ctx.tail_len, in_data_len)] }

/-- The body common to `ibmca_sha1_update`, `ibmca_sha256_update` (`bs = 64`, masks
`0x3f` / `~0x3f`) and `ibmca_sha512_update` (`bs = 128`, masks `0x7f` / `~0x7f`). -/
def sha_update (bs : Nat) (P : ShaPrim) (ctx : IBMCA_SHA_CTX) (in_data : Buf) (inlen : Nat) :
    ShaResult :=
  let in_data_len := inlen
  if in_data_len = 0 then
    { ret := 1, ctx := ctx, calls := [], copies := [] }
  else if ctx.c.runningLength = 0 ∧ ctx.tail_len = 0 then
    let s := sha_split bs ctx.tail in_data 0 in_data_len
    sha_submit P SHA_MSG_PART.FIRST { ctx with tail := s.2.2.1, tail_len := s.1 }
      in_data 0 s.2.1 [] s.2.2.2
  else if ctx.c.runningLength = 0 ∧ ctx.tail_len > 0 then
    sha_fill bs P SHA_MSG_PART.FIRST ctx in_data in_data_len
  else if ctx.c.runningLength > 0 then
    if ctx.tail_len ≠ 0 then
      sha_fill bs P SHA_MSG_PART.MIDDLE ctx in_data in_data_len
    else
      let s := sha_split bs ctx.tail in_data 0 in_data_len
      sha_submit P SHA_MSG_PART.MIDDLE { ctx with tail := s.2.2.1, tail_len := s.1 }
        in_data 0 s.2.1 [] s.2.2.2
  else
    sha_submit P SHA_MSG_PART.MIDDLE ctx in_data 0 in_data_len [] []

/-- The body common to `ibmca_sha1_final`, `ibmca_sha256_final`, `ibmca_sha512_final`. -/
def sha_final (P : ShaPrim) (ctx : IBMCA_SHA_CTX) : ShaFinal :=
  let message_part :=
    if ctx.c.runningLength ≠ 0 then SHA_MSG_PART.FINAL else SHA_MSG_PART.ONLY
  let r := P message_part (slice ctx.tail 0 ctx.tail_len) ctx.c
  { ret := if r.1 ≠ 0 then 0 else 1,
    ctx := { ctx with c := r.2.1 },
    call := { part := message_part, len := ctx.tail_len,
              data := slice ctx.tail 0 ctx.tail_len, rc := r.1 },
    md := r.2.2 }

def SHA_BLOCK_SIZE : Nat := 64

def SHA256_BLOCK_SIZE : Nat := 64

def SHA512_BLOCK_SIZE : Nat := 128

def ibmca_sha1_init : IBMCA_SHA_CTX := sha_init 20

def ibmca_sha1_update (P : ShaPrim) (ctx : IBMCA_SHA_CTX) (in_data : Buf) (inlen : Nat) :
    ShaResult :=
  sha_update SHA_BLOCK_SIZE P ctx in_data inlen

def ibmca_sha1_final (P : ShaPrim) (ctx : IBMCA_SHA_CTX) : ShaFinal := sha_final P ctx

def ibmca_sha256_init : IBMCA_SHA_CTX := sha_init 32

def ibmca_sha256_update (P : ShaPrim) (ctx : IBMCA_SHA_CTX) (in_data : Buf) (inlen : Nat) :
    ShaResult :=
  sha_update SHA256_BLOCK_SIZE P ctx in_data inlen

def ibmca_sha256_final (P : ShaPrim) (ctx : IBMCA_SHA_CTX) : ShaFinal := sha_final P ctx

def ibmca_sha512_init : IBMCA_SHA_CTX := sha_init 64

def ibmca_sha512_update (P : ShaPrim) (ctx : IBMCA_SHA_CTX) (in_data : Buf) (inlen : Nat) :
    ShaResult :=
  sha_update SHA512_BLOCK_SIZE P ctx in_data inlen

def ibmca_sha512_final (P : ShaPrim) (ctx : IBMCA_SHA_CTX) : ShaFinal := sha_final P ctx

/-- Outcome of a digest session `init, update*, final`. -/
structure ShaSession where
  ok : Bool
  ctx : IBMCA_SHA_CTX
  calls : List ShaCall
  md : List Byte

/-- The updates of a session, in order; the caller stops at the first failing update. -/
def sha_updates (bs : Nat) (P : ShaPrim) : IBMCA_SHA_CTX → List Chunk → ShaSession
  | ctx, [] => { ok := true, ctx := ctx, calls := [], md := [] }
  | ctx, ch :: rest =>
    let r := sha_update bs P ctx ch.data ch.len
    if r.ret = 0 then
      { ok := false, ctx := r.ctx, calls := r.calls, md := [] }
    else
      let s := sha_updates bs P r.ctx rest
      { s with calls := r.calls ++ s.calls }

/-- A whole digest session: `init`, one `update` per chunk, then `final`. -/
def sha_session (bs hlen : Nat) (P : ShaPrim) (chunks : List Chunk) : ShaSession :=
  let u := sha_updates bs P (sha_init hlen) chunks
  if u.ok then
    let f := sha_final P u.ctx
    { ok := decide (f.ret = 1), ctx := f.ctx, calls := u.calls ++ [f.call], md := f.md }
  else u

/-- Accumulator states reachable from `init` by `update` calls (of any outcome). -/
inductive ShaReachable (bs hlen : Nat) (P : ShaPrim) : IBMCA_SHA_CTX → Prop where
  | init : ShaReachable bs hlen P (sha_init hlen)
  | update (ctx : IBMCA_SHA_CTX) (in_data : Buf) (inlen : Nat) :
      ShaReachable bs hlen P ctx → inlen < 2 ^ 64 →
      ShaReachable bs hlen P (sha_update bs P ctx in_data inlen).ctx

/-- The bytes handed to the primitive by a list of calls, in call order. -/
def callBytes (calls : List ShaCall) : List Byte := (calls.map ShaCall.data).flatten

/-- The message a list of chunks denotes: their bytes, in order. -/
def message (chunks : List Chunk) : List Byte := (chunks.map Chunk.bytes).flatten

def ibmca_sha1_session (P : ShaPrim) (chunks : List Chunk) : ShaSession :=
  sha_session SHA_BLOCK_SIZE 20 P chunks

def ibmca_sha256_session (P : ShaPrim) (chunks : List Chunk) : ShaSession :=
  sha_session SHA256_BLOCK_SIZE 32 P chunks

def ibmca_sha512_session (P : ShaPrim) (chunks : List Chunk) : ShaSession :=
  sha_session SHA512_BLOCK_SIZE 64 P chunks

/-- Contract of a hash primitive that hashes its input stream with `H`.  `R c s` reads
"the context `c` has absorbed the byte stream `s`": a successful `FIRST` / `MIDDLE` call
absorbs its input, and a successful `ONLY` / `FINAL` call outputs `H` of the whole stream. -/
structure HashesStream (P : ShaPrim) (R : sha_context_t → List Byte → Prop)
    (H : List Byte → List Byte) : Prop where
  step : ∀ part data c s, part = SHA_MSG_PART.FIRST ∨ part = SHA_MSG_PART.MIDDLE →
    (P part data c).1 = 0 → R c s → R (P part data c).2.1 (s ++ data)
  finish : ∀ part data c s, part = SHA_MSG_PART.ONLY ∨ part = SHA_MSG_PART.FINAL →
    (P part data c).1 = 0 → R c s → (P part data c).2.2 = H (s ++ data)

/-- Contract used for the segment kinds: after a successful submission of at least one
block the running length is positive. -/
def CountsBlocks (bs : Nat) (P : ShaPrim) : Prop :=
  ∀ part data c, (P part data c).1 = 0 → bs ≤ data.length →
    0 < (P part data c).2.1.runningLength

/-- A toy primitive for evaluating the model: it always succeeds, adds the byte count to
`runningLength`, and its hash is the sum of all bytes absorbed. -/
def sumPrim : ShaPrim :=
  fun _ data c =>
    (0, { runningLength := c.runningLength + data.length, shaHash := [c.shaHash.sum + data.sum] },
      [c.shaHash.sum + data.sum])

/-- A toy primitive that fails on every call, leaving the context alone. -/
def failPrim : ShaPrim := fun _ _ c => (1, c, [])

/-- Three chunks used to evaluate the model: 10, 54 and 130 bytes. -/
def exChunks : List Chunk :=
  [{ data := fun i => i, len := 10 }, { data := fun i => 100 + i, len := 54 },
   { data := fun i => 2 * i, len := 130 }]

/-- The SHA-1 accumulator after an update of 10 bytes followed by one of 54 bytes. -/
def fullTailCtx : IBMCA_SHA_CTX :=
  (ibmca_sha1_update sumPrim (ibmca_sha1_update sumPrim ibmca_sha1_init (fun i => i) 10).ctx
    (fun i => 100 + i) 54).ctx


/-! ## AES-GCM session controller -/

def EVP_MAX_IV_LENGTH : Nat := 16

def EVP_AEAD_TLS1_AAD_LEN : Int := 13

def EVP_GCM_TLS_EXPLICIT_IV_LEN : Nat := 8

def EVP_GCM_TLS_TAG_LEN : Nat := 16

/-- Conversion of a `size_t` value to `int` (the `return len;` of the cipher operations). -/
def toInt32 (n : Nat) : Int :=
  if n % 2 ^ 32 < 2 ^ 31 then (n % 2 ^ 32 : Nat) else (n % 2 ^ 32 : Nat) - 2 ^ 32

/-- The region holding the bytes of a list, zero beyond its end. -/
def ofList (l : List Byte) : Buf := fun i => l.getD i 0

/-- A 64-bit big-endian load (s390x is big-endian) from `b + off`. -/
def load_be64 (b : Buf) (off : Nat) : Nat :=
  (List.range 8).foldl (fun acc i => acc * 256 + b (off + i) % 256) 0

/-- A 64-bit big-endian store of `v` at `b + off`. -/
def store_be64 (b : Buf) (off : Nat) (v : Nat) : Buf :=
  fun i => if off ≤ i ∧ i < off + 8 then (v / 256 ^ (7 - (i - off))) % 256 else b i

/-- The external libica GCM primitives.  Return codes: `0` is success.
* `gcm_init iv key direction`: `p_ica_aes_gcm_initialize (iv, ivlen, key, keylen, icb, ucb,
  subkey, direction)`; yields the return code and `icb`, `ucb`, `subkey`.
* `gcm_intermediate text ucb aad tag key subkey direction`: `p_ica_aes_gcm_intermediate
  (pt, len, ct, ucb, aad, aadlen, tag, 16, key, keylen, subkey, direction)`; `text` is the
  plaintext (encrypt) or ciphertext (decrypt); yields the return code, the output text,
  `ucb` and `tag`.
* `gcm_last icb aadlen ptlen tag final_tag final_tag_len key subkey direction`:
  `p_ica_aes_gcm_last`; `final_tag` is `none` for a `NULL` pointer; yields the return code
  and `tag`. -/
structure GcmPrim where
  gcm_init : List Byte → List Byte → Bool → Nat × List Byte × List Byte × List Byte
  gcm_intermediate : List Byte → List Byte → List Byte → List Byte → List Byte → List Byte →
    Bool → Nat × List Byte × List Byte × List Byte
  gcm_last : List Byte → Nat → Nat → List Byte → Option (List Byte) → Nat → List Byte →
    List Byte → Bool → Nat × List Byte

/-- The environment of the controller: the GCM primitives, `RAND_bytes` (return value and
the bytes produced) and `OPENSSL_malloc` (`none` is `NULL`, else the fresh region). -/
structure Env where
  P : GcmPrim
  RAND_bytes : Nat → Int × List Byte
  OPENSSL_malloc : Nat → Option Buf

/-- One recorded call of a GCM primitive, with its return code. -/
inductive GcmCall where
  | init (iv key : List Byte) (enc : Bool) (rc : Nat)
  | intermediate (text aad : List Byte) (enc : Bool) (rc : Nat)
  | last (aadlen ptlen : Nat) (final_tag : Option (List Byte)) (final_tag_len : Nat)
      (enc : Bool) (rc : Nat)

/-- Where `gctx->iv` points: at the array embedded in the `EVP_CIPHER_CTX`
(`EVP_CIPHER_CTX_iv_noconst`), at a heap block, or nowhere (`NULL`). -/
inductive IvLoc where
  | embedded
  | heap
  | null
  deriving DecidableEq, Repr

/-- The cipher data (`ICA_AES_GCM_CTX`).  `iv_heap` and `iv_cap` are the heap block that
`iv` points to when `iv_loc = heap`, and its size. -/
structure ICA_AES_GCM_CTX where
  key : Buf
  key_set : Int
  iv_set : Int
  tag : List Byte
  subkey : List Byte
  icb : List Byte
  ucb : List Byte
  ptlen : Nat
  aadlen : Nat
  iv_loc : IvLoc
  iv_heap : Buf
  iv_cap : Nat
  ivlen : Int
  taglen : Int
  iv_gen : Int
  tls_aadlen : Int

/-- The part of OpenSSL's `EVP_CIPHER_CTX` the controller uses: the direction
(`EVP_CIPHER_CTX_encrypting`), `EVP_CIPHER_CTX_key_length`, `EVP_CIPHER_CTX_iv_length`,
the embedded IV array, the scratch buffer `EVP_CIPHER_CTX_buf_noconst` and the cipher
data. -/
structure EVP_CIPHER_CTX where
  encrypt : Bool
  key_len : Nat
  iv_len : Nat
  iv : Buf
  buf : Buf
  cipher_data : ICA_AES_GCM_CTX

/-- A non-null pointer argument: its address and the region it points to. -/
structure Ptr where
  addr : Nat
  mem : Buf

/-- Outcome of a controller operation: return value, context, the region behind the
output pointer (`out`, or `ptr` for a control operation) and the primitive calls made. -/
structure GcmResult where
  ret : Int
  ctx : EVP_CIPHER_CTX
  out : Buf
  calls : List GcmCall

/-- The bytes `gctx->iv` points to. -/
def gctx_iv (c : EVP_CIPHER_CTX) : Buf :=
  match c.cipher_data.iv_loc with
  | IvLoc.embedded => c.iv
  | IvLoc.heap => c.cipher_data.iv_heap
  | IvLoc.null => fun _ => 0

/-- A write through `gctx->iv`. -/
def gctx_iv_store (c : EVP_CIPHER_CTX) (b : Buf) : EVP_CIPHER_CTX :=
  match c.cipher_data.iv_loc with
  | IvLoc.embedded => { c with iv := b }
  | IvLoc.heap => { c with cipher_data := { c.cipher_data with iv_heap := b } }
  | IvLoc.null => c

/-- The derivation of session material, as written out in `ibmca_aes_gcm_init_key` (twice)
and `ibmca_aes_gcm_setiv`: `memset (icb, 0, 16); memset (tag, 0, 16); aadlen = 0;
ptlen = 0;` followed by `p_ica_aes_gcm_initialize (iv, ivlen, key, gkeylen, icb, ucb,
subkey, enc)`.  Yields the return code of the primitive, the context and the call. -/
def gcm_derive (env : Env) (c : EVP_CIPHER_CTX) (iv : Buf) (enc : Bool) :
    Nat × EVP_CIPHER_CTX × GcmCall :=
  let g := c.cipher_data
  let ivb := slice iv 0 g.ivlen.toNat
  let keyb := slice g.key 0 c.key_len
  let r := env.P.gcm_init ivb keyb enc
  (r.1,
   { c with cipher_data :=
      { g with icb := r.2.1, tag := List.replicate 16 0, aadlen := 0, ptlen := 0,
               ucb := r.2.2.1, subkey := r.2.2.2 } },
   GcmCall.init ivb keyb enc r.1)

/-- Model of `ibmca_gcm_aad (ctx, aad, len, enc, keylen)`: `-2` after payload, `-1` past the
capacity, else `1` when the primitive succeeded and `0` when it failed. -/
def ibmca_gcm_aad (env : Env) (c : EVP_CIPHER_CTX) (aad : Buf) (len : Nat) (enc : Bool) :
    Int × EVP_CIPHER_CTX × List GcmCall :=
  let g := c.cipher_data
  if g.ptlen ≠ 0 then (-2, c, [])
  else
    let alen := (g.aadlen + len) % 2 ^ 64
    if alen > 2 ^ 61 ∨ alen < len then (-1, c, [])
    else
      let r := env.P.gcm_intermediate [] g.ucb (slice aad 0 len) g.tag
        (slice g.key 0 c.key_len) g.subkey enc
      (if r.1 = 0 then 1 else 0,
       { c with cipher_data := { g with aadlen := alen, ucb := r.2.2.1, tag := r.2.2.2 } },
       [GcmCall.intermediate [] (slice aad 0 len) enc r.1])

/-- Model of `ibmca_aes_gcm (ctx, in, out, len, enc, keylen)`: `-1` past the capacity, else `1`
when the primitive succeeded and `0` when it failed; also yields the `out` region. -/
def ibmca_aes_gcm (env : Env) (c : EVP_CIPHER_CTX) (in_ out : Buf) (len : Nat) (enc : Bool) :
    Int × EVP_CIPHER_CTX × Buf × List GcmCall :=
  let g := c.cipher_data
  let mlen := (g.ptlen + len) % 2 ^ 64
  if mlen > 2 ^ 36 - 32 ∨ mlen < len then (-1, c, out, [])
  else
    let r := env.P.gcm_intermediate (slice in_ 0 len) g.ucb [] g.tag
      (slice g.key 0 c.key_len) g.subkey enc
    (if r.1 = 0 then 1 else 0,
     { c with cipher_data := { g with ptlen := mlen, ucb := r.2.2.1, tag := r.2.2.2 } },
     memcpy out 0 (ofList r.2.1) 0 len,
     [GcmCall.intermediate (slice in_ 0 len) [] enc r.1])

/-- Model of `ibmca_aes_gcm_init_key (ctx, key, iv, enc)`. -/
def ibmca_aes_gcm_init_key (env : Env) (c : EVP_CIPHER_CTX) (key iv : Option Buf)
    (enc : Bool) : GcmResult :=
  let gctx := c.cipher_data
  let gkeylen := c.key_len
  match key, iv with
  | none, none => { ret := 1, ctx := c, out := fun _ => 0, calls := [] }
  | some k, iv0 =>
    let c1 := { c with cipher_data := { gctx with key := memcpy gctx.key 0 k 0 gkeylen } }
    let iv1 : Option Buf :=
      match iv0 with
      | some v => some v
      | none => if gctx.iv_set ≠ 0 then some (gctx_iv c1) else none
    match iv1 with
    | some v =>
      let d := gcm_derive env c1 v enc
      if d.1 ≠ 0 then
        { ret := 0, ctx := d.2.1, out := fun _ => 0, calls := [d.2.2] }
      else
        { ret := 1,
          ctx := { d.2.1 with cipher_data := { d.2.1.cipher_data with iv_set := 1, key_set := 1 } },
          out := fun _ => 0, calls := [d.2.2] }
    | none =>
      { ret := 1, ctx := { c1 with cipher_data := { c1.cipher_data with key_set := 1 } },
        out := fun _ => 0, calls := [] }
  | none, some v =>
    if gctx.key_set ≠ 0 then
      let d := gcm_derive env c v enc
      if d.1 ≠ 0 then
        { ret := 0, ctx := d.2.1, out := fun _ => 0, calls := [d.2.2] }
      else
        { ret := 1,
          ctx := { d.2.1 with cipher_data := { d.2.1.cipher_data with iv_set := 1, iv_gen := 0 } },
          out := fun _ => 0, calls := [d.2.2] }
    else
      let c1 := gctx_iv_store c (memcpy (gctx_iv c) 0 v 0 gctx.ivlen.toNat)
      { ret := 1,
        ctx := { c1 with cipher_data := { c1.cipher_data with iv_set := 1, iv_gen := 0 } },
        out := fun _ => 0, calls := [] }

/-- Model of `ibmca_aes_gcm_setiv (c)`: `0` without a key, else the derivation from `gctx->iv`,
`1` when the primitive succeeded. -/
def ibmca_aes_gcm_setiv (env : Env) (c : EVP_CIPHER_CTX) : Int × EVP_CIPHER_CTX × List GcmCall :=
  if c.cipher_data.key_set = 0 then (0, c, [])
  else
    let d := gcm_derive env c (gctx_iv c) c.encrypt
    (if d.1 = 0 then 1 else 0, d.2.1, [d.2.2])

/-- The control operations of `ibmca_aes_gcm_ctrl` whose pointer argument is a byte
region (`EVP_CTRL_COPY`, whose argument is another context, is not among them). -/
inductive Ctrl where
  | INIT
  | SET_IVLEN
  | SET_TAG
  | GET_TAG
  | SET_IV_FIXED
  | IV_GEN
  | SET_IV_INV
  | TLS1_AAD
  | OTHER
  deriving DecidableEq, Repr

/-- Model of `ibmca_aes_gcm_ctrl (c, type, arg, ptr)`; the result's `out` is the region at `ptr`. -/
def ibmca_aes_gcm_ctrl (env : Env) (c : EVP_CIPHER_CTX) (type : Ctrl) (arg : Int) (ptr : Buf) :
    GcmResult :=
  let gctx := c.cipher_data
  let enc := c.encrypt
  match type with
  | Ctrl.INIT =>
    { ret := 1,
      ctx := { c with cipher_data :=
        { gctx with key_set := 0, iv_set := 0, ivlen := c.iv_len, iv_loc := IvLoc.embedded,
                    taglen := -1, iv_gen := 0, tls_aadlen := -1 } },
      out := ptr, calls := [] }
  | Ctrl.SET_IVLEN =>
    if arg ≤ 0 then { ret := 0, ctx := c, out := ptr, calls := [] }
    else if arg > EVP_MAX_IV_LENGTH ∧ arg > gctx.ivlen then
      match env.OPENSSL_malloc arg.toNat with
      | none =>
        { ret := 0, ctx := { c with cipher_data := { gctx with iv_loc := IvLoc.null } },
          out := ptr, calls := [] }
      | some fresh =>
        { ret := 1,
          ctx := { c with cipher_data :=
            { gctx with iv_loc := IvLoc.heap, iv_heap := fresh, iv_cap := arg.toNat,
                        ivlen := arg } },
          out := ptr, calls := [] }
    else
      { ret := 1, ctx := { c with cipher_data := { gctx with ivlen := arg } },
        out := ptr, calls := [] }
  | Ctrl.SET_TAG =>
    if arg ≤ 0 ∨ arg > 16 ∨ enc = true then { ret := 0, ctx := c, out := ptr, calls := [] }
    else
      { ret := 1,
        ctx := { c with buf := memcpy c.buf 0 ptr 0 arg.toNat,
                        cipher_data := { gctx with taglen := arg } },
        out := ptr, calls := [] }
  | Ctrl.GET_TAG =>
    if arg ≤ 0 ∨ arg > 16 ∨ enc = false ∨ gctx.taglen < 0 then
      { ret := 0, ctx := c, out := ptr, calls := [] }
    else
      { ret := 1, ctx := c, out := memcpy ptr 0 c.buf 0 arg.toNat, calls := [] }
  | Ctrl.SET_IV_FIXED =>
    if arg = -1 then
      let c1 := gctx_iv_store c (memcpy (gctx_iv c) 0 ptr 0 gctx.ivlen.toNat)
      { ret := 1, ctx := { c1 with cipher_data := { c1.cipher_data with iv_gen := 1 } },
        out := ptr, calls := [] }
    else if arg < 4 ∨ gctx.ivlen - arg < 8 then
      { ret := 0, ctx := c, out := ptr, calls := [] }
    else
      let c1 := gctx_iv_store c (memcpy (gctx_iv c) 0 ptr 0 arg.toNat)
      if enc = true then
        let r := env.RAND_bytes (gctx.ivlen - arg).toNat
        if r.1 ≤ 0 then { ret := 0, ctx := c1, out := ptr, calls := [] }
        else
          let c2 := gctx_iv_store c1
            (memcpy (gctx_iv c1) arg.toNat (ofList r.2) 0 (gctx.ivlen - arg).toNat)
          { ret := 1, ctx := { c2 with cipher_data := { c2.cipher_data with iv_gen := 1 } },
            out := ptr, calls := [] }
      else
        { ret := 1, ctx := { c1 with cipher_data := { c1.cipher_data with iv_gen := 1 } },
          out := ptr, calls := [] }
  | Ctrl.IV_GEN =>
    if gctx.iv_gen = 0 ∨ gctx.key_set = 0 then { ret := 0, ctx := c, out := ptr, calls := [] }
    else
      let s := ibmca_aes_gcm_setiv env c
      if s.1 = 0 then { ret := 0, ctx := s.2.1, out := ptr, calls := s.2.2 }
      else
        let c1 := s.2.1
        let ivlen := c1.cipher_data.ivlen
        let arg1 := if arg ≤ 0 ∨ arg > ivlen then ivlen else arg
        let out := memcpy ptr 0 (gctx_iv c1) (ivlen - arg1).toNat arg1.toNat
        let ctr := (ivlen - 8).toNat
        let c2 := gctx_iv_store c1
          (store_be64 (gctx_iv c1) ctr ((load_be64 (gctx_iv c1) ctr + 1) % 2 ^ 64))
        { ret := 1, ctx := { c2 with cipher_data := { c2.cipher_data with iv_set := 1 } },
          out := out, calls := s.2.2 }
  | Ctrl.SET_IV_INV =>
    if gctx.iv_gen = 0 ∨ gctx.key_set = 0 ∨ enc = true then
      { ret := 0, ctx := c, out := ptr, calls := [] }
    else
      let c1 := gctx_iv_store c
        (memcpy (gctx_iv c) (gctx.ivlen - arg).toNat ptr 0 arg.toNat)
      let s := ibmca_aes_gcm_setiv env c1
      if s.1 = 0 then { ret := 0, ctx := s.2.1, out := ptr, calls := s.2.2 }
      else
        { ret := 1, ctx := { s.2.1 with cipher_data := { s.2.1.cipher_data with iv_set := 1 } },
          out := ptr, calls := s.2.2 }
  | Ctrl.TLS1_AAD =>
    if arg ≠ EVP_AEAD_TLS1_AAD_LEN then { ret := 0, ctx := c, out := ptr, calls := [] }
    else
      let buf1 := memcpy c.buf 0 ptr 0 arg.toNat
      let c1 := { c with buf := buf1, cipher_data := { gctx with tls_aadlen := arg } }
      let len := ((buf1 (arg.toNat - 2) % 256) <<< 8) ||| (buf1 (arg.toNat - 1) % 256)
      if len < EVP_GCM_TLS_EXPLICIT_IV_LEN then { ret := 0, ctx := c1, out := ptr, calls := [] }
      else
        let len1 := len - EVP_GCM_TLS_EXPLICIT_IV_LEN
        if enc = false ∧ len1 < EVP_GCM_TLS_TAG_LEN then
          { ret := 0, ctx := c1, out := ptr, calls := [] }
        else
          let len2 := if enc = false then len1 - EVP_GCM_TLS_TAG_LEN else len1
          let buf2 : Buf := fun i =>
            if i = arg.toNat - 1 then len2 &&& 255
            else if i = arg.toNat - 2 then (len2 >>> 8) % 256
            else buf1 i
          { ret := EVP_GCM_TLS_TAG_LEN, ctx := { c1 with buf := buf2 }, out := ptr, calls := [] }
  | Ctrl.OTHER => { ret := -1, ctx := c, out := ptr, calls := [] }

/-- Model of `ibmca_gcm_tag (ctx, out, in, taglen)`: the closing primitive call; `in_` is the tag to
verify (`none` for `NULL`).  Yields the return value (`1` on success), the context and the
call; on success the caller-visible effect `memcpy (out, gctx->tag, taglen)` is applied by
the callers below, which know which region `out` is. -/
def ibmca_gcm_tag (env : Env) (c : EVP_CIPHER_CTX) (in_ : Option (List Byte)) (taglen : Nat) :
    Int × EVP_CIPHER_CTX × List GcmCall :=
  let g := c.cipher_data
  let r := env.P.gcm_last g.icb g.aadlen g.ptlen g.tag in_ taglen
    (slice g.key 0 c.key_len) g.subkey c.encrypt
  (if r.1 ≠ 0 then 0 else 1,
   { c with cipher_data := { g with tag := r.2 } },
   [GcmCall.last g.aadlen g.ptlen in_ taglen c.encrypt r.1])

/-- The exit of `ibmca_aes_gcm_tls_cipher` through the label `err`:
`gctx->iv_set = 0; gctx->tls_aadlen = -1; return rv;`. -/
def tls_exit (rv : Int) (c : EVP_CIPHER_CTX) (out : Buf) (calls : List GcmCall) : GcmResult :=
  { ret := rv,
    ctx := { c with cipher_data := { c.cipher_data with iv_set := 0, tls_aadlen := -1 } },
    out := out, calls := calls }

/-- Model of `ibmca_aes_gcm_tls_cipher`, the tag step (`if (enc) { out += len; ... } else { ... }`
down to `err:`), reached when the payload step succeeded.  `rec1` is the record region
after the payload step, `len1` the payload length, `pre` the calls made so far. -/
def tls_tag_step (env : Env) (enc : Bool) (len1 : Nat) (rec1 : Buf) (pre : List GcmCall)
    (c : EVP_CIPHER_CTX) : GcmResult :=
  let off := EVP_GCM_TLS_EXPLICIT_IV_LEN
  if enc then
    let t := ibmca_gcm_tag env c none EVP_GCM_TLS_TAG_LEN
    if t.1 = 0 then tls_exit (-1) t.2.1 rec1 (pre ++ t.2.2)
    else
      tls_exit (toInt32 (len1 + EVP_GCM_TLS_EXPLICIT_IV_LEN + EVP_GCM_TLS_TAG_LEN)) t.2.1
        (memcpy rec1 (off + len1) (ofList t.2.1.cipher_data.tag) 0 EVP_GCM_TLS_TAG_LEN)
        (pre ++ t.2.2)
  else
    let t := ibmca_gcm_tag env c
      (some (slice rec1 (off + len1) EVP_GCM_TLS_TAG_LEN)) EVP_GCM_TLS_TAG_LEN
    if t.1 = 0 then
      tls_exit (-1) t.2.1 (fun i => if off ≤ i ∧ i < off + len1 then 0 else rec1 i)
        (pre ++ t.2.2)
    else
      let buf1 := memcpy t.2.1.buf 0 (ofList t.2.1.cipher_data.tag) 0 EVP_GCM_TLS_TAG_LEN
      tls_exit (toInt32 len1) { t.2.1 with buf := buf1 } rec1 (pre ++ t.2.2)

/-- Model of `ibmca_aes_gcm_tls_cipher`, the payload step (`in += 8; out += 8; len -= 8 + 16;
if (!ibmca_aes_gcm (...)) goto err;`), reached when the associated-data step succeeded.
`rec0` is the record region after the IV step. -/
def tls_payload_step (env : Env) (enc : Bool) (len : Nat) (rec0 : Buf) (pre : List GcmCall)
    (c : EVP_CIPHER_CTX) : GcmResult :=
  let off := EVP_GCM_TLS_EXPLICIT_IV_LEN
  let len1 := len - (EVP_GCM_TLS_EXPLICIT_IV_LEN + EVP_GCM_TLS_TAG_LEN)
  let g := ibmca_aes_gcm env c (fun i => rec0 (off + i)) (fun i => rec0 (off + i)) len1 enc
  let rec1 : Buf := fun i => if off ≤ i then g.2.2.1 (i - off) else rec0 i
  if g.1 = 0 then tls_exit (-1) g.2.1 rec1 (pre ++ g.2.2.2)
  else tls_tag_step env enc len1 rec1 (pre ++ g.2.2.2) g.2.1

/-- Model of `ibmca_aes_gcm_tls_cipher`, from the result `k` of the IV step
(`if (EVP_CIPHER_CTX_ctrl (...) <= 0) goto err;`) through the associated-data step
(`if (!ibmca_gcm_aad (gctx, buf, gctx->tls_aadlen, enc, keylen)) goto err;`). -/
def tls_aad_step (env : Env) (enc : Bool) (len : Nat) (k : GcmResult) : GcmResult :=
  if k.ret ≤ 0 then tls_exit (-1) k.ctx k.out k.calls
  else
    let a := ibmca_gcm_aad env k.ctx k.ctx.buf
      (k.ctx.cipher_data.tls_aadlen % 2 ^ 64).toNat enc
    if a.1 = 0 then tls_exit (-1) a.2.1 k.out (k.calls ++ a.2.2)
    else tls_payload_step env enc len k.out (k.calls ++ a.2.2) a.2.1

/-- Model of `ibmca_aes_gcm_tls_cipher (ctx, out, in, len)`: the first check, the IV step, then the
steps above.  Past the first check `out == in`, so the record is the single region `out`;
a `NULL` record reads as zeros. -/
def ibmca_aes_gcm_tls_cipher (env : Env) (c : EVP_CIPHER_CTX) (out in_ : Option Ptr)
    (len : Nat) : GcmResult :=
  let enc := c.encrypt
  let rec0 : Buf := (out.map Ptr.mem).getD (fun _ => 0)
  if out.map Ptr.addr ≠ in_.map Ptr.addr
      ∨ len < EVP_GCM_TLS_EXPLICIT_IV_LEN + EVP_GCM_TLS_TAG_LEN then
    { ret := -1, ctx := c, out := rec0, calls := [] }
  else
    tls_aad_step env enc len
      (ibmca_aes_gcm_ctrl env c (if enc then Ctrl.IV_GEN else Ctrl.SET_IV_INV)
        EVP_GCM_TLS_EXPLICIT_IV_LEN rec0)

/-- Model of `ibmca_aes_gcm_cipher (ctx, out, in, len)`: the public cipher operation. -/
def ibmca_aes_gcm_cipher (env : Env) (c : EVP_CIPHER_CTX) (out in_ : Option Ptr) (len : Nat) :
    GcmResult :=
  let gctx := c.cipher_data
  let enc := c.encrypt
  let out0 : Buf := (out.map Ptr.mem).getD (fun _ => 0)
  if gctx.key_set = 0 then { ret := -1, ctx := c, out := out0, calls := [] }
  else if gctx.tls_aadlen ≥ 0 then ibmca_aes_gcm_tls_cipher env c out in_ len
  else if gctx.iv_set = 0 then { ret := -1, ctx := c, out := out0, calls := [] }
  else
    match in_ with
    | some i =>
      match out with
      | none =>
        let a := ibmca_gcm_aad env c i.mem len enc
        if a.1 = 0 then { ret := -1, ctx := a.2.1, out := out0, calls := a.2.2 }
        else { ret := toInt32 len, ctx := a.2.1, out := out0, calls := a.2.2 }
      | some o =>
        let g := ibmca_aes_gcm env c i.mem o.mem len enc
        if g.1 = 0 then { ret := -1, ctx := g.2.1, out := g.2.2.1, calls := g.2.2.2 }
        else { ret := toInt32 len, ctx := g.2.1, out := g.2.2.1, calls := g.2.2.2 }
    | none =>
      if enc then
        let c1 := { c with cipher_data := { gctx with taglen := 16 } }
        let t := ibmca_gcm_tag env c1 none 16
        if t.1 = 0 then { ret := -1, ctx := t.2.1, out := out0, calls := t.2.2 }
        else
          { ret := 0,
            ctx := { t.2.1 with
              buf := memcpy t.2.1.buf 0 (ofList t.2.1.cipher_data.tag) 0 16,
              cipher_data := { t.2.1.cipher_data with iv_set := 0 } },
            out := out0, calls := t.2.2 }
      else if gctx.taglen < 0 then { ret := -1, ctx := c, out := out0, calls := [] }
      else
        let t := ibmca_gcm_tag env c (some (slice c.buf 0 gctx.taglen.toNat)) gctx.taglen.toNat
        if t.1 = 0 then { ret := -1, ctx := t.2.1, out := out0, calls := t.2.2 }
        else
          { ret := 0,
            ctx := { t.2.1 with cipher_data := { t.2.1.cipher_data with iv_set := 0 } },
            out := out0, calls := t.2.2 }

/-! ## AES-GCM sessions -/

def zeroBuf : Buf := fun _ => 0

/-- The cipher data as allocated by OpenSSL (`OPENSSL_zalloc`): all zero. -/
def gcm_zero : ICA_AES_GCM_CTX :=
  { key := zeroBuf, key_set := 0, iv_set := 0,
    tag := List.replicate 16 0, subkey := List.replicate 16 0,
    icb := List.replicate 16 0, ucb := List.replicate 16 0,
    ptlen := 0, aadlen := 0,
    iv_loc := IvLoc.null, iv_heap := zeroBuf, iv_cap := 0,
    ivlen := 0, taglen := 0, iv_gen := 0, tls_aadlen := 0 }

/-- A fresh session: zeroed context of the given direction and key length, IV length 12
(`sizeof (ica_aes_vector_t) - sizeof (uint32_t)` in `DECLARE_AES_EVP`), then
`EVP_CTRL_INIT`. -/
def gcm_new (env : Env) (enc : Bool) (key_len : Nat) : EVP_CIPHER_CTX :=
  (ibmca_aes_gcm_ctrl env
    { encrypt := enc, key_len := key_len, iv_len := 12, iv := zeroBuf, buf := zeroBuf,
      cipher_data := gcm_zero }
    Ctrl.INIT 0 zeroBuf).ctx

/-- Session states reachable from a fresh session by the operations of the controller. -/
inductive GcmReachable (env : Env) : EVP_CIPHER_CTX → Prop where
  | init (enc : Bool) (key_len : Nat) : GcmReachable env (gcm_new env enc key_len)
  | init_key (c : EVP_CIPHER_CTX) (key iv : Option Buf) :
      GcmReachable env c → GcmReachable env (ibmca_aes_gcm_init_key env c key iv c.encrypt).ctx
  | ctrl (c : EVP_CIPHER_CTX) (type : Ctrl) (arg : Int) (ptr : Buf) :
      GcmReachable env c → GcmReachable env (ibmca_aes_gcm_ctrl env c type arg ptr).ctx
  | cipher (c : EVP_CIPHER_CTX) (out in_ : Option Ptr) (len : Nat) :
      GcmReachable env c → len < 2 ^ 64 →
      GcmReachable env (ibmca_aes_gcm_cipher env c out in_ len).ctx

/-- Model of `set_key (key)` then `set_iv (iv)` on a fresh session; the flag tells whether both
reported success. -/
def gcm_setup (env : Env) (enc : Bool) (key_len : Nat) (key iv : Buf) : Bool × EVP_CIPHER_CTX :=
  let r1 := ibmca_aes_gcm_init_key env (gcm_new env enc key_len) (some key) none enc
  let r2 := ibmca_aes_gcm_init_key env r1.ctx none (some iv) enc
  (decide (r1.ret = 1) && decide (r2.ret = 1), r2.ctx)

/-- Model of `update_aad` for each chunk, stopping at the first negative return value. -/
def gcm_aad_updates (env : Env) : EVP_CIPHER_CTX → List Chunk → Bool × EVP_CIPHER_CTX
  | c, [] => (true, c)
  | c, ch :: rest =>
    let r := ibmca_aes_gcm_cipher env c none (some { addr := 1, mem := ch.data }) ch.len
    if r.ret < 0 then (false, r.ctx) else gcm_aad_updates env r.ctx rest

/-- Model of `update_payload` for each chunk into a zeroed output buffer of its own, stopping at
the first negative return value; yields the output chunks. -/
def gcm_payload_updates (env : Env) :
    EVP_CIPHER_CTX → List Chunk → Bool × EVP_CIPHER_CTX × List Chunk
  | c, [] => (true, c, [])
  | c, ch :: rest =>
    let r := ibmca_aes_gcm_cipher env c (some { addr := 2, mem := zeroBuf })
      (some { addr := 1, mem := ch.data }) ch.len
    if r.ret < 0 then (false, r.ctx, [])
    else
      let s := gcm_payload_updates env r.ctx rest
      (s.1, s.2.1, { data := r.out, len := ch.len } :: s.2.2)

/-- Outcome of a session through the non-record interface. -/
structure GcmSession where
  ok : Bool
  ctx : EVP_CIPHER_CTX
  outs : List Chunk
  tag : Buf

/-- Encrypting session: `set_key`, `set_iv`, `update_aad*`, `update_payload*`, `finalize`,
`get_tag` (16 bytes). -/
def gcm_encrypt_session (env : Env) (key_len : Nat) (key iv : Buf) (aads pts : List Chunk) :
    GcmSession :=
  let s := gcm_setup env true key_len key iv
  let a := gcm_aad_updates env s.2 aads
  let p := gcm_payload_updates env a.2 pts
  let f := ibmca_aes_gcm_cipher env p.2.1 none none 0
  let t := ibmca_aes_gcm_ctrl env f.ctx Ctrl.GET_TAG 16 zeroBuf
  { ok := s.1 && a.1 && p.1 && decide (f.ret = 0) && decide (t.ret = 1),
    ctx := t.ctx, outs := p.2.2, tag := t.out }

/-- Decrypting session: `set_key`, `set_iv`, `update_aad*`, `update_payload*` on the
ciphertext chunks, `set_tag` (16 bytes), `finalize`. -/
def gcm_decrypt_session (env : Env) (key_len : Nat) (key iv : Buf) (aads cts : List Chunk)
    (tag : Buf) : GcmSession :=
  let s := gcm_setup env false key_len key iv
  let a := gcm_aad_updates env s.2 aads
  let p := gcm_payload_updates env a.2 cts
  let t := ibmca_aes_gcm_ctrl env p.2.1 Ctrl.SET_TAG 16 tag
  let f := ibmca_aes_gcm_cipher env t.ctx none none 0
  { ok := s.1 && a.1 && p.1 && decide (t.ret = 1) && decide (f.ret = 0),
    ctx := f.ctx, outs := p.2.2, tag := tag }

/-- Two chunk lists hold the same bytes, chunk by chunk. -/
def chunksAgree : List Chunk → List Chunk → Prop
  | [], [] => True
  | a :: as, b :: bs => a.len = b.len ∧ (∀ i, i < a.len → a.data i = b.data i) ∧ chunksAgree as bs
  | _, _ => False

/-- The round trip of the non-record interface: decrypting what the encrypting session
produced, with its tag, succeeds and gives back the plaintext. -/
def gcm_roundtrip (env : Env) (key_len : Nat) (key iv : Buf) (aads pts : List Chunk) : Prop :=
  (gcm_decrypt_session env key_len key iv aads
      (gcm_encrypt_session env key_len key iv aads pts).outs
      (gcm_encrypt_session env key_len key iv aads pts).tag).ok = true ∧
  chunksAgree
    (gcm_decrypt_session env key_len key iv aads
      (gcm_encrypt_session env key_len key iv aads pts).outs
      (gcm_encrypt_session env key_len key iv aads pts).tag).outs
    pts

/-- The total byte count of a list of chunks. -/
def totalLen (chunks : List Chunk) : Nat := (chunks.map Chunk.len).sum

/-- Contract of a GCM primitive that is deterministic and whose decrypt direction inverts
its encrypt direction: the derivation and the associated-data step do not depend on the
direction; a successful encrypt step yields as many bytes as it got, and the decrypt step
on them, from the same `ucb`, `tag`, key and subkey, succeeds, gives back the plaintext
and the same `ucb` and `tag`; the tag a successful encrypt `last` produces is accepted by
the decrypt `last` on the same inputs. -/
structure GcmInverts (P : GcmPrim) : Prop where
  init_dir : ∀ iv key, P.gcm_init iv key false = P.gcm_init iv key true
  aad_dir : ∀ ucb aad tag key subkey,
    P.gcm_intermediate [] ucb aad tag key subkey false
      = P.gcm_intermediate [] ucb aad tag key subkey true
  text_len : ∀ pt ucb tag key subkey,
    (P.gcm_intermediate pt ucb [] tag key subkey true).1 = 0 →
    (P.gcm_intermediate pt ucb [] tag key subkey true).2.1.length = pt.length
  text_inv : ∀ pt ucb tag key subkey,
    (P.gcm_intermediate pt ucb [] tag key subkey true).1 = 0 →
    P.gcm_intermediate (P.gcm_intermediate pt ucb [] tag key subkey true).2.1 ucb [] tag key
        subkey false
      = (0, pt, (P.gcm_intermediate pt ucb [] tag key subkey true).2.2)
  tag_accept : ∀ icb aadlen ptlen tag key subkey,
    (P.gcm_last icb aadlen ptlen tag none 16 key subkey true).1 = 0 →
    (P.gcm_last icb aadlen ptlen tag
      (some (slice (ofList (P.gcm_last icb aadlen ptlen tag none 16 key subkey true).2) 0 16))
      16 key subkey false).1 = 0

/-- A toy GCM primitive for evaluating the model: the "cipher" reverses each text, the tag
material is the running sum of all bytes seen, and the decrypt `last` accepts exactly the
tag the encrypt `last` produces. -/
def toyGcm : GcmPrim :=
  { gcm_init := fun iv key _ => (0, iv, iv, key),
    gcm_intermediate := fun text ucb aad tag _ _ _ =>
      (0, text.reverse, ucb, [tag.sum + aad.sum + text.sum]),
    gcm_last := fun _ aadlen ptlen tag final_tag n _ _ enc =>
      if enc then (0, (tag.sum + aadlen + ptlen) % 256 :: List.replicate 15 0)
      else
        (if final_tag = some (((tag.sum + aadlen + ptlen) % 256 :: List.replicate 15 0).take n)
          then 0 else 1,
         tag) }

/-- A toy environment: `toyGcm`, a `RAND_bytes` that yields `0xAB` bytes, and an allocator
that always succeeds. -/
def toyEnv : Env :=
  { P := toyGcm,
    RAND_bytes := fun n => (1, List.replicate n 171),
    OPENSSL_malloc := fun _ => some zeroBuf }

/-- Whether a recorded call is a failed closing call (`p_ica_aes_gcm_last`). -/
def GcmCall.lastFailed : GcmCall → Bool
  | GcmCall.last _ _ _ _ _ rc => decide (rc ≠ 0)
  | _ => false

/-- A sample key, IV, associated data and plaintext. -/
def exKey : Buf := fun i => 10 + i

def exIv : Buf := fun i => 50 + i

def exAad : List Chunk := [{ data := fun i => i + 7, len := 4 }]

def exPlain : List Chunk :=
  [{ data := fun i => i + 1, len := 5 }, { data := fun i => 2 * i, len := 0 },
   { data := fun i => 3 * i + 1, len := 3 }]

/-- A 13-byte record header `[type, major, minor, ...]` whose last two bytes carry the
big-endian record length 30 (8 bytes explicit IV, 6 bytes payload, 16 bytes tag). -/
def exHeader : Buf := fun i => if i = 11 then 0 else if i = 12 then 30 else 23 + i

/-- A session ready for a record: key and IV installed (`toyEnv`, key length 16), then
`generate_iv_fixed` with a 4-byte fixed part, then the record header. -/
def recordCtx (enc : Bool) : EVP_CIPHER_CTX :=
  (ibmca_aes_gcm_ctrl toyEnv
    (ibmca_aes_gcm_ctrl toyEnv (gcm_setup toyEnv enc 16 exKey exIv).2
      Ctrl.SET_IV_FIXED 4 exIv).ctx
    Ctrl.TLS1_AAD 13 exHeader).ctx

/-- A 30-byte record whose bytes are all `9`; its last 16 bytes are not a valid tag. -/
def exRecord : Ptr := { addr := 4096, mem := fun _ => 9 }

/-- An encrypting session (`toyEnv`) in which payload has been processed: key and IV
installed, then the three chunks of `exPlain`. -/
def payloadCtx : EVP_CIPHER_CTX :=
  (gcm_payload_updates toyEnv (gcm_setup toyEnv true 16 exKey exIv).2 exPlain).2.1

/-- An encrypting session (`toyEnv`) with key and IV installed and nothing processed. -/
def readyCtx : EVP_CIPHER_CTX := (gcm_setup toyEnv true 16 exKey exIv).2

/-- The capacity bounds of the two counters. -/
def Bounded (c : EVP_CIPHER_CTX) : Prop :=
  c.cipher_data.aadlen ≤ 2 ^ 61 ∧ c.cipher_data.ptlen ≤ 2 ^ 36 - 32

/-- The session `readyCtx` after an associated-data submission of `2 ^ 61` bytes. -/
def fullAadCtx : EVP_CIPHER_CTX :=
  (ibmca_aes_gcm_cipher toyEnv readyCtx none (some { addr := 1, mem := exKey }) (2 ^ 61)).ctx

/-- The session `readyCtx` after a payload submission of `2 ^ 36 - 32` bytes. -/
def fullPayloadCtx : EVP_CIPHER_CTX :=
  (ibmca_aes_gcm_cipher toyEnv readyCtx (some { addr := 2, mem := zeroBuf })
    (some { addr := 1, mem := exKey }) (2 ^ 36 - 32)).ctx

/-- A session is ready for the non-record interface: key and IV set, no record header. -/
def Ready (c : EVP_CIPHER_CTX) : Prop :=
  c.cipher_data.key_set ≠ 0 ∧ c.cipher_data.tls_aadlen < 0 ∧ c.cipher_data.iv_set ≠ 0

/-- The same session state with the decrypting direction. -/
def flipDir (c : EVP_CIPHER_CTX) : EVP_CIPHER_CTX := { c with encrypt := false }

/-- A plaintext of `2 ^ 36` bytes, each `7`: more than a session may process. -/
def hugePlain : List Chunk := [{ data := fun _ => 7, len := 2 ^ 36 }]

/-! ## Record interface, IV generation and tag access: sessions and samples -/

/-- A 13-byte record header: the bytes of `base`, with the big-endian 16-bit length `L` in
bytes 11 and 12. -/
def record_header (base : Buf) (L : Nat) : Buf :=
  fun i => if i = 11 then (L / 256) % 256 else if i = 12 then L % 256 else base i

/-- A record header whose length field, 5, is too small for the explicit IV. -/
def shortHeader : Buf := record_header exHeader 5

/-- Session states reachable from a fresh session without a finalize: by `set_key` / `set_iv`,
control operations and cipher calls that carry input (`in` is not `NULL`). -/
inductive GcmNoFinalize (env : Env) : EVP_CIPHER_CTX → Prop where
  | init (enc : Bool) (key_len : Nat) : GcmNoFinalize env (gcm_new env enc key_len)
  | init_key (c : EVP_CIPHER_CTX) (key iv : Option Buf) :
      GcmNoFinalize env c → GcmNoFinalize env (ibmca_aes_gcm_init_key env c key iv c.encrypt).ctx
  | ctrl (c : EVP_CIPHER_CTX) (type : Ctrl) (arg : Int) (ptr : Buf) :
      GcmNoFinalize env c → GcmNoFinalize env (ibmca_aes_gcm_ctrl env c type arg ptr).ctx
  | update (c : EVP_CIPHER_CTX) (out : Option Ptr) (in_ : Ptr) (len : Nat) :
      GcmNoFinalize env c → GcmNoFinalize env (ibmca_aes_gcm_cipher env c out (some in_) len).ctx

/-- No tag is available: on an encrypting session `taglen` is negative. -/
def Untagged (c : EVP_CIPHER_CTX) : Prop := c.encrypt = true → c.cipher_data.taglen < 0

/-- A 70-byte input for the digests: the bytes `1, 2, 3, ...`. -/
def exInput : Buf := fun i => i + 1

/-! ## Record round trip: relations and samples -/

/-- A GCM primitive that always succeeds and passes the text through unchanged; it never
looks at the text, so the model can be evaluated on records of any length. -/
def idleGcm : GcmPrim :=
  { gcm_init := fun iv key _ => (0, iv, iv, key),
    gcm_intermediate := fun text ucb _ tag _ _ _ => (0, text, ucb, tag),
    gcm_last := fun _ _ _ tag _ _ _ _ _ => (0, tag) }

/-- The environment of `idleGcm`. -/
def idleEnv : Env :=
  { P := idleGcm, RAND_bytes := fun n => (1, List.replicate n 171),
    OPENSSL_malloc := fun _ => some zeroBuf }

/-- A session of `idleEnv` ready for a record: key installed, `generate_iv_fixed` with a
4-byte fixed part, then the record header `exHeader`. -/
def idleRecordCtx (enc : Bool) : EVP_CIPHER_CTX :=
  (ibmca_aes_gcm_ctrl idleEnv
    (ibmca_aes_gcm_ctrl idleEnv
      (ibmca_aes_gcm_init_key idleEnv (gcm_new idleEnv enc 16) (some exKey) none enc).ctx
      Ctrl.SET_IV_FIXED 4 exIv).ctx
    Ctrl.TLS1_AAD 13 exHeader).ctx

/-- A session of `toyEnv` with a key and a 4-byte fixed IV part, before the record header. -/
def keyedCtx (enc : Bool) : EVP_CIPHER_CTX :=
  (ibmca_aes_gcm_ctrl toyEnv
    (ibmca_aes_gcm_init_key toyEnv (gcm_new toyEnv enc 16) (some exKey) none enc).ctx
    Ctrl.SET_IV_FIXED 4 exIv).ctx

/-- A 30-byte record whose payload, bytes 8 to 13, is `1 2 3 4 5 6`. -/
def exPayloadRecord : Ptr :=
  { addr := 4096, mem := fun i => if 8 ≤ i ∧ i < 14 then i - 7 else 0 }

/-- A GCM primitive whose closing call always fails, leaving `0xFF` bytes in the tag
material; its other calls are those of `toyGcm`. -/
def lastFailGcm : GcmPrim :=
  { gcm_init := toyGcm.gcm_init,
    gcm_intermediate := toyGcm.gcm_intermediate,
    gcm_last := fun _ _ _ _ _ _ _ _ _ => (1, List.replicate 16 255) }

/-- The environment of `lastFailGcm`. -/
def lastFailEnv : Env :=
  { P := lastFailGcm, RAND_bytes := fun n => (1, List.replicate n 171),
    OPENSSL_malloc := fun _ => some zeroBuf }

/-- An encrypting session of `lastFailEnv` with key and IV set, and that session after a
finalize. -/
def lastFailCtx : EVP_CIPHER_CTX := (gcm_setup lastFailEnv true 16 exKey exIv).2

def lastFailFinal : GcmResult := ibmca_aes_gcm_cipher lastFailEnv lastFailCtx none none 0

/-! ## Context duplication and the IV buffer -/

/-- Model of the case `EVP_CTRL_COPY` of `ibmca_aes_gcm_ctrl (c, EVP_CTRL_COPY, 0, out)`, on the states:
`out` is the duplicate as OpenSSL's `EVP_CIPHER_CTX_copy` prepared it (a byte copy of the
context and of the cipher data).  `if (gctx->iv == iv_noconst) gctx_out->iv =
iv_noconst_out; else { gctx_out->iv = OPENSSL_malloc (gctx->ivlen); if (gctx_out->iv ==
NULL) return 0; memcpy (gctx_out->iv, gctx->iv, gctx->ivlen); } return 1;`.  Yields the
return value and the duplicate. -/
def ibmca_aes_gcm_ctrl_copy (env : Env) (c out : EVP_CIPHER_CTX) : Int × EVP_CIPHER_CTX :=
  match c.cipher_data.iv_loc with
  | IvLoc.embedded =>
    (1, { out with cipher_data := { out.cipher_data with iv_loc := IvLoc.embedded } })
  | _ =>
    match env.OPENSSL_malloc c.cipher_data.ivlen.toNat with
    | none => (0, { out with cipher_data := { out.cipher_data with iv_loc := IvLoc.null } })
    | some fresh =>
      (1, { out with cipher_data :=
        { out.cipher_data with
          iv_loc := IvLoc.heap,
          iv_heap := memcpy fresh 0 (gctx_iv c) 0 c.cipher_data.ivlen.toNat,
          iv_cap := c.cipher_data.ivlen.toNat } })

/-- OpenSSL's `EVP_CIPHER_CTX_copy (out, in)` for a cipher with `EVP_CIPH_CUSTOM_COPY`: the
duplicate starts as a byte copy of the source, then `EVP_CTRL_COPY` runs on the source with
the duplicate as argument. -/
def EVP_CIPHER_CTX_copy (env : Env) (c : EVP_CIPHER_CTX) : Int × EVP_CIPHER_CTX :=
  ibmca_aes_gcm_ctrl_copy env c c

/-- The capacity of the buffer `gctx->iv` refers to: `EVP_MAX_IV_LENGTH` for the array
embedded in the context, the allocated size for a heap block, none for `NULL`. -/
def iv_capacity (c : EVP_CIPHER_CTX) : Option Nat :=
  match c.cipher_data.iv_loc with
  | IvLoc.embedded => some EVP_MAX_IV_LENGTH
  | IvLoc.heap => some c.cipher_data.iv_cap
  | IvLoc.null => none

/-- Session states reachable from a fresh session by `EVP_CTRL_INIT`, `set_iv_length` and
`copy_session` (the state of the duplicate). -/
inductive IvLenReachable (env : Env) : EVP_CIPHER_CTX → Prop where
  | init (enc : Bool) (key_len : Nat) : IvLenReachable env (gcm_new env enc key_len)
  | ctrl_init (c : EVP_CIPHER_CTX) :
      IvLenReachable env c → IvLenReachable env (ibmca_aes_gcm_ctrl env c Ctrl.INIT 0 zeroBuf).ctx
  | set_ivlen (c : EVP_CIPHER_CTX) (arg : Int) :
      IvLenReachable env c →
      IvLenReachable env (ibmca_aes_gcm_ctrl env c Ctrl.SET_IVLEN arg zeroBuf).ctx
  | copy (c : EVP_CIPHER_CTX) :
      IvLenReachable env c → IvLenReachable env (EVP_CIPHER_CTX_copy env c).2

/-! ### The IV storage seen through pointers

In the session states above a heap block is part of the state, so two states never share
one.  To speak about aliasing, the operations that touch the IV are modelled a second time
on a flat memory, with `gctx->iv` as an address. -/

/-- Flat memory: the byte at each address. -/
abbrev Mem := Int → Byte

/-- The region found at an address. -/
def mem_at (m : Mem) (p : Int) : Buf := fun i => m (p + i)

/-- The C `memcpy (dst, src, n)` on flat memory, the source given as a region. -/
def mem_store (m : Mem) (dst : Int) (src : Buf) (n : Nat) : Mem :=
  fun a => if dst ≤ a ∧ a < dst + n then src (a - dst).toNat else m a

/-- The part of a session that decides where its IV operations read and write:
`iv_noconst` is `EVP_CIPHER_CTX_iv_noconst (c)`, the address of the 16-byte array embedded
in the context; `iv` is `gctx->iv` (`none` for `NULL`); then `gctx->ivlen`, `gctx->key_set`,
`gctx->iv_set`, `gctx->iv_gen` and the direction. -/
structure IvPtrs where
  iv_noconst : Int
  iv : Option Int
  ivlen : Int
  key_set : Int
  iv_set : Int
  iv_gen : Int
  encrypt : Bool

/-- Outcome of an operation on flat memory: return value, the session and the memory. -/
structure PtrResult where
  ret : Int
  ctx : IvPtrs
  mem : Mem

/-- Model of the case `EVP_CTRL_COPY` on flat memory: `c` is the source, `out` the duplicate
as `EVP_CIPHER_CTX_copy` prepared it, `malloc` what `OPENSSL_malloc (gctx->ivlen)` returns.
`if (gctx->iv == iv_noconst) gctx_out->iv = iv_noconst_out; else { gctx_out->iv =
OPENSSL_malloc (gctx->ivlen); if (gctx_out->iv == NULL) return 0; memcpy (gctx_out->iv,
gctx->iv, gctx->ivlen); } return 1;`.  A `NULL` pointer reads as address 0. -/
def ctrl_copy_ptr (m : Mem) (c out : IvPtrs) (malloc : Option Int) : PtrResult :=
  if c.iv = some c.iv_noconst then
    { ret := 1, ctx := { out with iv := some out.iv_noconst }, mem := m }
  else
    match malloc with
    | none => { ret := 0, ctx := { out with iv := none }, mem := m }
    | some p =>
      { ret := 1, ctx := { out with iv := some p },
        mem := mem_store m p (mem_at m (c.iv.getD 0)) c.ivlen.toNat }

/-- One access to the IV buffer: its first position, as an offset from `gctx->iv`, and its
byte count. -/
structure IvAccess where
  first : Int
  count : Int
  deriving DecidableEq, Repr

/-- The access lies within the `ivlen` bytes of the IV. -/
def IvAccess.inside (a : IvAccess) (ivlen : Int) : Prop :=
  0 ≤ a.first ∧ 0 ≤ a.count ∧ a.first + a.count ≤ ivlen

/-- The IV accesses of `EVP_CTRL_GCM_IV_GEN` once past its guards:
`if (arg <= 0 || arg > gctx->ivlen) arg = gctx->ivlen; memcpy (ptr, gctx->iv + gctx->ivlen -
arg, arg); ++*(uint64_t *)(gctx->iv + gctx->ivlen - 8);`. -/
def iv_gen_access (ivlen arg : Int) : List IvAccess :=
  let arg1 := if arg ≤ 0 ∨ arg > ivlen then ivlen else arg
  [{ first := ivlen - arg1, count := arg1 }, { first := ivlen - 8, count := 8 }]

/-- The IV access of `EVP_CTRL_GCM_SET_IV_INV` once past its guards:
`memcpy (gctx->iv + gctx->ivlen - arg, ptr, arg);`. -/
def set_iv_inv_access (ivlen arg : Int) : List IvAccess :=
  [{ first := ivlen - arg, count := arg }]

/-- A decrypting session with a key, IV length 12 and a generated IV: reached from a fresh
session by `set_key` and `generate_iv_fixed` with a 4-byte fixed part. -/
def invCtx : EVP_CIPHER_CTX := keyedCtx false

/-- An encrypting session with a key and IV length 4 whose IV was installed whole by
`generate_iv_fixed` with length -1: reached from a fresh session by `set_key`,
`set_iv_length (4)` and `generate_iv_fixed`. -/
def shortIvCtx : EVP_CIPHER_CTX :=
  (ibmca_aes_gcm_ctrl toyEnv
    (ibmca_aes_gcm_ctrl toyEnv
      (ibmca_aes_gcm_init_key toyEnv (gcm_new toyEnv true 16) (some exKey) none true).ctx
      Ctrl.SET_IVLEN 4 zeroBuf).ctx
    Ctrl.SET_IV_FIXED (-1) exIv).ctx

instance (a : IvAccess) (ivlen : Int) : Decidable (a.inside ivlen) := by
  unfold IvAccess.inside
  infer_instance

/-- A session whose heap IV buffer was allocated for 17 bytes and whose IV length was then
lowered to 8: `set_iv_length (17)`, `set_iv_length (8)` on a fresh session. -/
def shrunkCtx : EVP_CIPHER_CTX :=
  (ibmca_aes_gcm_ctrl toyEnv
    (ibmca_aes_gcm_ctrl toyEnv (gcm_new toyEnv true 16) Ctrl.SET_IVLEN 17 zeroBuf).ctx
    Ctrl.SET_IVLEN 8 zeroBuf).ctx

/-- The duplicate of `shrunkCtx` after `set_iv_length (12)`. -/
def grownDup : GcmResult :=
  ibmca_aes_gcm_ctrl toyEnv (EVP_CIPHER_CTX_copy toyEnv shrunkCtx).2 Ctrl.SET_IVLEN 12 zeroBuf

/-- The cipher modes `EVP_CIPHER_CTX_mode` can report to the wrappers. -/
inductive CipherMode where
  | ECB | CBC | CFB | OFB | other
  deriving DecidableEq, Repr

/-- The buffer a chaining IV is read from. -/
inductive ChainSource where
  | input | output
  deriving DecidableEq, Repr

/-- One read of a chaining IV: the buffer, the first position as an offset from its start,
and the byte count. -/
structure ChainRead where
  source : ChainSource
  first : Int
  count : Nat
  deriving DecidableEq, Repr

/-- The read lies within the `len` bytes of its buffer. -/
def ChainRead.inside (r : ChainRead) (len : Nat) : Prop :=
  0 ≤ r.first ∧ r.first + r.count ≤ len

instance (r : ChainRead) (len : Nat) : Decidable (r.inside len) := by
  unfold ChainRead.inside
  infer_instance

/-- Model of the control flow shared by `ibmca_des_cipher`, `ibmca_tdes_cipher` and
`ibmca_aes_128/192/256_cipher`: `vec_size` is `sizeof (pre_iv)` (8 for
`ica_des_vector_t`, 16 for `ica_aes_vector_t`), `iv_length` is
`EVP_CIPHER_CTX_iv_length (ctx)`, `rv` the return code of the primitive.  Yields the return
value and the reads of chaining-IV bytes the call makes from `in` and `out`.

`if (inlen > UINT32_MAX) return 0; len = inlen;`, unsupported mode gives 0; encrypting:
after the primitive succeeded and unless the mode is OFB, `memcpy (iv, out + len -
iv_length, iv_length)`; decrypting in CFB and in ECB/CBC: `memcpy (pre_iv, in + len - sizeof
(pre_iv), sizeof (pre_iv))` before the primitive is called. -/
def ibmca_cipher_iv_reads (vec_size iv_length : Nat) (mode : CipherMode) (enc : Bool)
    (inlen : Nat) (rv : Nat) : Int × List ChainRead :=
  if inlen > 2 ^ 32 - 1 then (0, [])
  else
    let len := inlen
    if mode = CipherMode.other then (0, [])
    else if enc then
      if rv ≠ 0 then (0, [])
      else if mode ≠ CipherMode.OFB then
        (1, [{ source := ChainSource.output, first := (len : Int) - iv_length,
               count := iv_length }])
      else (1, [])
    else
      let reads : List ChainRead :=
        if mode = CipherMode.OFB then []
        else [{ source := ChainSource.input, first := (len : Int) - vec_size,
                count := vec_size }]
      if rv ≠ 0 then (0, reads) else (1, reads)

/-- Model of `ibmca_des_cipher` and `ibmca_tdes_cipher`: `ica_des_vector_t` has 8 bytes, and
every DES and 3DES cipher is declared with IV length `sizeof (ica_des_vector_t)`. -/
def ibmca_des_cipher (mode : CipherMode) (enc : Bool) (inlen rv : Nat) : Int × List ChainRead :=
  ibmca_cipher_iv_reads 8 8 mode enc inlen rv

/-- Model of `ibmca_aes_128_cipher` (and its 192 and 256 bit siblings): `ica_aes_vector_t`
has 16 bytes, and the AES ciphers are declared with IV length `sizeof
(ica_aes_vector_t)`. -/
def ibmca_aes_128_cipher (mode : CipherMode) (enc : Bool) (inlen rv : Nat) :
    Int × List ChainRead :=
  ibmca_cipher_iv_reads 16 16 mode enc inlen rv

/-! ## RSA: modular exponentiation -/

/-- The number of significant bits of `n`, counted by halving at most `fuel` times. -/
def num_bits_aux : Nat → Nat → Nat
  | 0, _ => 0
  | fuel + 1, n => if n = 0 then 0 else num_bits_aux fuel (n / 2) + 1

/-- `BN_num_bits`: the number of significant bits of a magnitude. -/
def BN_num_bits (n : Nat) : Nat := num_bits_aux n n

/-- `BN_num_bytes (a)`, that is `(BN_num_bits (a) + 7) / 8`. -/
def BN_num_bytes (n : Nat) : Nat := (BN_num_bits n + 7) / 8

/-- Where `ibmca_mod_exp` puts its operands: `key_length`, the size of each of the `calloc`ed
buffers, and the offsets at which `BN_bn2bin` writes the exponent and the input. -/
structure ModExpPacking where
  key_length : Nat
  plen : Nat
  inputlen : Nat
  exponent_off : Int
  input_off : Int
  deriving DecidableEq, Repr

/-- Model of the packing in `ibmca_mod_exp (r, a, p, m, ctx)`: `key->key_length = mlen =
BN_num_bytes (m); plen = BN_num_bytes (p); inputlen = BN_num_bytes (a);` then, with no check
in between, `BN_bn2bin (p, key->exponent + key->key_length - plen); BN_bn2bin (a, input +
key->key_length - inputlen);`. -/
def ibmca_mod_exp_packing (a p m : Nat) : ModExpPacking :=
  let key_length := BN_num_bytes m
  let plen := BN_num_bytes p
  let inputlen := BN_num_bytes a
  { key_length := key_length, plen := plen, inputlen := inputlen,
    exponent_off := (key_length : Int) - plen,
    input_off := (key_length : Int) - inputlen }

/-- Model of the packing of the input in `ibmca_mod_exp_crt`: `key->key_length = 2 * (plen >
qlen ? plen : qlen); inputlen = BN_num_bytes (a); if (inputlen > key->key_length) goto err;`
and only then `BN_bn2bin (a, input + key->key_length - inputlen)`.  Yields the offset of the
input, or nothing when the call leaves through `err`. -/
def ibmca_mod_exp_crt_input_off (a p q : Nat) : Option Int :=
  let plen := BN_num_bytes p
  let qlen := BN_num_bytes q
  let key_length := 2 * (if plen > qlen then plen else qlen)
  let inputlen := BN_num_bytes a
  if inputlen > key_length then none
  else some ((key_length : Int) - inputlen)

/-- Which components of an RSA key are present (a pointer other than `NULL`). -/
structure RsaParts where
  n : Bool
  d : Bool
  p : Bool
  q : Bool
  dmp1 : Bool
  dmq1 : Bool
  iqmp : Bool
  deriving DecidableEq, Repr

/-- What `ibmca_rsa_mod_exp` does: `ibmca_mod_exp_crt`, `ibmca_mod_exp` with `d` and `n`, or
the error `IBMCA_R_MISSING_KEY_COMPONENTS`. -/
inductive RsaPath where
  | crt | mod_exp | missing_key_components
  deriving DecidableEq, Repr

/-- Model of `ibmca_rsa_mod_exp` as built under `OLDER_OPENSSL`:
`if (!rsa->p || !rsa->q || !rsa->dmp1 || !rsa->dmq1 || !rsa->iqmp)`. -/
def ibmca_rsa_mod_exp_older (k : RsaParts) : RsaPath :=
  if !k.p || !k.q || !k.dmp1 || !k.dmq1 || !k.iqmp then
    if !k.d || !k.n then RsaPath.missing_key_components else RsaPath.mod_exp
  else RsaPath.crt

/-- Model of `ibmca_rsa_mod_exp` as built for current OpenSSL:
`if (!p || !q || !dmp1 || !dmq1 || iqmp)`. -/
def ibmca_rsa_mod_exp (k : RsaParts) : RsaPath :=
  if !k.p || !k.q || !k.dmp1 || !k.dmq1 || k.iqmp then
    if !k.d || !k.n then RsaPath.missing_key_components else RsaPath.mod_exp
  else RsaPath.crt

/-- The choice as the specification words it: the CRT path iff `p`, `q`, `dmp1`, `dmq1` and
`iqmp` are all present; otherwise the plain path, failing iff `d` or `n` is absent. -/
def rsa_path_spec (k : RsaParts) : RsaPath :=
  if k.p && k.q && k.dmp1 && k.dmq1 && k.iqmp then RsaPath.crt
  else if k.d && k.n then RsaPath.mod_exp
  else RsaPath.missing_key_components

/-- A complete private key. -/
def fullKey : RsaParts :=
  { n := true, d := true, p := true, q := true, dmp1 := true, dmq1 := true, iqmp := true }

/-! ## Random numbers -/

/-- Model of `ibmca_rand_bytes (buf, num)`: `unsigned int rc; rc =
p_ica_random_number_generate (num, buf); if (rc < 0) return 0; return 1;`.  The primitive is
a parameter yielding its status and the bytes it stored; `rc` holds the status as an
`unsigned int`.  Yields the return value and the buffer. -/
def ibmca_rand_bytes (p_ica_random_number_generate : Nat → Buf → Nat × Buf) (buf : Buf)
    (num : Nat) : Int × Buf :=
  let r := p_ica_random_number_generate num buf
  let rc : Nat := r.1 % 2 ^ 32
  if (rc : Int) < 0 then (0, r.2) else (1, r.2)

/-- A random-number primitive that fails with status 19 (`ENODEV`) and stores nothing. -/
def failRng : Nat → Buf → Nat × Buf := fun _ buf => (19, buf)

/-- A random-number primitive that succeeds and stores `0xAB` bytes. -/
def okRng : Nat → Buf → Nat × Buf :=
  fun num buf => (0, fun i => if i < num then 171 else buf i)

/-! ## Lemmas on memory helpers -/

theorem slice_length (b : Buf) (off n : Nat) : (slice b off n).length = n := by
  simp [slice]

theorem slice_zero (b : Buf) (off : Nat) : slice b off 0 = [] := by
  simp [slice]

theorem slice_add (b : Buf) (off m n : Nat) :
    slice b off (m + n) = slice b off m ++ slice b (off + m) n := by
  unfold slice
  rw [List.range_add, List.map_append, List.map_map]
  congr 1
  apply List.map_congr_left
  intro i _
  simp [Nat.add_assoc]

theorem slice_congr (b b1 : Buf) (off off1 n : Nat)
    (h : ∀ i, i < n → b (off + i) = b1 (off1 + i)) : slice b off n = slice b1 off1 n := by
  unfold slice
  apply List.map_congr_left
  intro i hi
  exact h i (List.mem_range.mp hi)

theorem slice_memcpy_append (dst src : Buf) (t n : Nat) :
    slice (memcpy dst t src 0 n) 0 (t + n) = slice dst 0 t ++ slice src 0 n := by
  rw [slice_add]
  congr 1
  · apply slice_congr
    intro i hi
    simp only [memcpy]
    rw [if_neg]
    omega
  · apply slice_congr
    intro i hi
    simp only [memcpy]
    rw [if_pos]
    · congr 1
      omega
    · omega

theorem slice_memcpy_zero (dst src : Buf) (o k : Nat) :
    slice (memcpy dst 0 src o k) 0 k = slice src o k := by
  apply slice_congr
  intro i hi
  simp only [memcpy]
  rw [if_pos]
  · congr 1
    omega
  · omega

/-! ## Lemmas on the masks of the accumulator -/

theorem and_not_mask (k x : Nat) (hk : k ≤ 64) (hx : x < 2 ^ 64) :
    x &&& (2 ^ 64 - 2 ^ k) = x - x % 2 ^ k := by
  have h1 : (2 : Nat) ^ 64 - 2 ^ k = (2 ^ (64 - k) - 1) <<< k := by
    rw [Nat.shiftLeft_eq, Nat.sub_mul, ← Nat.pow_add, Nat.one_mul]
    congr 2
    omega
  have h2 : x - x % 2 ^ k = (x >>> k) <<< k := by
    rw [Nat.shiftLeft_eq, Nat.shiftRight_eq_div_pow]
    have := Nat.div_add_mod x (2 ^ k)
    have h3 : x / 2 ^ k * 2 ^ k = 2 ^ k * (x / 2 ^ k) := Nat.mul_comm _ _
    omega
  rw [h1, h2]
  apply Nat.eq_of_testBit_eq
  intro j
  simp only [Nat.testBit_and, Nat.testBit_shiftLeft, Nat.testBit_two_pow_sub_one,
    Nat.testBit_shiftRight]
  by_cases hj : j ≥ k
  · have e : k + (j - k) = j := by omega
    simp only [hj, decide_True, Bool.true_and, e]
    by_cases hj2 : j < 64
    · have : j - k < 64 - k := by omega
      simp [this]
    · have hlt : x < 2 ^ j :=
        lt_of_lt_of_le hx (Nat.pow_le_pow_right (by norm_num) (by omega))
      simp [Nat.testBit_lt_two_pow hlt]
  · simp [hj]

theorem mask_and (bs : Nat) (hbs : bs = 64 ∨ bs = 128) (x : Nat) :
    x &&& (bs - 1) = x % bs := by
  rcases hbs with rfl | rfl
  · exact Nat.and_pow_two_sub_one_eq_mod x 6
  · exact Nat.and_pow_two_sub_one_eq_mod x 7

theorem mask_not (bs : Nat) (hbs : bs = 64 ∨ bs = 128) (x : Nat) (hx : x < 2 ^ 64) :
    x &&& (2 ^ 64 - bs) = x - x % bs := by
  rcases hbs with rfl | rfl
  · exact and_not_mask 6 x (by norm_num) hx
  · exact and_not_mask 7 x (by norm_num) hx

/-! ## Lemmas on the pieces of `update` -/

theorem sha_split_len (bs : Nat) (hbs : bs = 64 ∨ bs = 128) (tail in_data : Buf)
    (f x : Nat) (hx : x < 2 ^ 64) :
    (sha_split bs tail in_data f x).1 = x % bs ∧
    (sha_split bs tail in_data f x).2.1 = x - x % bs := by
  unfold sha_split
  simp only [mask_and bs hbs, mask_not bs hbs x hx]
  split
  · exact ⟨rfl, rfl⟩
  · rename_i h
    have h0 : x % bs = 0 := by simpa using h
    simp [h0]

theorem sha_split_tail (bs : Nat) (hbs : bs = 64 ∨ bs = 128) (tail in_data : Buf)
    (f x : Nat) (hx : x < 2 ^ 64) :
    slice (sha_split bs tail in_data f x).2.2.1 0 (x % bs)
      = slice in_data (f + (x - x % bs)) (x % bs) := by
  unfold sha_split
  simp only [mask_and bs hbs, mask_not bs hbs x hx]
  split
  · exact slice_memcpy_zero _ _ _ _
  · rename_i h
    have h0 : x % bs = 0 := by simpa using h
    simp [h0, slice_zero]

theorem sha_submit_ctx (P : ShaPrim) (part : SHA_MSG_PART) (ctx : IBMCA_SHA_CTX)
    (in_data : Buf) (f n : Nat) (calls : List ShaCall) (copies : List (Nat × Nat)) :
    (sha_submit P part ctx in_data f n calls copies).ctx.tail = ctx.tail ∧
    (sha_submit P part ctx in_data f n calls copies).ctx.tail_len = ctx.tail_len ∧
    (sha_submit P part ctx in_data f n calls copies).copies = copies := by
  unfold sha_submit
  split <;> simp

theorem callBytes_append (a b : List ShaCall) : callBytes (a ++ b) = callBytes a ++ callBytes b := by
  simp [callBytes]

theorem sha_submit_bytes (P : ShaPrim) (part : SHA_MSG_PART) (ctx : IBMCA_SHA_CTX)
    (in_data : Buf) (f n : Nat) (calls : List ShaCall) (copies : List (Nat × Nat)) :
    callBytes (sha_submit P part ctx in_data f n calls copies).calls
      = callBytes calls ++ slice in_data f (n % 2 ^ 32) := by
  unfold sha_submit
  split
  · simp [callBytes]
  · rename_i h
    have h0 : n = 0 := by simpa using h
    simp [h0, slice_zero]

theorem fill_size_eq (bs : Nat) (hbs : bs = 64 ∨ bs = 128) (t : Nat) (ht : t ≤ bs) :
    (2 ^ 32 + bs - t % 2 ^ 32) % 2 ^ 32 = bs - t := by
  rcases hbs with rfl | rfl <;> omega

/-- Bytes are conserved by the top-up branch: what is handed to the primitive, followed by
what stays buffered, is what was buffered followed by the input. -/
theorem sha_fill_bytes (bs : Nat) (hbs : bs = 64 ∨ bs = 128) (P : ShaPrim)
    (part : SHA_MSG_PART) (ctx : IBMCA_SHA_CTX) (in_data : Buf) (x : Nat)
    (ht : ctx.tail_len ≤ bs) (hx : x < 2 ^ 32)
    (hret : (sha_fill bs P part ctx in_data x).ret = 1) :
    callBytes (sha_fill bs P part ctx in_data x).calls
        ++ slice (sha_fill bs P part ctx in_data x).ctx.tail 0
            (sha_fill bs P part ctx in_data x).ctx.tail_len
      = slice ctx.tail 0 ctx.tail_len ++ slice in_data 0 x := by
  have hf := fill_size_eq bs hbs ctx.tail_len ht
  have hx64 : x - (bs - ctx.tail_len) < 2 ^ 64 := by omega
  have hs := sha_split_len bs hbs (memcpy ctx.tail ctx.tail_len in_data 0 (bs - ctx.tail_len))
    in_data (bs - ctx.tail_len) (x - (bs - ctx.tail_len)) hx64
  have hst := sha_split_tail bs hbs (memcpy ctx.tail ctx.tail_len in_data 0 (bs - ctx.tail_len))
    in_data (bs - ctx.tail_len) (x - (bs - ctx.tail_len)) hx64
  have hfull : slice (memcpy ctx.tail ctx.tail_len in_data 0 (bs - ctx.tail_len)) 0 bs
      = slice ctx.tail 0 ctx.tail_len ++ slice in_data 0 (bs - ctx.tail_len) := by
    have := slice_memcpy_append ctx.tail in_data ctx.tail_len (bs - ctx.tail_len)
    rwa [show ctx.tail_len + (bs - ctx.tail_len) = bs by omega] at this
  unfold sha_fill at hret ⊢
  simp only [hf] at hret ⊢
  by_cases hlt : bs - ctx.tail_len < x
  · simp only [hlt, if_true] at hret ⊢
    by_cases hrc : (P part (slice (memcpy ctx.tail ctx.tail_len in_data 0 (bs - ctx.tail_len)) 0 bs)
        ctx.c).1 = 0
    · simp only [hrc, ne_eq, not_true_eq_false, if_false] at hret ⊢
      rw [sha_submit_bytes, (sha_submit_ctx _ _ _ _ _ _ _ _).1, (sha_submit_ctx _ _ _ _ _ _ _ _).2.1]
      simp only [hs.1, hs.2, hst]
      have hm : (x - (bs - ctx.tail_len) - (x - (bs - ctx.tail_len)) % bs) % 2 ^ 32
          = x - (bs - ctx.tail_len) - (x - (bs - ctx.tail_len)) % bs := by
        apply Nat.mod_eq_of_lt
        omega
      rw [hm]
      have e : x = (bs - ctx.tail_len)
          + ((x - (bs - ctx.tail_len) - (x - (bs - ctx.tail_len)) % bs)
            + (x - (bs - ctx.tail_len)) % bs) := by
        have := Nat.mod_le (x - (bs - ctx.tail_len)) bs
        omega
      conv_rhs => rw [e, slice_add, slice_add]
      simp [callBytes, hfull, Nat.zero_add]
    · simp [hrc] at hret
  · simp only [hlt, if_false] at hret ⊢
    have hm : (ctx.tail_len + x) % 2 ^ 32 = ctx.tail_len + x := by
      apply Nat.mod_eq_of_lt
      rcases hbs with rfl | rfl <;> omega
    simp only [callBytes, List.map_nil, List.flatten_nil, List.nil_append]
    rw [hm, slice_memcpy_append]

/-- Bytes are conserved by the branches that start with an empty tail. -/
theorem sha_direct_bytes (bs : Nat) (hbs : bs = 64 ∨ bs = 128) (P : ShaPrim)
    (part : SHA_MSG_PART) (ctx : IBMCA_SHA_CTX) (in_data : Buf) (x : Nat) (hx : x < 2 ^ 32) :
    callBytes (sha_submit P part
        { ctx with tail := (sha_split bs ctx.tail in_data 0 x).2.2.1,
                   tail_len := (sha_split bs ctx.tail in_data 0 x).1 }
        in_data 0 (sha_split bs ctx.tail in_data 0 x).2.1 []
        (sha_split bs ctx.tail in_data 0 x).2.2.2).calls
      ++ slice (sha_submit P part
        { ctx with tail := (sha_split bs ctx.tail in_data 0 x).2.2.1,
                   tail_len := (sha_split bs ctx.tail in_data 0 x).1 }
        in_data 0 (sha_split bs ctx.tail in_data 0 x).2.1 []
        (sha_split bs ctx.tail in_data 0 x).2.2.2).ctx.tail 0
        (sha_submit P part
        { ctx with tail := (sha_split bs ctx.tail in_data 0 x).2.2.1,
                   tail_len := (sha_split bs ctx.tail in_data 0 x).1 }
        in_data 0 (sha_split bs ctx.tail in_data 0 x).2.1 []
        (sha_split bs ctx.tail in_data 0 x).2.2.2).ctx.tail_len
      = slice in_data 0 x := by
  have hx64 : x < 2 ^ 64 := by omega
  have hs := sha_split_len bs hbs ctx.tail in_data 0 x hx64
  have hst := sha_split_tail bs hbs ctx.tail in_data 0 x hx64
  rw [sha_submit_bytes, (sha_submit_ctx _ _ _ _ _ _ _ _).1, (sha_submit_ctx _ _ _ _ _ _ _ _).2.1]
  simp only [hs.1, hs.2, hst]
  have hm : (x - x % bs) % 2 ^ 32 = x - x % bs := by
    apply Nat.mod_eq_of_lt
    omega
  rw [hm]
  have e : x = (x - x % bs) + x % bs := by
    have := Nat.mod_le x bs
    omega
  conv_rhs => rw [e, slice_add]
  simp [callBytes]

/-- Byte conservation of one successful `update` of fewer than `2 ^ 32` bytes. -/
theorem sha_update_bytes (bs : Nat) (hbs : bs = 64 ∨ bs = 128) (P : ShaPrim)
    (ctx : IBMCA_SHA_CTX) (in_data : Buf) (x : Nat)
    (ht : ctx.tail_len ≤ bs) (hx : x < 2 ^ 32)
    (hret : (sha_update bs P ctx in_data x).ret = 1) :
    callBytes (sha_update bs P ctx in_data x).calls
        ++ slice (sha_update bs P ctx in_data x).ctx.tail 0
            (sha_update bs P ctx in_data x).ctx.tail_len
      = slice ctx.tail 0 ctx.tail_len ++ slice in_data 0 x := by
  unfold sha_update at hret ⊢
  simp only at hret ⊢
  split
  · rename_i h0
    simp [h0, callBytes, slice_zero]
  · rename_i h0
    rw [if_neg h0] at hret
    split
    · rename_i hA
      rw [hA.2, slice_zero, List.nil_append]
      exact sha_direct_bytes bs hbs P _ ctx in_data x hx
    · rename_i hA
      rw [if_neg hA] at hret
      split
      · rename_i hB
        rw [if_pos hB] at hret
        exact sha_fill_bytes bs hbs P _ ctx in_data x ht hx hret
      · rename_i hB
        rw [if_neg hB] at hret
        split
        · rename_i hC
          rw [if_pos hC] at hret
          split
          · rename_i hT
            rw [if_pos hT] at hret
            exact sha_fill_bytes bs hbs P _ ctx in_data x ht hx hret
          · rename_i hT
            have hT0 : ctx.tail_len = 0 := by simpa using hT
            rw [hT0, slice_zero, List.nil_append]
            exact sha_direct_bytes bs hbs P _ ctx in_data x hx
        · rename_i hC
          exfalso
          omega

/-- The buffered length never exceeds the block size, whatever the input length and
whatever the outcome of the primitive calls. -/
theorem sha_update_tail_le (bs : Nat) (hbs : bs = 64 ∨ bs = 128) (P : ShaPrim)
    (ctx : IBMCA_SHA_CTX) (in_data : Buf) (x : Nat)
    (ht : ctx.tail_len ≤ bs) (hx : x < 2 ^ 64) :
    (sha_update bs P ctx in_data x).ctx.tail_len ≤ bs := by
  have hsplit : ∀ tail f y, y < 2 ^ 64 → (sha_split bs tail in_data f y).1 ≤ bs := by
    intro tail f y hy
    rw [(sha_split_len bs hbs tail in_data f y hy).1]
    have : 0 < bs := by rcases hbs with rfl | rfl <;> norm_num
    exact le_of_lt (Nat.mod_lt _ this)
  have hfill : ∀ part, (sha_fill bs P part ctx in_data x).ctx.tail_len ≤ bs := by
    intro part
    have hf := fill_size_eq bs hbs ctx.tail_len ht
    unfold sha_fill
    simp only [hf]
    split
    · split
      · exact ht
      · rw [(sha_submit_ctx _ _ _ _ _ _ _ _).2.1]
        exact hsplit _ _ _ (by omega)
    · rename_i hlt
      have hm : (ctx.tail_len + x) % 2 ^ 32 = ctx.tail_len + x := by
        apply Nat.mod_eq_of_lt
        rcases hbs with rfl | rfl <;> omega
      show (ctx.tail_len + x) % 2 ^ 32 ≤ bs
      rw [hm]
      omega
  unfold sha_update
  simp only
  split
  · exact ht
  · split
    · rw [(sha_submit_ctx _ _ _ _ _ _ _ _).2.1]
      exact hsplit _ _ _ hx
    · split
      · exact hfill _
      · split
        · split
          · exact hfill _
          · rw [(sha_submit_ctx _ _ _ _ _ _ _ _).2.1]
            exact hsplit _ _ _ hx
        · rw [(sha_submit_ctx _ _ _ _ _ _ _ _).2.1]
          exact ht

/-- A successful closing call keeps the stream contract. -/
theorem sha_submit_stream (P : ShaPrim) (R : sha_context_t → List Byte → Prop)
    (H : List Byte → List Byte) (hP : HashesStream P R H) (part : SHA_MSG_PART)
    (hpart : part = SHA_MSG_PART.FIRST ∨ part = SHA_MSG_PART.MIDDLE)
    (ctx : IBMCA_SHA_CTX) (in_data : Buf) (f n : Nat) (calls : List ShaCall)
    (copies : List (Nat × Nat)) (s : List Byte) (hR : R ctx.c s)
    (hret : (sha_submit P part ctx in_data f n calls copies).ret = 1) :
    R (sha_submit P part ctx in_data f n calls copies).ctx.c
      (s ++ slice in_data f (n % 2 ^ 32)) := by
  unfold sha_submit at hret ⊢
  by_cases hn : n = 0
  · simp [hn, slice_zero, hR]
  · have hn1 : n ≠ 0 := hn
    rw [if_pos hn1] at hret ⊢
    by_cases hrc : (P part (slice in_data f (n % 2 ^ 32)) ctx.c).1 = 0
    · exact hP.step part _ ctx.c s hpart hrc hR
    · have hrc1 : (P part (slice in_data f (n % 2 ^ 32)) ctx.c).1 ≠ 0 := hrc
      simp only [if_pos hrc1] at hret
      exact absurd hret (by decide)

/-- A successful top-up keeps the stream contract. -/
theorem sha_fill_stream (bs : Nat) (P : ShaPrim) (R : sha_context_t → List Byte → Prop)
    (H : List Byte → List Byte) (hP : HashesStream P R H) (part : SHA_MSG_PART)
    (hpart : part = SHA_MSG_PART.FIRST ∨ part = SHA_MSG_PART.MIDDLE)
    (ctx : IBMCA_SHA_CTX) (in_data : Buf) (x : Nat) (s : List Byte) (hR : R ctx.c s)
    (hret : (sha_fill bs P part ctx in_data x).ret = 1) :
    R (sha_fill bs P part ctx in_data x).ctx.c
      (s ++ callBytes (sha_fill bs P part ctx in_data x).calls) := by
  unfold sha_fill at hret ⊢
  simp only at hret ⊢
  split
  · rename_i hlt
    rw [if_pos hlt] at hret
    split
    · rename_i hrc
      rw [if_pos hrc] at hret
      simp at hret
    · rename_i hrc
      rw [if_neg hrc] at hret
      have hrc0 : (P part (slice (memcpy ctx.tail ctx.tail_len in_data 0
          ((2 ^ 32 + bs - ctx.tail_len % 2 ^ 32) % 2 ^ 32)) 0 bs) ctx.c).1 = 0 := by
        simpa using hrc
      rw [sha_submit_bytes]
      have h1 := hP.step part _ ctx.c s hpart hrc0 hR
      have h2 := sha_submit_stream P R H hP SHA_MSG_PART.MIDDLE (Or.inr rfl) _ in_data _ _ _ _ _
        h1 hret
      simpa [callBytes, List.append_assoc] using h2
  · simpa [callBytes] using hR

/-- A successful `update` keeps the stream contract: the context has absorbed exactly the
bytes of the calls made. -/
theorem sha_update_stream (bs : Nat) (P : ShaPrim) (R : sha_context_t → List Byte → Prop)
    (H : List Byte → List Byte) (hP : HashesStream P R H)
    (ctx : IBMCA_SHA_CTX) (in_data : Buf) (x : Nat) (s : List Byte) (hR : R ctx.c s)
    (hret : (sha_update bs P ctx in_data x).ret = 1) :
    R (sha_update bs P ctx in_data x).ctx.c
      (s ++ callBytes (sha_update bs P ctx in_data x).calls) := by
  unfold sha_update at hret ⊢
  simp only at hret ⊢
  split
  · simpa [callBytes] using hR
  · rename_i h0
    rw [if_neg h0] at hret
    split
    · rename_i hA
      rw [if_pos hA] at hret
      rw [sha_submit_bytes]
      have h2 := sha_submit_stream P R H hP _ (Or.inl rfl) _ in_data _ _ _ _ s (by exact hR) hret
      simpa [callBytes] using h2
    · rename_i hA
      rw [if_neg hA] at hret
      split
      · rename_i hB
        rw [if_pos hB] at hret
        exact sha_fill_stream bs P R H hP _ (Or.inl rfl) ctx in_data x s hR hret
      · rename_i hB
        rw [if_neg hB] at hret
        split
        · rename_i hC
          rw [if_pos hC] at hret
          split
          · rename_i hT
            rw [if_pos hT] at hret
            exact sha_fill_stream bs P R H hP _ (Or.inr rfl) ctx in_data x s hR hret
          · rename_i hT
            rw [if_neg hT] at hret
            rw [sha_submit_bytes]
            have h2 :=
              sha_submit_stream P R H hP _ (Or.inr rfl) _ in_data _ _ _ _ s (by exact hR) hret
            simpa [callBytes] using h2
        · rename_i hC
          rw [if_neg hC] at hret
          rw [sha_submit_bytes]
          have h2 :=
            sha_submit_stream P R H hP _ (Or.inr rfl) _ in_data _ _ _ _ s (by exact hR) hret
          simpa [callBytes] using h2

theorem sha_submit_ret (P : ShaPrim) (part : SHA_MSG_PART) (ctx : IBMCA_SHA_CTX)
    (in_data : Buf) (f n : Nat) (calls : List ShaCall) (copies : List (Nat × Nat)) :
    (sha_submit P part ctx in_data f n calls copies).ret = 0
      ∨ (sha_submit P part ctx in_data f n calls copies).ret = 1 := by
  unfold sha_submit
  split
  · simp only
    split
    · exact Or.inl rfl
    · exact Or.inr rfl
  · exact Or.inr rfl

theorem sha_fill_ret (bs : Nat) (P : ShaPrim) (part : SHA_MSG_PART) (ctx : IBMCA_SHA_CTX)
    (in_data : Buf) (x : Nat) :
    (sha_fill bs P part ctx in_data x).ret = 0 ∨ (sha_fill bs P part ctx in_data x).ret = 1 := by
  unfold sha_fill
  simp only
  split
  · split
    · exact Or.inl rfl
    · exact sha_submit_ret _ _ _ _ _ _ _ _
  · exact Or.inr rfl

/-- An `update` returns `0` (failure) or `1` (success). -/
theorem sha_update_ret (bs : Nat) (P : ShaPrim) (ctx : IBMCA_SHA_CTX) (in_data : Buf)
    (x : Nat) :
    (sha_update bs P ctx in_data x).ret = 0 ∨ (sha_update bs P ctx in_data x).ret = 1 := by
  unfold sha_update
  simp only
  split
  · exact Or.inr rfl
  · split
    · exact sha_submit_ret _ _ _ _ _ _ _ _
    · split
      · exact sha_fill_ret _ _ _ _ _ _
      · split
        · split
          · exact sha_fill_ret _ _ _ _ _ _
          · exact sha_submit_ret _ _ _ _ _ _ _ _
        · exact sha_submit_ret _ _ _ _ _ _ _ _

/-- Session level: after the updates of a session that all succeeded, the bytes handed to
the primitive followed by the buffered bytes are the buffered bytes at the start followed
by the message, the buffer holds at most one block, and the stream contract is kept. -/
theorem sha_updates_bytes (bs : Nat) (hbs : bs = 64 ∨ bs = 128) (P : ShaPrim)
    (chunks : List Chunk) :
    ∀ ctx : IBMCA_SHA_CTX, ctx.tail_len ≤ bs → (∀ ch ∈ chunks, ch.len < 2 ^ 32) →
      (sha_updates bs P ctx chunks).ok = true →
      (callBytes (sha_updates bs P ctx chunks).calls
          ++ slice (sha_updates bs P ctx chunks).ctx.tail 0
              (sha_updates bs P ctx chunks).ctx.tail_len
        = slice ctx.tail 0 ctx.tail_len ++ message chunks)
      ∧ (sha_updates bs P ctx chunks).ctx.tail_len ≤ bs
      ∧ ∀ (R : sha_context_t → List Byte → Prop) (H : List Byte → List Byte) (s : List Byte),
          HashesStream P R H → R ctx.c s →
          R (sha_updates bs P ctx chunks).ctx.c
            (s ++ callBytes (sha_updates bs P ctx chunks).calls) := by
  induction chunks with
  | nil =>
    intro ctx ht _ _
    refine ⟨by simp [sha_updates, callBytes, message], ht, ?_⟩
    intro R H s _ hR
    simpa [sha_updates, callBytes] using hR
  | cons ch rest ih =>
    intro ctx ht hlen hok
    have hch : ch.len < 2 ^ 32 := hlen ch (List.mem_cons_self _ _)
    have hrest : ∀ c ∈ rest, c.len < 2 ^ 32 := fun c hc => hlen c (List.mem_cons_of_mem _ hc)
    unfold sha_updates at hok ⊢
    simp only at hok ⊢
    by_cases hr : (sha_update bs P ctx ch.data ch.len).ret = 0
    · simp [hr] at hok
    · rw [if_neg hr] at hok ⊢
      have hret : (sha_update bs P ctx ch.data ch.len).ret = 1 := by
        have := sha_update_ret bs P ctx ch.data ch.len
        omega
      have hstep := sha_update_bytes bs hbs P ctx ch.data ch.len ht hch hret
      have htl := sha_update_tail_le bs hbs P ctx ch.data ch.len ht (by omega)
      obtain ⟨ih1, ih2, ih3⟩ := ih (sha_update bs P ctx ch.data ch.len).ctx htl hrest hok
      refine ⟨?_, ih2, ?_⟩
      · show callBytes ((sha_update bs P ctx ch.data ch.len).calls ++ _) ++ _ = _
        rw [callBytes_append, List.append_assoc, ih1, ← List.append_assoc, hstep]
        simp [message, Chunk.bytes]
      · intro R H s hP hR
        show R _ (s ++ callBytes ((sha_update bs P ctx ch.data ch.len).calls ++ _))
        rw [callBytes_append, ← List.append_assoc]
        exact ih3 R H _ hP (sha_update_stream bs P R H hP ctx ch.data ch.len s hR hret)

/-! ## Segment kinds -/

/-- The segment kinds of a list of calls. -/
theorem sha_submit_kinds (bs : Nat) (hbs : bs = 64 ∨ bs = 128) (P : ShaPrim)
    (hP : CountsBlocks bs P) (part : SHA_MSG_PART) (ctx : IBMCA_SHA_CTX) (in_data : Buf)
    (f n : Nat) (calls : List ShaCall) (copies : List (Nat × Nat))
    (hn : n % bs = 0) (hn32 : n < 2 ^ 32)
    (hret : (sha_submit P part ctx in_data f n calls copies).ret = 1) :
    ((sha_submit P part ctx in_data f n calls copies).calls = calls ∧
      (sha_submit P part ctx in_data f n calls copies).ctx.c = ctx.c) ∨
    ((sha_submit P part ctx in_data f n calls copies).calls.map ShaCall.part
        = calls.map ShaCall.part ++ [part] ∧
      0 < (sha_submit P part ctx in_data f n calls copies).ctx.c.runningLength) := by
  unfold sha_submit at hret ⊢
  by_cases h0 : n = 0
  · left
    simp [h0]
  · right
    have h1 : n ≠ 0 := h0
    rw [if_pos h1] at hret ⊢
    have hm : n % 2 ^ 32 = n := Nat.mod_eq_of_lt hn32
    refine ⟨by simp, ?_⟩
    by_cases hrc : (P part (slice in_data f (n % 2 ^ 32)) ctx.c).1 = 0
    · apply hP part _ ctx.c hrc
      rw [slice_length, hm]
      rcases hbs with rfl | rfl <;> omega
    · have hrc1 : (P part (slice in_data f (n % 2 ^ 32)) ctx.c).1 ≠ 0 := hrc
      simp only [if_pos hrc1] at hret
      exact absurd hret (by decide)

theorem sha_fill_kinds (bs : Nat) (hbs : bs = 64 ∨ bs = 128) (P : ShaPrim)
    (hP : CountsBlocks bs P) (part : SHA_MSG_PART) (ctx : IBMCA_SHA_CTX) (in_data : Buf)
    (x : Nat) (ht : ctx.tail_len ≤ bs) (hx : x < 2 ^ 32)
    (hret : (sha_fill bs P part ctx in_data x).ret = 1) :
    ((sha_fill bs P part ctx in_data x).calls = [] ∧
      (sha_fill bs P part ctx in_data x).ctx.c = ctx.c) ∨
    (∃ n, (sha_fill bs P part ctx in_data x).calls.map ShaCall.part
        = part :: List.replicate n SHA_MSG_PART.MIDDLE ∧
      0 < (sha_fill bs P part ctx in_data x).ctx.c.runningLength) := by
  have hf := fill_size_eq bs hbs ctx.tail_len ht
  have hx64 : x - (bs - ctx.tail_len) < 2 ^ 64 := by omega
  have hs := sha_split_len bs hbs (memcpy ctx.tail ctx.tail_len in_data 0 (bs - ctx.tail_len))
    in_data (bs - ctx.tail_len) (x - (bs - ctx.tail_len)) hx64
  unfold sha_fill at hret ⊢
  simp only [hf] at hret ⊢
  split
  · rename_i hlt
    rw [if_pos hlt] at hret
    right
    split
    · rename_i hrc
      rw [if_pos hrc] at hret
      simp at hret
    · rename_i hrc
      rw [if_neg hrc] at hret
      have hrc0 : (P part (slice (memcpy ctx.tail ctx.tail_len in_data 0 (bs - ctx.tail_len))
          0 bs) ctx.c).1 = 0 := by
        simpa using hrc
      have hpos := hP part _ ctx.c hrc0 (by rw [slice_length])
      have hal : (sha_split bs (memcpy ctx.tail ctx.tail_len in_data 0 (bs - ctx.tail_len))
          in_data (bs - ctx.tail_len) (x - (bs - ctx.tail_len))).2.1 % bs = 0 := by
        rw [hs.2]
        exact Nat.sub_mod_eq_zero_of_mod_eq (Nat.mod_mod _ _).symm
      have hlt32 : (sha_split bs (memcpy ctx.tail ctx.tail_len in_data 0 (bs - ctx.tail_len))
          in_data (bs - ctx.tail_len) (x - (bs - ctx.tail_len))).2.1 < 2 ^ 32 := by
        rw [hs.2]
        omega
      rcases sha_submit_kinds bs hbs P hP SHA_MSG_PART.MIDDLE _ in_data _ _ _ _ hal hlt32 hret
        with ⟨h1, h2⟩ | ⟨h1, h2⟩
      · refine ⟨0, ?_, ?_⟩
        · rw [h1]
          rfl
        · rw [h2]
          exact hpos
      · exact ⟨1, by rw [h1]; rfl, h2⟩
  · left
    exact ⟨rfl, rfl⟩

theorem sha_direct_kinds (bs : Nat) (hbs : bs = 64 ∨ bs = 128) (P : ShaPrim)
    (hP : CountsBlocks bs P) (part : SHA_MSG_PART) (ctx : IBMCA_SHA_CTX) (in_data : Buf)
    (x : Nat) (hx : x < 2 ^ 32)
    (hret : (sha_submit P part
        { ctx with tail := (sha_split bs ctx.tail in_data 0 x).2.2.1,
                   tail_len := (sha_split bs ctx.tail in_data 0 x).1 }
        in_data 0 (sha_split bs ctx.tail in_data 0 x).2.1 []
        (sha_split bs ctx.tail in_data 0 x).2.2.2).ret = 1) :
    ((sha_submit P part
        { ctx with tail := (sha_split bs ctx.tail in_data 0 x).2.2.1,
                   tail_len := (sha_split bs ctx.tail in_data 0 x).1 }
        in_data 0 (sha_split bs ctx.tail in_data 0 x).2.1 []
        (sha_split bs ctx.tail in_data 0 x).2.2.2).calls = [] ∧
      (sha_submit P part
        { ctx with tail := (sha_split bs ctx.tail in_data 0 x).2.2.1,
                   tail_len := (sha_split bs ctx.tail in_data 0 x).1 }
        in_data 0 (sha_split bs ctx.tail in_data 0 x).2.1 []
        (sha_split bs ctx.tail in_data 0 x).2.2.2).ctx.c = ctx.c) ∨
    (∃ n, (sha_submit P part
        { ctx with tail := (sha_split bs ctx.tail in_data 0 x).2.2.1,
                   tail_len := (sha_split bs ctx.tail in_data 0 x).1 }
        in_data 0 (sha_split bs ctx.tail in_data 0 x).2.1 []
        (sha_split bs ctx.tail in_data 0 x).2.2.2).calls.map ShaCall.part
        = part :: List.replicate n SHA_MSG_PART.MIDDLE ∧
      0 < (sha_submit P part
        { ctx with tail := (sha_split bs ctx.tail in_data 0 x).2.2.1,
                   tail_len := (sha_split bs ctx.tail in_data 0 x).1 }
        in_data 0 (sha_split bs ctx.tail in_data 0 x).2.1 []
        (sha_split bs ctx.tail in_data 0 x).2.2.2).ctx.c.runningLength) := by
  have hs := sha_split_len bs hbs ctx.tail in_data 0 x (by omega)
  have hal : (sha_split bs ctx.tail in_data 0 x).2.1 % bs = 0 := by
    rw [hs.2]
    exact Nat.sub_mod_eq_zero_of_mod_eq (Nat.mod_mod _ _).symm
  have hlt32 : (sha_split bs ctx.tail in_data 0 x).2.1 < 2 ^ 32 := by
    rw [hs.2]
    omega
  rcases sha_submit_kinds bs hbs P hP part _ in_data _ _ _ _ hal hlt32 hret
    with ⟨h1, h2⟩ | ⟨h1, h2⟩
  · exact Or.inl ⟨h1, h2⟩
  · exact Or.inr ⟨0, by rw [h1]; rfl, h2⟩

/-- Kinds used by one successful `update`: none, or one leading kind -- `FIRST` when no
block was submitted before, else `MIDDLE` -- followed by `MIDDLE` only. -/
theorem sha_update_kinds (bs : Nat) (hbs : bs = 64 ∨ bs = 128) (P : ShaPrim)
    (hP : CountsBlocks bs P) (ctx : IBMCA_SHA_CTX) (in_data : Buf)
    (x : Nat) (ht : ctx.tail_len ≤ bs) (hx : x < 2 ^ 32)
    (hret : (sha_update bs P ctx in_data x).ret = 1) :
    ((sha_update bs P ctx in_data x).calls = [] ∧
      (sha_update bs P ctx in_data x).ctx.c = ctx.c) ∨
    (∃ n, (sha_update bs P ctx in_data x).calls.map ShaCall.part
        = (if ctx.c.runningLength = 0 then SHA_MSG_PART.FIRST else SHA_MSG_PART.MIDDLE)
            :: List.replicate n SHA_MSG_PART.MIDDLE ∧
      0 < (sha_update bs P ctx in_data x).ctx.c.runningLength) := by
  unfold sha_update at hret ⊢
  simp only at hret ⊢
  split
  · exact Or.inl ⟨rfl, rfl⟩
  · rename_i h0
    rw [if_neg h0] at hret
    split
    · rename_i hA
      rw [if_pos hA] at hret
      rw [if_pos hA.1]
      exact sha_direct_kinds bs hbs P hP _ ctx in_data x hx hret
    · rename_i hA
      rw [if_neg hA] at hret
      split
      · rename_i hB
        rw [if_pos hB] at hret
        rw [if_pos hB.1]
        exact sha_fill_kinds bs hbs P hP _ ctx in_data x ht hx hret
      · rename_i hB
        rw [if_neg hB] at hret
        split
        · rename_i hC
          rw [if_pos hC] at hret
          have hC0 : ¬ ctx.c.runningLength = 0 := by omega
          rw [if_neg hC0]
          split
          · rename_i hT
            rw [if_pos hT] at hret
            exact sha_fill_kinds bs hbs P hP _ ctx in_data x ht hx hret
          · rename_i hT
            rw [if_neg hT] at hret
            exact sha_direct_kinds bs hbs P hP _ ctx in_data x hx hret
        · rename_i hC
          exfalso
          omega

/-- Once a block was submitted, the updates of a session use `MIDDLE` only. -/
theorem sha_updates_kinds_running (bs : Nat) (hbs : bs = 64 ∨ bs = 128) (P : ShaPrim)
    (hP : CountsBlocks bs P) (chunks : List Chunk) :
    ∀ ctx : IBMCA_SHA_CTX, 0 < ctx.c.runningLength → ctx.tail_len ≤ bs →
      (∀ ch ∈ chunks, ch.len < 2 ^ 32) → (sha_updates bs P ctx chunks).ok = true →
      ∃ n, (sha_updates bs P ctx chunks).calls.map ShaCall.part
          = List.replicate n SHA_MSG_PART.MIDDLE ∧
        0 < (sha_updates bs P ctx chunks).ctx.c.runningLength := by
  induction chunks with
  | nil =>
    intro ctx hrl _ _ _
    exact ⟨0, rfl, hrl⟩
  | cons ch rest ih =>
    intro ctx hrl ht hlen hok
    have hch : ch.len < 2 ^ 32 := hlen ch (List.mem_cons_self _ _)
    have hrest : ∀ c ∈ rest, c.len < 2 ^ 32 := fun c hc => hlen c (List.mem_cons_of_mem _ hc)
    unfold sha_updates at hok ⊢
    simp only at hok ⊢
    by_cases hr : (sha_update bs P ctx ch.data ch.len).ret = 0
    · simp [hr] at hok
    · rw [if_neg hr] at hok ⊢
      have hret : (sha_update bs P ctx ch.data ch.len).ret = 1 := by
        have := sha_update_ret bs P ctx ch.data ch.len
        omega
      have htl := sha_update_tail_le bs hbs P ctx ch.data ch.len ht (by omega)
      have hne : ¬ ctx.c.runningLength = 0 := by omega
      have hk := sha_update_kinds bs hbs P hP ctx ch.data ch.len ht hch hret
      rw [if_neg hne] at hk
      have hrl1 : 0 < (sha_update bs P ctx ch.data ch.len).ctx.c.runningLength := by
        rcases hk with ⟨_, h2⟩ | ⟨_, _, h2⟩
        · rw [h2]
          exact hrl
        · exact h2
      obtain ⟨m, hm1, hm2⟩ := ih _ hrl1 htl hrest hok
      refine ⟨?_, ?_, hm2⟩
      · exact (if (sha_update bs P ctx ch.data ch.len).calls = [] then m
          else (sha_update bs P ctx ch.data ch.len).calls.length + m)
      · show List.map ShaCall.part ((sha_update bs P ctx ch.data ch.len).calls ++ _) = _
        rw [List.map_append, hm1]
        rcases hk with ⟨h1, _⟩ | ⟨n, h1, _⟩
        · simp [h1]
        · have hlen1 : (sha_update bs P ctx ch.data ch.len).calls.length = n + 1 := by
            have := congrArg List.length h1
            simpa using this
          have hne1 : (sha_update bs P ctx ch.data ch.len).calls ≠ [] := by
            intro h
            rw [h] at hlen1
            simp at hlen1
          rw [if_neg hne1, h1, hlen1]
          rw [← List.replicate_succ, List.append_replicate_replicate]

/-- Kinds used by the updates of a session that starts before any submission: none, or
`FIRST` followed by `MIDDLE` only. -/
theorem sha_updates_kinds (bs : Nat) (hbs : bs = 64 ∨ bs = 128) (P : ShaPrim)
    (hP : CountsBlocks bs P) (chunks : List Chunk) :
    ∀ ctx : IBMCA_SHA_CTX, ctx.c.runningLength = 0 → ctx.tail_len ≤ bs →
      (∀ ch ∈ chunks, ch.len < 2 ^ 32) → (sha_updates bs P ctx chunks).ok = true →
      ((sha_updates bs P ctx chunks).calls = [] ∧
        (sha_updates bs P ctx chunks).ctx.c.runningLength = 0) ∨
      (∃ n, (sha_updates bs P ctx chunks).calls.map ShaCall.part
          = SHA_MSG_PART.FIRST :: List.replicate n SHA_MSG_PART.MIDDLE ∧
        0 < (sha_updates bs P ctx chunks).ctx.c.runningLength) := by
  induction chunks with
  | nil =>
    intro ctx hrl _ _ _
    exact Or.inl ⟨rfl, hrl⟩
  | cons ch rest ih =>
    intro ctx hrl ht hlen hok
    have hch : ch.len < 2 ^ 32 := hlen ch (List.mem_cons_self _ _)
    have hrest : ∀ c ∈ rest, c.len < 2 ^ 32 := fun c hc => hlen c (List.mem_cons_of_mem _ hc)
    have hrun := sha_updates_kinds_running bs hbs P hP rest
    unfold sha_updates at hok ⊢
    simp only at hok ⊢
    by_cases hr : (sha_update bs P ctx ch.data ch.len).ret = 0
    · simp [hr] at hok
    · rw [if_neg hr] at hok ⊢
      have hret : (sha_update bs P ctx ch.data ch.len).ret = 1 := by
        have := sha_update_ret bs P ctx ch.data ch.len
        omega
      have htl := sha_update_tail_le bs hbs P ctx ch.data ch.len ht (by omega)
      have hk := sha_update_kinds bs hbs P hP ctx ch.data ch.len ht hch hret
      rw [if_pos hrl] at hk
      rcases hk with ⟨h1, h2⟩ | ⟨n, h1, h2⟩
      · have hrl0 : (sha_update bs P ctx ch.data ch.len).ctx.c.runningLength = 0 := by
          rw [h2]
          exact hrl
        rcases ih _ hrl0 htl hrest hok with ⟨i1, i2⟩ | ⟨m, i1, i2⟩
        · left
          refine ⟨?_, i2⟩
          show (sha_update bs P ctx ch.data ch.len).calls ++ _ = []
          rw [h1, i1]
          rfl
        · right
          refine ⟨m, ?_, i2⟩
          show List.map ShaCall.part ((sha_update bs P ctx ch.data ch.len).calls ++ _) = _
          rw [h1, List.nil_append, i1]
      · right
        obtain ⟨m, i1, i2⟩ := hrun _ h2 htl hrest hok
        refine ⟨n + m, ?_, i2⟩
        show List.map ShaCall.part ((sha_update bs P ctx ch.data ch.len).calls ++ _) = _
        rw [List.map_append, h1, i1, List.cons_append, List.append_replicate_replicate]

/-- Generic form of the chunking invariance of a digest session. -/
theorem sha_session_bytes (bs hlen : Nat) (hbs : bs = 64 ∨ bs = 128) (P : ShaPrim)
    (chunks : List Chunk) (hlens : ∀ ch ∈ chunks, ch.len < 2 ^ 32)
    (hok : (sha_session bs hlen P chunks).ok = true) :
    callBytes (sha_session bs hlen P chunks).calls = message chunks ∧
    ∀ (R : sha_context_t → List Byte → Prop) (H : List Byte → List Byte),
      HashesStream P R H → R (sha_init hlen).c [] →
      (sha_session bs hlen P chunks).md = H (message chunks) := by
  unfold sha_session at hok ⊢
  simp only at hok ⊢
  by_cases hu : (sha_updates bs P (sha_init hlen) chunks).ok = true
  · rw [if_pos hu] at hok ⊢
    have ht0 : (sha_init hlen).tail_len ≤ bs := Nat.zero_le _
    obtain ⟨h1, _, h3⟩ := sha_updates_bytes bs hbs P chunks (sha_init hlen) ht0 hlens hu
    have hmsg : callBytes (sha_updates bs P (sha_init hlen) chunks).calls
        ++ slice (sha_updates bs P (sha_init hlen) chunks).ctx.tail 0
            (sha_updates bs P (sha_init hlen) chunks).ctx.tail_len = message chunks := by
      rw [h1]
      simp [sha_init, slice_zero]
    constructor
    · show callBytes (_ ++ [(sha_final P _).call]) = _
      rw [callBytes_append, ← hmsg]
      simp [callBytes, sha_final]
    · intro R H hP hR
      have hfin : (sha_final P (sha_updates bs P (sha_init hlen) chunks).ctx).ret = 1 := by
        simpa using hok
      have hR1 := h3 R H [] hP hR
      rw [List.nil_append] at hR1
      show (sha_final P _).md = _
      unfold sha_final at hfin ⊢
      simp only at hfin ⊢
      rw [← hmsg]
      apply hP.finish _ _ _ _ _ _ hR1
      · split
        · exact Or.inr rfl
        · exact Or.inl rfl
      · by_contra hne
        rw [if_pos (show _ ≠ _ from hne)] at hfin
        exact absurd hfin (by decide)
  · have hu1 : (sha_updates bs P (sha_init hlen) chunks).ok = false := by
      simpa using hu
    rw [hu1] at hok
    simp [hu1] at hok

/-- Generic form of the segment-kind protocol of a digest session. -/
theorem sha_session_kinds (bs hlen : Nat) (hbs : bs = 64 ∨ bs = 128) (P : ShaPrim)
    (hP : CountsBlocks bs P) (chunks : List Chunk) (hlens : ∀ ch ∈ chunks, ch.len < 2 ^ 32)
    (hok : (sha_updates bs P (sha_init hlen) chunks).ok = true) :
    ((sha_updates bs P (sha_init hlen) chunks).calls = [] ∧
      (sha_session bs hlen P chunks).calls.map ShaCall.part = [SHA_MSG_PART.ONLY]) ∨
    (∃ n, (sha_updates bs P (sha_init hlen) chunks).calls.map ShaCall.part
        = SHA_MSG_PART.FIRST :: List.replicate n SHA_MSG_PART.MIDDLE ∧
      (sha_session bs hlen P chunks).calls.map ShaCall.part
        = SHA_MSG_PART.FIRST :: (List.replicate n SHA_MSG_PART.MIDDLE ++ [SHA_MSG_PART.FINAL]))
    := by
  have ht0 : (sha_init hlen).tail_len ≤ bs := Nat.zero_le _
  have hk := sha_updates_kinds bs hbs P hP chunks (sha_init hlen) rfl ht0 hlens hok
  unfold sha_session
  simp only [hok, if_true]
  rcases hk with ⟨h1, h2⟩ | ⟨n, h1, h2⟩
  · left
    refine ⟨h1, ?_⟩
    rw [h1]
    simp [sha_final, h2]
  · right
    refine ⟨n, h1, ?_⟩
    rw [List.map_append, h1]
    have hne : (sha_updates bs P (sha_init hlen) chunks).ctx.c.runningLength ≠ 0 := by omega
    simp [sha_final, hne]

/-! ## Byte counts of the calls made by `update` -/

theorem sha_submit_full (bs : Nat) (P : ShaPrim)
    (part : SHA_MSG_PART) (ctx : IBMCA_SHA_CTX) (in_data : Buf)
    (f n : Nat) (calls : List ShaCall) (copies : List (Nat × Nat))
    (hn : n % bs = 0) (hn32 : n < 2 ^ 32)
    (hcalls : ∀ call ∈ calls, call.len % bs = 0 ∧ 0 < call.len ∧ call.data.length = call.len) :
    ∀ call ∈ (sha_submit P part ctx in_data f n calls copies).calls,
      call.len % bs = 0 ∧ 0 < call.len ∧ call.data.length = call.len := by
  unfold sha_submit
  have hm : n % 2 ^ 32 = n := Nat.mod_eq_of_lt hn32
  split
  · rename_i h0
    intro call hc
    simp only [List.mem_append, List.mem_singleton] at hc
    rcases hc with hc | hc
    · exact hcalls call hc
    · subst hc
      simp only [slice_length, hm]
      exact ⟨hn, by omega, trivial⟩
  · exact hcalls

/-- For an input shorter than `2 ^ 32` bytes, every call made by `update` carries a
positive multiple of the block size. -/
theorem sha_update_full_blocks (bs : Nat) (hbs : bs = 64 ∨ bs = 128) (P : ShaPrim)
    (ctx : IBMCA_SHA_CTX) (in_data : Buf) (x : Nat) (ht : ctx.tail_len ≤ bs)
    (hx : x < 2 ^ 32) :
    ∀ call ∈ (sha_update bs P ctx in_data x).calls,
      call.len % bs = 0 ∧ 0 < call.len ∧ call.data.length = call.len := by
  have hbpos : 0 < bs := by rcases hbs with rfl | rfl <;> norm_num
  have hal : ∀ tail f y, y < 2 ^ 32 → (sha_split bs tail in_data f y).2.1 % bs = 0 ∧
      (sha_split bs tail in_data f y).2.1 < 2 ^ 32 := by
    intro tail f y hy
    rw [(sha_split_len bs hbs tail in_data f y (by omega)).2]
    exact ⟨Nat.sub_mod_eq_zero_of_mod_eq (Nat.mod_mod _ _).symm, by omega⟩
  have hnil : ∀ call ∈ ([] : List ShaCall),
      call.len % bs = 0 ∧ 0 < call.len ∧ call.data.length = call.len := by
    intro call hc
    cases hc
  have hfill : ∀ part, ∀ call ∈ (sha_fill bs P part ctx in_data x).calls,
      call.len % bs = 0 ∧ 0 < call.len ∧ call.data.length = call.len := by
    intro part
    have hf := fill_size_eq bs hbs ctx.tail_len ht
    unfold sha_fill
    simp only [hf]
    split
    · have hone1 : ∀ c : ShaCall, c.len = bs → c.data.length = bs → ∀ call ∈ [c],
          call.len % bs = 0 ∧ 0 < call.len ∧ call.data.length = call.len := by
        intro c h1 h2 call hc
        simp only [List.mem_singleton] at hc
        subst hc
        rw [h1, h2]
        exact ⟨Nat.mod_self bs, hbpos, rfl⟩
      have hone := hone1
        { part := part,
          len := bs,
          data := slice (memcpy ctx.tail ctx.tail_len in_data 0 (bs - ctx.tail_len)) 0 bs,
          rc := (P part (slice (memcpy ctx.tail ctx.tail_len in_data 0 (bs - ctx.tail_len)) 0 bs)
            ctx.c).1 } rfl (slice_length _ _ _)
      split
      · exact hone
      · have h := hal (memcpy ctx.tail ctx.tail_len in_data 0 (bs - ctx.tail_len))
          (bs - ctx.tail_len) (x - (bs - ctx.tail_len)) (by omega)
        exact sha_submit_full bs P _ _ in_data _ _ _ _ h.1 h.2 hone
    · exact hnil
  unfold sha_update
  simp only
  split
  · exact hnil
  · split
    · have h := hal ctx.tail 0 x hx
      exact sha_submit_full bs P _ _ in_data _ _ _ _ h.1 h.2 hnil
    · split
      · exact hfill _
      · split
        · split
          · exact hfill _
          · have h := hal ctx.tail 0 x hx
            exact sha_submit_full bs P _ _ in_data _ _ _ _ h.1 h.2 hnil
        · rename_i h1 h2 h3
          exfalso
          omega

/-- In every reachable accumulator state the buffered length is at most one block. -/
theorem sha_reachable_tail_le (bs hlen : Nat) (hbs : bs = 64 ∨ bs = 128) (P : ShaPrim)
    (ctx : IBMCA_SHA_CTX) (h : ShaReachable bs hlen P ctx) : ctx.tail_len ≤ bs := by
  induction h with
  | init => exact Nat.zero_le _
  | update ctx in_data inlen _ hx ih => exact sha_update_tail_le bs hbs P ctx in_data inlen ih hx

/-- An input that exactly completes a pending tail is only buffered: the update succeeds,
makes no primitive call and leaves a full block in the buffer. -/
theorem sha_update_exact_fill (bs : Nat) (hbs : bs = 64 ∨ bs = 128) (P : ShaPrim)
    (ctx : IBMCA_SHA_CTX) (in_data : Buf) (x : Nat)
    (ht : 0 < ctx.tail_len) (hfill : ctx.tail_len + x = bs) (hx : 0 < x) :
    (sha_update bs P ctx in_data x).ret = 1 ∧ (sha_update bs P ctx in_data x).calls = [] ∧
    (sha_update bs P ctx in_data x).ctx.tail_len = bs := by
  have hf := fill_size_eq bs hbs ctx.tail_len (by omega)
  have hnlt : ¬ bs - ctx.tail_len < x := by omega
  have hm : (ctx.tail_len + x) % 2 ^ 32 = bs := by
    rw [hfill]
    rcases hbs with rfl | rfl <;> norm_num
  have hfillres : ∀ part, (sha_fill bs P part ctx in_data x).ret = 1 ∧
      (sha_fill bs P part ctx in_data x).calls = [] ∧
      (sha_fill bs P part ctx in_data x).ctx.tail_len = bs := by
    intro part
    unfold sha_fill
    simp only [hf, if_neg hnlt]
    exact ⟨trivial, trivial, hm⟩
  unfold sha_update
  simp only
  have h0 : ¬ x = 0 := by omega
  rw [if_neg h0]
  have hA : ¬ (ctx.c.runningLength = 0 ∧ ctx.tail_len = 0) := by omega
  rw [if_neg hA]
  by_cases hrl : ctx.c.runningLength = 0
  · rw [if_pos ⟨hrl, ht⟩]
    exact hfillres _
  · have hB : ¬ (ctx.c.runningLength = 0 ∧ ctx.tail_len > 0) := by omega
    have hC : ctx.c.runningLength > 0 := by omega
    have hT : ctx.tail_len ≠ 0 := by omega
    rw [if_neg hB, if_pos hC, if_pos hT]
    exact hfillres _

/-! ## The branches of `update` -/

/-- With a pending tail, `update` is the top-up branch. -/
theorem sha_update_pending (bs : Nat) (P : ShaPrim) (ctx : IBMCA_SHA_CTX) (in_data : Buf)
    (x : Nat) (hx : x ≠ 0) (ht : ctx.tail_len ≠ 0) :
    ∃ part, sha_update bs P ctx in_data x = sha_fill bs P part ctx in_data x := by
  unfold sha_update
  simp only [if_neg hx, ht, and_false, if_false]
  by_cases hr : ctx.c.runningLength = 0
  · have ht2 : ctx.tail_len > 0 := Nat.pos_of_ne_zero ht
    simp only [hr, ht2, and_self, if_true]
    exact ⟨_, rfl⟩
  · have hr2 : ctx.c.runningLength > 0 := Nat.pos_of_ne_zero hr
    simp only [hr, false_and, if_false, hr2, if_true, ne_eq, not_false_eq_true]
    rw [if_pos ht]
    exact ⟨_, rfl⟩

/-- Without a pending tail, `update` splits the input and submits its aligned part. -/
theorem sha_update_direct (bs : Nat) (P : ShaPrim) (ctx : IBMCA_SHA_CTX) (in_data : Buf)
    (x : Nat) (hx : x ≠ 0) (ht : ctx.tail_len = 0) :
    ∃ part, sha_update bs P ctx in_data x
      = sha_submit P part
          { ctx with tail := (sha_split bs ctx.tail in_data 0 x).2.2.1,
                     tail_len := (sha_split bs ctx.tail in_data 0 x).1 }
          in_data 0 (sha_split bs ctx.tail in_data 0 x).2.1 []
          (sha_split bs ctx.tail in_data 0 x).2.2.2 := by
  unfold sha_update
  simp only [if_neg hx, ht, and_true, lt_self_iff_false, and_false, if_false, ne_eq,
    not_true_eq_false, gt_iff_lt]
  by_cases hr : ctx.c.runningLength = 0
  · simp only [hr, if_true]
    exact ⟨_, rfl⟩
  · have hr2 : 0 < ctx.c.runningLength := Nat.pos_of_ne_zero hr
    simp only [hr, if_false, hr2, if_true]
    exact ⟨_, rfl⟩

theorem sha_submit_head (P : ShaPrim) (part : SHA_MSG_PART) (ctx : IBMCA_SHA_CTX)
    (in_data : Buf) (f n : Nat) (c0 : ShaCall) (copies : List (Nat × Nat)) :
    ∃ rest, (sha_submit P part ctx in_data f n [c0] copies).calls = c0 :: rest := by
  unfold sha_submit
  split
  · exact ⟨_, rfl⟩
  · exact ⟨_, rfl⟩

/-- An input that exactly completes a pending tail is appended to the buffered bytes. -/
theorem sha_update_exact_fill_tail (bs : Nat) (hbs : bs = 64 ∨ bs = 128) (P : ShaPrim)
    (ctx : IBMCA_SHA_CTX) (in_data : Buf) (x : Nat)
    (ht : 0 < ctx.tail_len) (hfill : ctx.tail_len + x = bs) (hx : 0 < x) :
    slice (sha_update bs P ctx in_data x).ctx.tail 0 bs
      = slice ctx.tail 0 ctx.tail_len ++ slice in_data 0 x := by
  have hf := fill_size_eq bs hbs ctx.tail_len (by omega)
  have hnlt : ¬ bs - ctx.tail_len < x := by omega
  obtain ⟨part, hp⟩ := sha_update_pending bs P ctx in_data x (by omega) (by omega)
  rw [hp]
  unfold sha_fill
  simp only [hf, if_neg hnlt]
  rw [← hfill]
  exact slice_memcpy_append _ _ _ _

/-- A full buffered block is what the next non-empty `update` submits first. -/
theorem sha_update_full_tail (bs : Nat) (hbs : bs = 64 ∨ bs = 128) (P : ShaPrim)
    (ctx : IBMCA_SHA_CTX) (in_data : Buf) (x : Nat) (hx : 0 < x) (ht : ctx.tail_len = bs) :
    ∃ call rest, (sha_update bs P ctx in_data x).calls = call :: rest ∧ call.len = bs ∧
      call.data = slice ctx.tail 0 bs := by
  have hbpos : 0 < bs := by rcases hbs with rfl | rfl <;> norm_num
  have hf := fill_size_eq bs hbs ctx.tail_len (by omega)
  rw [ht, Nat.sub_self] at hf
  obtain ⟨part, hp⟩ := sha_update_pending bs P ctx in_data x (by omega) (by omega)
  rw [hp]
  have hs : slice (memcpy ctx.tail bs in_data 0 0) 0 bs = slice ctx.tail 0 bs := by
    apply slice_congr
    intro i _
    simp only [memcpy]
    rw [if_neg (by omega)]
  unfold sha_fill
  simp only [ht, hf, if_pos hx]
  split
  · exact ⟨_, [], rfl, rfl, hs⟩
  · obtain ⟨rest, hr⟩ := sha_submit_head P SHA_MSG_PART.MIDDLE
      { c := (P part (slice (memcpy ctx.tail bs in_data 0 0) 0 bs) ctx.c).2.1,
        tail := (sha_split bs (memcpy ctx.tail bs in_data 0 0) in_data 0 (x - 0)).2.2.1,
        tail_len := (sha_split bs (memcpy ctx.tail bs in_data 0 0) in_data 0 (x - 0)).1 }
      in_data 0 (sha_split bs (memcpy ctx.tail bs in_data 0 0) in_data 0 (x - 0)).2.1
      { part := part, len := bs, data := slice (memcpy ctx.tail bs in_data 0 0) 0 bs,
        rc := (P part (slice (memcpy ctx.tail bs in_data 0 0) 0 bs) ctx.c).1 }
      ((bs, 0) :: (sha_split bs (memcpy ctx.tail bs in_data 0 0) in_data 0 (x - 0)).2.2.2)
    exact ⟨_, rest, hr, rfl, hs⟩

/-! ## Claims on the digest accumulator -/

/-- The toy primitive `sumPrim` hashes its input stream with "sum of the bytes". -/
theorem sumPrim_hashes :
    HashesStream sumPrim (fun c s => c.shaHash.sum = s.sum) (fun s => [s.sum]) := by
  constructor
  · intro part data c s _ _ hR
    simp only [sumPrim, List.sum_cons, List.sum_nil, List.sum_append, Nat.add_zero]
    rw [hR]
  · intro part data c s _ _ hR
    simp only [sumPrim, List.sum_append]
    rw [hR]

theorem sumPrim_counts (bs : Nat) (hbs : 0 < bs) : CountsBlocks bs sumPrim := by
  intro part data c _ h
  simp only [sumPrim]
  omega

/-- C1: chunking invariance of the digest accumulator.  For each of SHA-1, SHA-256 (block
size 64) and SHA-512 (block size 128), every primitive and every splitting of a message
into update calls of fewer than `2 ^ 32` bytes each: if every primitive call of the session
`init, update*, final` succeeds, the byte strings handed to the primitive, concatenated in
call order, are the message; hence for a primitive that hashes its input stream with `H`
the digest written by `final` is `H message`, the same for every chunking. -/
theorem digest_chunking_invariance (P : ShaPrim) (chunks : List Chunk)
    (hlens : ∀ ch ∈ chunks, ch.len < 2 ^ 32) :
    ((ibmca_sha1_session P chunks).ok = true →
      callBytes (ibmca_sha1_session P chunks).calls = message chunks ∧
      ∀ (R : sha_context_t → List Byte → Prop) (H : List Byte → List Byte),
        HashesStream P R H → R ibmca_sha1_init.c [] →
        (ibmca_sha1_session P chunks).md = H (message chunks)) ∧
    ((ibmca_sha256_session P chunks).ok = true →
      callBytes (ibmca_sha256_session P chunks).calls = message chunks ∧
      ∀ (R : sha_context_t → List Byte → Prop) (H : List Byte → List Byte),
        HashesStream P R H → R ibmca_sha256_init.c [] →
        (ibmca_sha256_session P chunks).md = H (message chunks)) ∧
    ((ibmca_sha512_session P chunks).ok = true →
      callBytes (ibmca_sha512_session P chunks).calls = message chunks ∧
      ∀ (R : sha_context_t → List Byte → Prop) (H : List Byte → List Byte),
        HashesStream P R H → R ibmca_sha512_init.c [] →
        (ibmca_sha512_session P chunks).md = H (message chunks)) :=
  ⟨fun hok => sha_session_bytes 64 20 (Or.inl rfl) P chunks hlens hok,
   fun hok => sha_session_bytes 64 32 (Or.inl rfl) P chunks hlens hok,
   fun hok => sha_session_bytes 128 64 (Or.inr rfl) P chunks hlens hok⟩

/-- C1, evaluated: the three chunks of `exChunks` (10 + 54 + 130 bytes) with the toy
primitive; the session succeeds, hands the message to the primitive and outputs the sum
of the message bytes. -/
theorem digest_chunking_invariance_witness :
    (∀ ch ∈ exChunks, ch.len < 2 ^ 32) ∧
    (ibmca_sha1_session sumPrim exChunks).ok = true ∧
    callBytes (ibmca_sha1_session sumPrim exChunks).calls = message exChunks ∧
    (ibmca_sha1_session sumPrim exChunks).md = [(message exChunks).sum] :=
  have h1 : ∀ ch ∈ exChunks, ch.len < 2 ^ 32 := by
    intro ch hc
    simp only [exChunks, List.mem_cons, List.mem_singleton, List.not_mem_nil, or_false] at hc
    rcases hc with rfl | rfl | rfl <;> norm_num
  have h2 : (ibmca_sha1_session sumPrim exChunks).ok = true := by decide
  ⟨h1, h2, ((digest_chunking_invariance sumPrim exChunks h1).1 h2).1,
    ((digest_chunking_invariance sumPrim exChunks h1).1 h2).2 _ _ sumPrim_hashes (by decide)⟩

/-- C2, at the failing input: from the initial state, an update of `2 ^ 32` bytes calls
the primitive, for each of the three digests, with segment kind `FIRST` and byte count
`0`: the guard tests the block-aligned 64-bit length, the call passes it narrowed to
`unsigned int`. -/
theorem update_submits_zero_bytes :
    (ibmca_sha1_update sumPrim ibmca_sha1_init (fun _ => 0) (2 ^ 32)).calls
      = [{ part := SHA_MSG_PART.FIRST, len := 0, data := [], rc := 0 }] ∧
    (ibmca_sha256_update sumPrim ibmca_sha256_init (fun _ => 0) (2 ^ 32)).calls
      = [{ part := SHA_MSG_PART.FIRST, len := 0, data := [], rc := 0 }] ∧
    (ibmca_sha512_update sumPrim ibmca_sha512_init (fun _ => 0) (2 ^ 32)).calls
      = [{ part := SHA_MSG_PART.FIRST, len := 0, data := [], rc := 0 }] := by
  refine ⟨?_, ?_, ?_⟩ <;> decide

/-- C3: segment-kind protocol of a digest session.  For each of the three digests and
every primitive that makes `runningLength` positive after a successful submission of at
least one block: when all updates (each shorter than `2 ^ 32` bytes) of a session succeed,
either no update submitted anything and the only call, made by `final`, has kind `ONLY`;
or the updates submitted `FIRST` followed by `MIDDLE` only, and `final` adds `FINAL`. -/
theorem segment_kind_protocol (P : ShaPrim) (chunks : List Chunk)
    (hlens : ∀ ch ∈ chunks, ch.len < 2 ^ 32) :
    (CountsBlocks SHA_BLOCK_SIZE P →
      (sha_updates SHA_BLOCK_SIZE P ibmca_sha1_init chunks).ok = true →
      ((sha_updates SHA_BLOCK_SIZE P ibmca_sha1_init chunks).calls = [] ∧
        (ibmca_sha1_session P chunks).calls.map ShaCall.part = [SHA_MSG_PART.ONLY]) ∨
      (∃ n, (sha_updates SHA_BLOCK_SIZE P ibmca_sha1_init chunks).calls.map ShaCall.part
          = SHA_MSG_PART.FIRST :: List.replicate n SHA_MSG_PART.MIDDLE ∧
        (ibmca_sha1_session P chunks).calls.map ShaCall.part
          = SHA_MSG_PART.FIRST
              :: (List.replicate n SHA_MSG_PART.MIDDLE ++ [SHA_MSG_PART.FINAL]))) ∧
    (CountsBlocks SHA256_BLOCK_SIZE P →
      (sha_updates SHA256_BLOCK_SIZE P ibmca_sha256_init chunks).ok = true →
      ((sha_updates SHA256_BLOCK_SIZE P ibmca_sha256_init chunks).calls = [] ∧
        (ibmca_sha256_session P chunks).calls.map ShaCall.part = [SHA_MSG_PART.ONLY]) ∨
      (∃ n, (sha_updates SHA256_BLOCK_SIZE P ibmca_sha256_init chunks).calls.map ShaCall.part
          = SHA_MSG_PART.FIRST :: List.replicate n SHA_MSG_PART.MIDDLE ∧
        (ibmca_sha256_session P chunks).calls.map ShaCall.part
          = SHA_MSG_PART.FIRST
              :: (List.replicate n SHA_MSG_PART.MIDDLE ++ [SHA_MSG_PART.FINAL]))) ∧
    (CountsBlocks SHA512_BLOCK_SIZE P →
      (sha_updates SHA512_BLOCK_SIZE P ibmca_sha512_init chunks).ok = true →
      ((sha_updates SHA512_BLOCK_SIZE P ibmca_sha512_init chunks).calls = [] ∧
        (ibmca_sha512_session P chunks).calls.map ShaCall.part = [SHA_MSG_PART.ONLY]) ∨
      (∃ n, (sha_updates SHA512_BLOCK_SIZE P ibmca_sha512_init chunks).calls.map ShaCall.part
          = SHA_MSG_PART.FIRST :: List.replicate n SHA_MSG_PART.MIDDLE ∧
        (ibmca_sha512_session P chunks).calls.map ShaCall.part
          = SHA_MSG_PART.FIRST
              :: (List.replicate n SHA_MSG_PART.MIDDLE ++ [SHA_MSG_PART.FINAL]))) :=
  ⟨fun hP hok => sha_session_kinds 64 20 (Or.inl rfl) P hP chunks hlens hok,
   fun hP hok => sha_session_kinds 64 32 (Or.inl rfl) P hP chunks hlens hok,
   fun hP hok => sha_session_kinds 128 64 (Or.inr rfl) P hP chunks hlens hok⟩

set_option maxRecDepth 8192 in
/-- C3, evaluated on `exChunks`: the top-up of the 10-byte tail is `FIRST`, the two full
blocks of the third chunk are one `MIDDLE` call, and `final` submits `FINAL`. -/
theorem segment_kind_protocol_witness :
    (∀ ch ∈ exChunks, ch.len < 2 ^ 32) ∧ CountsBlocks SHA_BLOCK_SIZE sumPrim ∧
    (sha_updates SHA_BLOCK_SIZE sumPrim ibmca_sha1_init exChunks).ok = true ∧
    (ibmca_sha1_session sumPrim exChunks).calls.map ShaCall.part
      = [SHA_MSG_PART.FIRST, SHA_MSG_PART.MIDDLE, SHA_MSG_PART.FINAL] ∧
    (((sha_updates SHA_BLOCK_SIZE sumPrim ibmca_sha1_init exChunks).calls = [] ∧
        (ibmca_sha1_session sumPrim exChunks).calls.map ShaCall.part = [SHA_MSG_PART.ONLY]) ∨
      (∃ n, (sha_updates SHA_BLOCK_SIZE sumPrim ibmca_sha1_init exChunks).calls.map ShaCall.part
          = SHA_MSG_PART.FIRST :: List.replicate n SHA_MSG_PART.MIDDLE ∧
        (ibmca_sha1_session sumPrim exChunks).calls.map ShaCall.part
          = SHA_MSG_PART.FIRST
              :: (List.replicate n SHA_MSG_PART.MIDDLE ++ [SHA_MSG_PART.FINAL]))) :=
  have h1 : ∀ ch ∈ exChunks, ch.len < 2 ^ 32 := by
    intro ch hc
    simp only [exChunks, List.mem_cons, List.mem_singleton, List.not_mem_nil, or_false] at hc
    rcases hc with rfl | rfl | rfl <;> norm_num
  have h2 : CountsBlocks SHA_BLOCK_SIZE sumPrim := sumPrim_counts _ (by decide)
  have h3 : (sha_updates SHA_BLOCK_SIZE sumPrim ibmca_sha1_init exChunks).ok = true := by decide
  ⟨h1, h2, h3, by decide, (segment_kind_protocol sumPrim exChunks h1).1 h2 h3⟩

set_option maxRecDepth 8192 in
/-- C3, as stated, fails when a primitive call fails.  The primitive `failPrim` never
succeeds, so it fulfils the assumption of the claim; in the SHA-1 session with one update of
128 bytes the update submits `FIRST`, the call fails and the session ends there: the kinds
are `[FIRST]`, neither `[ONLY]` nor `FIRST, MIDDLE*, FINAL`.  Were `final` called all the
same, it would add `ONLY`. -/
theorem segment_kinds_after_failed_update :
    CountsBlocks SHA_BLOCK_SIZE failPrim ∧
    (ibmca_sha1_session failPrim [{ data := exInput, len := 128 }]).calls.map ShaCall.part
      = [SHA_MSG_PART.FIRST] ∧
    ((ibmca_sha1_update failPrim ibmca_sha1_init exInput 128).calls
      ++ [(ibmca_sha1_final failPrim
            (ibmca_sha1_update failPrim ibmca_sha1_init exInput 128).ctx).call]).map
        ShaCall.part
      = [SHA_MSG_PART.FIRST, SHA_MSG_PART.ONLY] ∧
    ¬ ((ibmca_sha1_session failPrim [{ data := exInput, len := 128 }]).calls.map ShaCall.part
          = [SHA_MSG_PART.ONLY] ∨
        ∃ n, (ibmca_sha1_session failPrim [{ data := exInput, len := 128 }]).calls.map
            ShaCall.part
          = SHA_MSG_PART.FIRST
              :: (List.replicate n SHA_MSG_PART.MIDDLE ++ [SHA_MSG_PART.FINAL])) := by
  have hk : (ibmca_sha1_session failPrim [{ data := exInput, len := 128 }]).calls.map
      ShaCall.part = [SHA_MSG_PART.FIRST] := by decide
  refine ⟨?_, hk, by decide, ?_⟩
  · intro part data c h
    exact absurd h (by simp [failPrim])
  · rw [hk]
    rintro (h | ⟨n, h⟩)
    · exact absurd h (by decide)
    · have hl := congrArg List.length h
      simp at hl

/-- C4, as stated, fails: after `update` of 10 bytes and `update` of 54 bytes, which
exactly completes the pending tail, the SHA-1 accumulator holds `tail_len = 64`, not `0`,
so a reachable state has `tail_len < 64` false. -/
theorem tail_len_reaches_block_size :
    ShaReachable SHA_BLOCK_SIZE 20 sumPrim fullTailCtx ∧ fullTailCtx.tail_len = 64 ∧
    ¬ (∀ ctx, ShaReachable SHA_BLOCK_SIZE 20 sumPrim ctx → ctx.tail_len < SHA_BLOCK_SIZE) := by
  have hr : ShaReachable SHA_BLOCK_SIZE 20 sumPrim fullTailCtx :=
    ShaReachable.update _ _ 54 (ShaReachable.update _ _ 10 ShaReachable.init (by norm_num))
      (by norm_num)
  have ht : fullTailCtx.tail_len = 64 := by decide
  refine ⟨hr, ht, ?_⟩
  intro h
  have := h fullTailCtx hr
  rw [ht] at this
  exact absurd this (by decide)

/-- C4, amended: for each of the three digests, in every state reachable from `init` the
buffered length is at most the block size; and an update whose input exactly completes a
pending tail succeeds without any primitive call (so no empty tail is submitted) and
leaves the full block buffered, `tail_len = block size`, the bytes being those buffered
before followed by the input; that block is what the first primitive call of the next
non-empty update submits, and what `final` submits when it comes next. -/
theorem tail_len_le_block_size (bs hlen : Nat) (P : ShaPrim) (ctx : IBMCA_SHA_CTX)
    (hbs : (bs = SHA_BLOCK_SIZE ∧ hlen = 20) ∨ (bs = SHA256_BLOCK_SIZE ∧ hlen = 32)
      ∨ (bs = SHA512_BLOCK_SIZE ∧ hlen = 64))
    (hr : ShaReachable bs hlen P ctx) :
    ctx.tail_len ≤ bs ∧
    ∀ (in_data : Buf) (inlen : Nat), 0 < ctx.tail_len → ctx.tail_len + inlen = bs →
      0 < inlen →
      (sha_update bs P ctx in_data inlen).ret = 1 ∧
      (sha_update bs P ctx in_data inlen).calls = [] ∧
      (sha_update bs P ctx in_data inlen).ctx.tail_len = bs ∧
      slice (sha_update bs P ctx in_data inlen).ctx.tail 0 bs
        = slice ctx.tail 0 ctx.tail_len ++ slice in_data 0 inlen ∧
      (∀ (in2 : Buf) (n2 : Nat), 0 < n2 →
        ∃ call rest,
          (sha_update bs P (sha_update bs P ctx in_data inlen).ctx in2 n2).calls
            = call :: rest ∧
          call.len = bs ∧
          call.data = slice ctx.tail 0 ctx.tail_len ++ slice in_data 0 inlen) ∧
      (sha_final P (sha_update bs P ctx in_data inlen).ctx).call.len = bs ∧
      (sha_final P (sha_update bs P ctx in_data inlen).ctx).call.data
        = slice ctx.tail 0 ctx.tail_len ++ slice in_data 0 inlen := by
  have hb : bs = 64 ∨ bs = 128 := by
    rcases hbs with ⟨h, _⟩ | ⟨h, _⟩ | ⟨h, _⟩
    · exact Or.inl h
    · exact Or.inl h
    · exact Or.inr h
  refine ⟨sha_reachable_tail_le bs hlen hb P ctx hr, ?_⟩
  intro in_data inlen h1 h2 h3
  obtain ⟨e1, e2, e3⟩ := sha_update_exact_fill bs hb P ctx in_data inlen h1 h2 h3
  have e4 := sha_update_exact_fill_tail bs hb P ctx in_data inlen h1 h2 h3
  refine ⟨e1, e2, e3, e4, ?_, ?_, ?_⟩
  · intro in2 n2 hn2
    obtain ⟨call, rest, hc, hl, hd⟩ :=
      sha_update_full_tail bs hb P (sha_update bs P ctx in_data inlen).ctx in2 n2 hn2 e3
    exact ⟨call, rest, hc, hl, by rw [hd, e4]⟩
  · simp only [sha_final]
    exact e3
  · simp only [sha_final]
    rw [e3]
    exact e4

set_option maxRecDepth 8192 in
/-- C4 amended, evaluated: the SHA-1 state holding 10 bytes, completed by 54 bytes; the next
update, of one byte, submits the 64 buffered bytes first, and so would `final`. -/
theorem tail_len_le_block_size_witness :
    ShaReachable SHA_BLOCK_SIZE 20 sumPrim
      (ibmca_sha1_update sumPrim ibmca_sha1_init (fun i => i) 10).ctx ∧
    (ibmca_sha1_update sumPrim ibmca_sha1_init (fun i => i) 10).ctx.tail_len = 10 ∧
    (sha_update SHA_BLOCK_SIZE sumPrim
      (ibmca_sha1_update sumPrim ibmca_sha1_init (fun i => i) 10).ctx (fun i => 100 + i) 54).calls
      = [] ∧
    (sha_update SHA_BLOCK_SIZE sumPrim
      (ibmca_sha1_update sumPrim ibmca_sha1_init (fun i => i) 10).ctx
      (fun i => 100 + i) 54).ctx.tail_len = SHA_BLOCK_SIZE ∧
    (∃ call rest,
      (sha_update SHA_BLOCK_SIZE sumPrim
        (sha_update SHA_BLOCK_SIZE sumPrim
          (ibmca_sha1_update sumPrim ibmca_sha1_init (fun i => i) 10).ctx
          (fun i => 100 + i) 54).ctx exInput 1).calls = call :: rest ∧
      call.len = SHA_BLOCK_SIZE ∧
      call.data
        = slice (ibmca_sha1_update sumPrim ibmca_sha1_init (fun i => i) 10).ctx.tail 0
            (ibmca_sha1_update sumPrim ibmca_sha1_init (fun i => i) 10).ctx.tail_len
          ++ slice (fun i => 100 + i) 0 54) ∧
    (sha_final sumPrim
      (sha_update SHA_BLOCK_SIZE sumPrim
        (ibmca_sha1_update sumPrim ibmca_sha1_init (fun i => i) 10).ctx
        (fun i => 100 + i) 54).ctx).call.data
      = (List.range 10) ++ (List.range 54).map (fun i => 100 + i) :=
  have hr : ShaReachable SHA_BLOCK_SIZE 20 sumPrim
      (ibmca_sha1_update sumPrim ibmca_sha1_init (fun i => i) 10).ctx :=
    ShaReachable.update _ _ 10 ShaReachable.init (by norm_num)
  have h := (tail_len_le_block_size SHA_BLOCK_SIZE 20 sumPrim _ (Or.inl ⟨rfl, rfl⟩) hr).2
    (fun i => 100 + i) 54 (by decide) (by decide) (by decide)
  ⟨hr, by decide, h.2.1, h.2.2.1, h.2.2.2.2.1 exInput 1 (by decide), by decide⟩

/-! ## Lemmas on the AES-GCM controller -/

theorem toInt32_nonneg (n : Nat) (h : n < 2 ^ 31) : 0 ≤ toInt32 n ∧ toInt32 n = n := by
  unfold toInt32
  have h1 : n % 2 ^ 32 = n := Nat.mod_eq_of_lt (by omega)
  rw [h1, if_pos h]
  exact ⟨Int.ofNat_nonneg n, rfl⟩

/-- The helper `ibmca_gcm_aad` after payload: `-2`, nothing called, nothing changed. -/
theorem ibmca_gcm_aad_after_payload (env : Env) (c : EVP_CIPHER_CTX) (aad : Buf) (len : Nat)
    (enc : Bool) (hp : c.cipher_data.ptlen ≠ 0) :
    ibmca_gcm_aad env c aad len enc = (-2, c, []) := by
  unfold ibmca_gcm_aad
  simp only [if_pos hp]

/-- The helper `ibmca_gcm_aad` past the capacity: `-1`, nothing called, nothing changed. -/
theorem ibmca_gcm_aad_capacity (env : Env) (c : EVP_CIPHER_CTX) (aad : Buf) (len : Nat)
    (enc : Bool) (hp : c.cipher_data.ptlen = 0)
    (hcap : (c.cipher_data.aadlen + len) % 2 ^ 64 > 2 ^ 61
      ∨ (c.cipher_data.aadlen + len) % 2 ^ 64 < len) :
    ibmca_gcm_aad env c aad len enc = (-1, c, []) := by
  unfold ibmca_gcm_aad
  have h : ¬ c.cipher_data.ptlen ≠ 0 := by simpa using hp
  simp only [if_neg h, if_pos hcap]

/-- The helper `ibmca_aes_gcm` past the capacity: `-1`, nothing called, nothing changed. -/
theorem ibmca_aes_gcm_capacity (env : Env) (c : EVP_CIPHER_CTX) (in_ out : Buf) (len : Nat)
    (enc : Bool)
    (hcap : (c.cipher_data.ptlen + len) % 2 ^ 64 > 2 ^ 36 - 32
      ∨ (c.cipher_data.ptlen + len) % 2 ^ 64 < len) :
    ibmca_aes_gcm env c in_ out len enc = (-1, c, out, []) := by
  unfold ibmca_aes_gcm
  simp only [if_pos hcap]

/-- The public operation, for an associated-data submission on a session with key and IV
set and no record header pending. -/
theorem cipher_aad_eq (env : Env) (c : EVP_CIPHER_CTX) (i : Ptr) (len : Nat)
    (hk : c.cipher_data.key_set ≠ 0) (ht : c.cipher_data.tls_aadlen < 0)
    (hiv : c.cipher_data.iv_set ≠ 0) :
    ibmca_aes_gcm_cipher env c none (some i) len
      = { ret := if (ibmca_gcm_aad env c i.mem len c.encrypt).1 = 0 then -1 else toInt32 len,
          ctx := (ibmca_gcm_aad env c i.mem len c.encrypt).2.1,
          out := fun _ => 0,
          calls := (ibmca_gcm_aad env c i.mem len c.encrypt).2.2 } := by
  unfold ibmca_aes_gcm_cipher
  have ht1 : ¬ c.cipher_data.tls_aadlen ≥ 0 := by omega
  simp only [if_neg hk, if_neg ht1, if_neg hiv]
  split <;> rfl

/-- The public operation, for a payload submission on a session with key and IV set and
no record header pending. -/
theorem cipher_payload_eq (env : Env) (c : EVP_CIPHER_CTX) (o i : Ptr) (len : Nat)
    (hk : c.cipher_data.key_set ≠ 0) (ht : c.cipher_data.tls_aadlen < 0)
    (hiv : c.cipher_data.iv_set ≠ 0) :
    ibmca_aes_gcm_cipher env c (some o) (some i) len
      = { ret := if (ibmca_aes_gcm env c i.mem o.mem len c.encrypt).1 = 0 then -1
                 else toInt32 len,
          ctx := (ibmca_aes_gcm env c i.mem o.mem len c.encrypt).2.1,
          out := (ibmca_aes_gcm env c i.mem o.mem len c.encrypt).2.2.1,
          calls := (ibmca_aes_gcm env c i.mem o.mem len c.encrypt).2.2.2 } := by
  unfold ibmca_aes_gcm_cipher
  have ht1 : ¬ c.cipher_data.tls_aadlen ≥ 0 := by omega
  simp only [if_neg hk, if_neg ht1, if_neg hiv]
  split <;> rfl

/-! ## The record-framed operation -/

theorem setiv_calls (env : Env) (c : EVP_CIPHER_CTX) :
    (ibmca_aes_gcm_setiv env c).2.2.any GcmCall.lastFailed = false := by
  unfold ibmca_aes_gcm_setiv gcm_derive
  split <;> simp [GcmCall.lastFailed]

theorem ctrl_calls (env : Env) (c : EVP_CIPHER_CTX) (type : Ctrl) (arg : Int) (ptr : Buf) :
    (ibmca_aes_gcm_ctrl env c type arg ptr).calls.any GcmCall.lastFailed = false := by
  have h := setiv_calls env
  unfold ibmca_aes_gcm_ctrl
  cases type <;> simp only
  · rfl
  · split
    · rfl
    · split
      · split <;> rfl
      · rfl
  · split <;> rfl
  · split <;> rfl
  · split
    · rfl
    · split
      · rfl
      · split
        · split <;> rfl
        · rfl
  · split
    · rfl
    · split
      · exact h _
      · exact h _
  · split
    · rfl
    · split
      · exact h _
      · exact h _
  · split
    · rfl
    · split
      · rfl
      · split <;> rfl
  · rfl

theorem aad_calls (env : Env) (c : EVP_CIPHER_CTX) (aad : Buf) (len : Nat) (enc : Bool) :
    (ibmca_gcm_aad env c aad len enc).2.2.any GcmCall.lastFailed = false := by
  unfold ibmca_gcm_aad
  simp only
  split
  · rfl
  · split <;> simp [GcmCall.lastFailed]

theorem gcm_calls (env : Env) (c : EVP_CIPHER_CTX) (in_ out : Buf) (len : Nat) (enc : Bool) :
    (ibmca_aes_gcm env c in_ out len enc).2.2.2.any GcmCall.lastFailed = false := by
  unfold ibmca_aes_gcm
  simp only
  split <;> simp [GcmCall.lastFailed]

/-- The closing call fails exactly when `ibmca_gcm_tag` returns `0`. -/
theorem tag_calls (env : Env) (c : EVP_CIPHER_CTX) (in_ : Option (List Byte)) (n : Nat) :
    (ibmca_gcm_tag env c in_ n).2.2.any GcmCall.lastFailed = true
      ↔ (ibmca_gcm_tag env c in_ n).1 = 0 := by
  unfold ibmca_gcm_tag
  simp only [List.any_cons, List.any_nil, Bool.or_false, GcmCall.lastFailed]
  split <;> simp_all

/-- Every exit through `err` clears the per-record state. -/
theorem tls_exit_resets (rv : Int) (c : EVP_CIPHER_CTX) (out : Buf) (calls : List GcmCall) :
    (tls_exit rv c out calls).ctx.cipher_data.iv_set = 0 ∧
    (tls_exit rv c out calls).ctx.cipher_data.tls_aadlen = -1 :=
  ⟨rfl, rfl⟩

theorem tls_tag_step_resets (env : Env) (enc : Bool) (len1 : Nat) (rec1 : Buf)
    (pre : List GcmCall) (c : EVP_CIPHER_CTX) :
    (tls_tag_step env enc len1 rec1 pre c).ctx.cipher_data.iv_set = 0 ∧
    (tls_tag_step env enc len1 rec1 pre c).ctx.cipher_data.tls_aadlen = -1 := by
  unfold tls_tag_step
  simp only
  split
  · split <;> exact tls_exit_resets _ _ _ _
  · split <;> exact tls_exit_resets _ _ _ _

theorem tls_payload_step_resets (env : Env) (enc : Bool) (len : Nat) (rec0 : Buf)
    (pre : List GcmCall) (c : EVP_CIPHER_CTX) :
    (tls_payload_step env enc len rec0 pre c).ctx.cipher_data.iv_set = 0 ∧
    (tls_payload_step env enc len rec0 pre c).ctx.cipher_data.tls_aadlen = -1 := by
  unfold tls_payload_step
  simp only
  split
  · exact tls_exit_resets _ _ _ _
  · exact tls_tag_step_resets _ _ _ _ _ _

theorem tls_aad_step_resets (env : Env) (enc : Bool) (len : Nat) (k : GcmResult) :
    (tls_aad_step env enc len k).ctx.cipher_data.iv_set = 0 ∧
    (tls_aad_step env enc len k).ctx.cipher_data.tls_aadlen = -1 := by
  unfold tls_aad_step
  simp only
  split
  · exact tls_exit_resets _ _ _ _
  · split
    · exact tls_exit_resets _ _ _ _
    · exact tls_payload_step_resets _ _ _ _ _ _

/-- Past its first check, the record-framed operation always leaves through `err`:
`iv_set = 0` and `tls_aadlen = -1` on return. -/
theorem tls_cipher_resets (env : Env) (c : EVP_CIPHER_CTX) (out in_ : Option Ptr) (len : Nat)
    (hsame : out.map Ptr.addr = in_.map Ptr.addr)
    (hlen : EVP_GCM_TLS_EXPLICIT_IV_LEN + EVP_GCM_TLS_TAG_LEN ≤ len) :
    (ibmca_aes_gcm_tls_cipher env c out in_ len).ctx.cipher_data.iv_set = 0 ∧
    (ibmca_aes_gcm_tls_cipher env c out in_ len).ctx.cipher_data.tls_aadlen = -1 := by
  unfold ibmca_aes_gcm_tls_cipher
  have h1 : ¬ (out.map Ptr.addr ≠ in_.map Ptr.addr
      ∨ len < EVP_GCM_TLS_EXPLICIT_IV_LEN + EVP_GCM_TLS_TAG_LEN) := by
    intro h
    rcases h with h | h
    · exact h hsame
    · omega
  simp only [if_neg h1]
  exact tls_aad_step_resets _ _ _ _

/-- The tag step of a decrypting record: when the closing call fails, the result is `-1`
and the payload region is zero. -/
theorem tls_tag_step_wipes (env : Env) (len1 : Nat) (rec1 : Buf) (pre : List GcmCall)
    (c : EVP_CIPHER_CTX) (hpre : pre.any GcmCall.lastFailed = false)
    (hfail : (tls_tag_step env false len1 rec1 pre c).calls.any GcmCall.lastFailed = true) :
    (tls_tag_step env false len1 rec1 pre c).ret = -1 ∧
    ∀ i, EVP_GCM_TLS_EXPLICIT_IV_LEN ≤ i → i < EVP_GCM_TLS_EXPLICIT_IV_LEN + len1 →
      (tls_tag_step env false len1 rec1 pre c).out i = 0 := by
  unfold tls_tag_step at hfail ⊢
  simp only [Bool.false_eq_true, if_false] at hfail ⊢
  split
  · refine ⟨rfl, ?_⟩
    intro i h8 h16
    simp only [tls_exit]
    rw [if_pos ⟨h8, h16⟩]
  · rename_i h5
    rw [if_neg h5] at hfail
    simp only [tls_exit, List.any_append, hpre, Bool.false_or] at hfail
    rw [tag_calls] at hfail
    exact absurd hfail h5

theorem tls_payload_step_wipes (env : Env) (len : Nat) (rec0 : Buf) (pre : List GcmCall)
    (c : EVP_CIPHER_CTX) (hpre : pre.any GcmCall.lastFailed = false)
    (hfail : (tls_payload_step env false len rec0 pre c).calls.any GcmCall.lastFailed = true) :
    (tls_payload_step env false len rec0 pre c).ret = -1 ∧
    ∀ i, EVP_GCM_TLS_EXPLICIT_IV_LEN ≤ i →
      i < EVP_GCM_TLS_EXPLICIT_IV_LEN
        + (len - (EVP_GCM_TLS_EXPLICIT_IV_LEN + EVP_GCM_TLS_TAG_LEN)) →
      (tls_payload_step env false len rec0 pre c).out i = 0 := by
  unfold tls_payload_step at hfail ⊢
  simp only at hfail ⊢
  split
  · rename_i h4
    rw [if_pos h4] at hfail
    simp [tls_exit, hpre, gcm_calls] at hfail
  · rename_i h4
    rw [if_neg h4] at hfail
    apply tls_tag_step_wipes env _ _ _ _ _ hfail
    simp [hpre, gcm_calls]

theorem tls_aad_step_wipes (env : Env) (len : Nat) (k : GcmResult)
    (hpre : k.calls.any GcmCall.lastFailed = false)
    (hfail : (tls_aad_step env false len k).calls.any GcmCall.lastFailed = true) :
    (tls_aad_step env false len k).ret = -1 ∧
    ∀ i, EVP_GCM_TLS_EXPLICIT_IV_LEN ≤ i →
      i < EVP_GCM_TLS_EXPLICIT_IV_LEN
        + (len - (EVP_GCM_TLS_EXPLICIT_IV_LEN + EVP_GCM_TLS_TAG_LEN)) →
      (tls_aad_step env false len k).out i = 0 := by
  unfold tls_aad_step at hfail ⊢
  simp only at hfail ⊢
  split
  · rename_i h2
    rw [if_pos h2] at hfail
    simp [tls_exit, hpre] at hfail
  · rename_i h2
    rw [if_neg h2] at hfail
    split
    · rename_i h3
      rw [if_pos h3] at hfail
      simp [tls_exit, hpre, aad_calls] at hfail
    · rename_i h3
      rw [if_neg h3] at hfail
      apply tls_payload_step_wipes env _ _ _ _ _ hfail
      simp [hpre, aad_calls]

/-! ## Bounds of the counters -/

theorem gctx_iv_store_bounded (c : EVP_CIPHER_CTX) (b : Buf) (h : Bounded c) :
    Bounded (gctx_iv_store c b) := by
  unfold gctx_iv_store
  split <;> exact h

theorem gcm_derive_aadlen (env : Env) (c : EVP_CIPHER_CTX) (iv : Buf) (enc : Bool) :
    (gcm_derive env c iv enc).2.1.cipher_data.aadlen = 0 := rfl

theorem gcm_derive_ptlen (env : Env) (c : EVP_CIPHER_CTX) (iv : Buf) (enc : Bool) :
    (gcm_derive env c iv enc).2.1.cipher_data.ptlen = 0 := rfl

theorem gcm_derive_bounded (env : Env) (c : EVP_CIPHER_CTX) (iv : Buf) (enc : Bool) :
    Bounded (gcm_derive env c iv enc).2.1 := by
  unfold gcm_derive Bounded
  simp

theorem gcm_aad_bounded (env : Env) (c : EVP_CIPHER_CTX) (aad : Buf) (len : Nat) (enc : Bool)
    (h : Bounded c) : Bounded (ibmca_gcm_aad env c aad len enc).2.1 := by
  unfold ibmca_gcm_aad
  simp only
  split
  · exact h
  · split
    · exact h
    · rename_i h1
      exact ⟨by simp only; omega, h.2⟩

theorem aes_gcm_bounded (env : Env) (c : EVP_CIPHER_CTX) (in_ out : Buf) (len : Nat)
    (enc : Bool) (h : Bounded c) : Bounded (ibmca_aes_gcm env c in_ out len enc).2.1 := by
  unfold ibmca_aes_gcm
  simp only
  split
  · exact h
  · rename_i h1
    exact ⟨h.1, by simp only; omega⟩

theorem gcm_tag_aadlen (env : Env) (c : EVP_CIPHER_CTX) (in_ : Option (List Byte)) (n : Nat) :
    (ibmca_gcm_tag env c in_ n).2.1.cipher_data.aadlen = c.cipher_data.aadlen := rfl

theorem gcm_tag_ptlen (env : Env) (c : EVP_CIPHER_CTX) (in_ : Option (List Byte)) (n : Nat) :
    (ibmca_gcm_tag env c in_ n).2.1.cipher_data.ptlen = c.cipher_data.ptlen := rfl

theorem gcm_tag_bounded (env : Env) (c : EVP_CIPHER_CTX) (in_ : Option (List Byte)) (n : Nat)
    (h : Bounded c) : Bounded (ibmca_gcm_tag env c in_ n).2.1 := by
  unfold ibmca_gcm_tag
  exact h

theorem setiv_bounded (env : Env) (c : EVP_CIPHER_CTX) (h : Bounded c) :
    Bounded (ibmca_aes_gcm_setiv env c).2.1 := by
  unfold ibmca_aes_gcm_setiv
  split
  · exact h
  · exact gcm_derive_bounded _ _ _ _

theorem with_flags_bounded (c : EVP_CIPHER_CTX) (g : ICA_AES_GCM_CTX)
    (h : Bounded c) (ha : g.aadlen = c.cipher_data.aadlen) (hp : g.ptlen = c.cipher_data.ptlen) :
    Bounded { c with cipher_data := g } := by
  unfold Bounded at h ⊢
  simp only [ha, hp]
  exact h

theorem ctrl_bounded (env : Env) (c : EVP_CIPHER_CTX) (type : Ctrl) (arg : Int) (ptr : Buf)
    (h : Bounded c) : Bounded (ibmca_aes_gcm_ctrl env c type arg ptr).ctx := by
  have hs := fun c1 (h1 : Bounded c1) => setiv_bounded env c1 h1
  have hst := fun c1 b (h1 : Bounded c1) => gctx_iv_store_bounded c1 b h1
  have hw : ∀ c1 : EVP_CIPHER_CTX, Bounded c1 → ∀ g : ICA_AES_GCM_CTX,
      g.aadlen = c1.cipher_data.aadlen → g.ptlen = c1.cipher_data.ptlen →
      Bounded { c1 with cipher_data := g } :=
    fun c1 h1 g ha hp => with_flags_bounded c1 g h1 ha hp
  unfold ibmca_aes_gcm_ctrl
  cases type <;> simp only
  · exact h
  · split
    · exact h
    · split
      · split <;> exact h
      · exact h
  · split <;> exact h
  · split <;> exact h
  · split
    · exact hw _ (hst _ _ h) _ rfl rfl
    · split
      · exact h
      · split
        · split
          · exact hst _ _ h
          · exact hw _ (hst _ _ (hst _ _ h)) _ rfl rfl
        · exact hw _ (hst _ _ h) _ rfl rfl
  · split
    · exact h
    · split
      · exact hs _ h
      · exact hw _ (hst _ _ (hs _ h)) _ rfl rfl
  · split
    · exact h
    · split
      · exact hs _ (hst _ _ h)
      · exact hw _ (hs _ (hst _ _ h)) _ rfl rfl
  · split
    · exact h
    · split
      · exact h
      · split <;> exact h
  · exact h

theorem tls_exit_bounded (rv : Int) (c : EVP_CIPHER_CTX) (out : Buf) (calls : List GcmCall)
    (h : Bounded c) : Bounded (tls_exit rv c out calls).ctx := h

theorem tls_tag_step_bounded (env : Env) (enc : Bool) (len1 : Nat) (rec1 : Buf)
    (pre : List GcmCall) (c : EVP_CIPHER_CTX) (h : Bounded c) :
    Bounded (tls_tag_step env enc len1 rec1 pre c).ctx := by
  unfold tls_tag_step
  simp only
  split
  · split <;> exact tls_exit_bounded _ _ _ _ (gcm_tag_bounded _ _ _ _ h)
  · split
    · exact tls_exit_bounded _ _ _ _ (gcm_tag_bounded _ _ _ _ h)
    · unfold Bounded tls_exit at *
      simp only [gcm_tag_aadlen, gcm_tag_ptlen]
      exact h

theorem tls_payload_step_bounded (env : Env) (enc : Bool) (len : Nat) (rec0 : Buf)
    (pre : List GcmCall) (c : EVP_CIPHER_CTX) (h : Bounded c) :
    Bounded (tls_payload_step env enc len rec0 pre c).ctx := by
  unfold tls_payload_step
  simp only
  split
  · exact tls_exit_bounded _ _ _ _ (aes_gcm_bounded _ _ _ _ _ _ h)
  · exact tls_tag_step_bounded _ _ _ _ _ _ (aes_gcm_bounded _ _ _ _ _ _ h)

theorem tls_aad_step_bounded (env : Env) (enc : Bool) (len : Nat) (k : GcmResult)
    (h : Bounded k.ctx) : Bounded (tls_aad_step env enc len k).ctx := by
  unfold tls_aad_step
  simp only
  split
  · exact tls_exit_bounded _ _ _ _ h
  · split
    · exact tls_exit_bounded _ _ _ _ (gcm_aad_bounded _ _ _ _ _ h)
    · exact tls_payload_step_bounded _ _ _ _ _ _ (gcm_aad_bounded _ _ _ _ _ h)

theorem tls_cipher_bounded (env : Env) (c : EVP_CIPHER_CTX) (out in_ : Option Ptr) (len : Nat)
    (h : Bounded c) : Bounded (ibmca_aes_gcm_tls_cipher env c out in_ len).ctx := by
  unfold ibmca_aes_gcm_tls_cipher
  simp only
  split
  · exact h
  · exact tls_aad_step_bounded _ _ _ _ (ctrl_bounded _ _ _ _ _ h)

theorem cipher_bounded (env : Env) (c : EVP_CIPHER_CTX) (out in_ : Option Ptr) (len : Nat)
    (h : Bounded c) : Bounded (ibmca_aes_gcm_cipher env c out in_ len).ctx := by
  unfold ibmca_aes_gcm_cipher
  simp only
  split
  · exact h
  · split
    · exact tls_cipher_bounded _ _ _ _ _ h
    · split
      · exact h
      · split
        · split
          · split <;> exact gcm_aad_bounded _ _ _ _ _ h
          · split <;> exact aes_gcm_bounded _ _ _ _ _ _ h
        · split
          · split
            · unfold Bounded at *
              simp only [gcm_tag_aadlen, gcm_tag_ptlen]
              exact h
            · unfold Bounded at *
              simp only [gcm_tag_aadlen, gcm_tag_ptlen]
              exact h
          · split
            · exact h
            · split
              · exact gcm_tag_bounded _ _ _ _ h
              · unfold Bounded at *
                simp only [gcm_tag_aadlen, gcm_tag_ptlen]
                exact h

theorem init_key_bounded (env : Env) (c : EVP_CIPHER_CTX) (key iv : Option Buf) (enc : Bool)
    (h : Bounded c) : Bounded (ibmca_aes_gcm_init_key env c key iv enc).ctx := by
  unfold ibmca_aes_gcm_init_key
  simp only
  split
  · exact h
  · split
    · split
      · exact gcm_derive_bounded _ _ _ _
      · unfold Bounded
        simp only [gcm_derive_aadlen, gcm_derive_ptlen]
        omega
    · exact h
  · split
    · split
      · exact gcm_derive_bounded _ _ _ _
      · unfold Bounded
        simp only [gcm_derive_aadlen, gcm_derive_ptlen]
        omega
    · exact gctx_iv_store_bounded _ _ h

/-- In every reachable session state both counters are within their bounds. -/
theorem reachable_bounded (env : Env) (c : EVP_CIPHER_CTX) (h : GcmReachable env c) :
    Bounded c := by
  induction h with
  | init enc key_len => exact ⟨Nat.zero_le _, Nat.zero_le _⟩
  | init_key c key iv _ ih => exact init_key_bounded env c key iv _ ih
  | ctrl c type arg ptr _ ih => exact ctrl_bounded env c type arg ptr ih
  | cipher c out in_ len _ _ ih => exact cipher_bounded env c out in_ len ih

/-! ## Round trip through the non-record interface -/

theorem slice_ofList (l : List Byte) : slice (ofList l) 0 l.length = l := by
  apply List.ext_getElem
  · simp [slice]
  · intro i h1 h2
    simp [slice, ofList, List.getD_eq_getElem?_getD, List.getElem?_eq_getElem h2]

theorem slice_ofList_eq (l : List Byte) (n : Nat) (h : l.length = n) :
    slice (ofList l) 0 n = l := by
  subst h
  exact slice_ofList l

theorem getD_slice (b : Buf) (n i : Nat) (h : i < n) : (slice b 0 n).getD i 0 = b i := by
  simp [slice, List.getD_eq_getElem?_getD, List.getElem?_eq_getElem, h]

theorem gcm_aad_twin (env : Env) (hI : GcmInverts env.P) (c : EVP_CIPHER_CTX) (aad : Buf)
    (len : Nat) :
    (ibmca_gcm_aad env (flipDir c) aad len false).1 = (ibmca_gcm_aad env c aad len true).1 ∧
    (ibmca_gcm_aad env (flipDir c) aad len false).2.1
      = flipDir (ibmca_gcm_aad env c aad len true).2.1 := by
  unfold ibmca_gcm_aad
  simp only [flipDir, hI.aad_dir]
  split
  · exact ⟨rfl, rfl⟩
  · split <;> exact ⟨rfl, rfl⟩

/-- An associated-data submission does the same to an encrypting session and to its
decrypting twin. -/
theorem cipher_aad_twin (env : Env) (hI : GcmInverts env.P) (c : EVP_CIPHER_CTX) (i : Ptr)
    (len : Nat) (hr : Ready c) (henc : c.encrypt = true) :
    (ibmca_aes_gcm_cipher env (flipDir c) none (some i) len).ret
      = (ibmca_aes_gcm_cipher env c none (some i) len).ret ∧
    (ibmca_aes_gcm_cipher env (flipDir c) none (some i) len).ctx
      = flipDir (ibmca_aes_gcm_cipher env c none (some i) len).ctx ∧
    Ready (ibmca_aes_gcm_cipher env c none (some i) len).ctx ∧
    (ibmca_aes_gcm_cipher env c none (some i) len).ctx.encrypt = true ∧
    (ibmca_aes_gcm_cipher env c none (some i) len).ctx.cipher_data.ptlen = c.cipher_data.ptlen
    := by
  have hr1 : Ready (flipDir c) := hr
  rw [cipher_aad_eq env c i len hr.1 hr.2.1 hr.2.2,
    cipher_aad_eq env (flipDir c) i len hr1.1 hr1.2.1 hr1.2.2, henc]
  have ht := gcm_aad_twin env hI c i.mem len
  have he : (flipDir c).encrypt = false := rfl
  rw [he]
  refine ⟨by simp only [ht.1], ht.2, ?_, ?_, ?_⟩
  · unfold ibmca_gcm_aad Ready
    simp only
    split
    · exact hr
    · split <;> exact hr
  · unfold ibmca_gcm_aad
    simp only
    split
    · exact henc
    · split <;> exact henc
  · unfold ibmca_gcm_aad
    simp only
    split
    · rfl
    · split <;> rfl

/-- The associated-data updates of a session and of its decrypting twin. -/
theorem gcm_aad_updates_twin (env : Env) (hI : GcmInverts env.P) (aads : List Chunk) :
    ∀ c : EVP_CIPHER_CTX, Ready c → c.encrypt = true →
      (gcm_aad_updates env (flipDir c) aads).1 = (gcm_aad_updates env c aads).1 ∧
      (gcm_aad_updates env (flipDir c) aads).2 = flipDir (gcm_aad_updates env c aads).2 ∧
      ((gcm_aad_updates env c aads).1 = true → Ready (gcm_aad_updates env c aads).2) ∧
      (gcm_aad_updates env c aads).2.encrypt = true ∧
      (gcm_aad_updates env c aads).2.cipher_data.ptlen = c.cipher_data.ptlen := by
  induction aads with
  | nil =>
    intro c hr henc
    exact ⟨rfl, rfl, fun _ => hr, henc, rfl⟩
  | cons ch rest ih =>
    intro c hr henc
    obtain ⟨h1, h2, h3, h4, h5⟩ :=
      cipher_aad_twin env hI c { addr := 1, mem := ch.data } ch.len hr henc
    unfold gcm_aad_updates
    simp only [h1, h2]
    split
    · exact ⟨rfl, rfl, fun h => absurd h (by simp), h4, h5⟩
    · obtain ⟨i1, i2, i3, i4, i5⟩ := ih _ h3 h4
      exact ⟨i1, i2, i3, i4, i5.trans h5⟩

/-- The helper `ibmca_aes_gcm` within the capacity: the counter advances by `len`, the
primitive is called once, and its output is copied to `out`. -/
theorem ibmca_aes_gcm_ok (env : Env) (c : EVP_CIPHER_CTX) (in_ out : Buf) (len : Nat)
    (enc : Bool) (hcap : c.cipher_data.ptlen + len ≤ 2 ^ 36 - 32) :
    ibmca_aes_gcm env c in_ out len enc
      = (if (env.P.gcm_intermediate (slice in_ 0 len) c.cipher_data.ucb [] c.cipher_data.tag
              (slice c.cipher_data.key 0 c.key_len) c.cipher_data.subkey enc).1 = 0
           then 1 else 0,
         { c with cipher_data :=
            { c.cipher_data with
              ptlen := c.cipher_data.ptlen + len,
              ucb := (env.P.gcm_intermediate (slice in_ 0 len) c.cipher_data.ucb []
                c.cipher_data.tag (slice c.cipher_data.key 0 c.key_len)
                c.cipher_data.subkey enc).2.2.1,
              tag := (env.P.gcm_intermediate (slice in_ 0 len) c.cipher_data.ucb []
                c.cipher_data.tag (slice c.cipher_data.key 0 c.key_len)
                c.cipher_data.subkey enc).2.2.2 } },
         memcpy out 0 (ofList (env.P.gcm_intermediate (slice in_ 0 len) c.cipher_data.ucb []
           c.cipher_data.tag (slice c.cipher_data.key 0 c.key_len)
           c.cipher_data.subkey enc).2.1) 0 len,
         [GcmCall.intermediate (slice in_ 0 len) [] enc
           (env.P.gcm_intermediate (slice in_ 0 len) c.cipher_data.ucb [] c.cipher_data.tag
             (slice c.cipher_data.key 0 c.key_len) c.cipher_data.subkey enc).1]) := by
  have hm : (c.cipher_data.ptlen + len) % 2 ^ 64 = c.cipher_data.ptlen + len :=
    Nat.mod_eq_of_lt (by omega)
  have hn : ¬ (c.cipher_data.ptlen + len > 2 ^ 36 - 32
      ∨ c.cipher_data.ptlen + len < len) := by
    omega
  unfold ibmca_aes_gcm
  simp only [hm, if_neg hn]

/-- A payload submission within the capacity that reports success on an encrypting
session, and the same submission of its output on the decrypting twin: the twin reports
the same, stays the twin, and its output is the plaintext. -/
theorem cipher_payload_twin (env : Env) (hI : GcmInverts env.P) (c : EVP_CIPHER_CTX)
    (o o2 i : Ptr) (a : Nat) (len : Nat) (hr : Ready c) (henc : c.encrypt = true)
    (hcap : c.cipher_data.ptlen + len ≤ 2 ^ 36 - 32)
    (hret : ¬ (ibmca_aes_gcm_cipher env c (some o) (some i) len).ret < 0) :
    (ibmca_aes_gcm_cipher env (flipDir c) (some o2)
        (some { addr := a, mem := (ibmca_aes_gcm_cipher env c (some o) (some i) len).out })
        len).ret
      = (ibmca_aes_gcm_cipher env c (some o) (some i) len).ret ∧
    (ibmca_aes_gcm_cipher env (flipDir c) (some o2)
        (some { addr := a, mem := (ibmca_aes_gcm_cipher env c (some o) (some i) len).out })
        len).ctx
      = flipDir (ibmca_aes_gcm_cipher env c (some o) (some i) len).ctx ∧
    (∀ j, j < len →
      (ibmca_aes_gcm_cipher env (flipDir c) (some o2)
        (some { addr := a, mem := (ibmca_aes_gcm_cipher env c (some o) (some i) len).out })
        len).out j = i.mem j) ∧
    Ready (ibmca_aes_gcm_cipher env c (some o) (some i) len).ctx ∧
    (ibmca_aes_gcm_cipher env c (some o) (some i) len).ctx.encrypt = true ∧
    (ibmca_aes_gcm_cipher env c (some o) (some i) len).ctx.cipher_data.ptlen
      = c.cipher_data.ptlen + len := by
  have hr1 : Ready (flipDir c) := hr
  have hcap1 : (flipDir c).cipher_data.ptlen + len ≤ 2 ^ 36 - 32 := hcap
  rw [cipher_payload_eq env c o i len hr.1 hr.2.1 hr.2.2, henc,
    ibmca_aes_gcm_ok env c i.mem o.mem len true hcap] at hret ⊢
  simp only at hret ⊢
  rw [cipher_payload_eq env (flipDir c) o2 _ len hr1.1 hr1.2.1 hr1.2.2,
    ibmca_aes_gcm_ok env (flipDir c) _ o2.mem len _ hcap1]
  simp only [flipDir]
  -- the encrypt-side primitive call succeeded
  have hrc : (env.P.gcm_intermediate (slice i.mem 0 len) c.cipher_data.ucb [] c.cipher_data.tag
      (slice c.cipher_data.key 0 c.key_len) c.cipher_data.subkey true).1 = 0 := by
    by_contra hne
    simp only [if_neg hne] at hret
    exact hret (by simp)
  have hlen := hI.text_len _ _ _ _ _ hrc
  rw [slice_length] at hlen
  have hin : slice (memcpy o.mem 0 (ofList (env.P.gcm_intermediate (slice i.mem 0 len)
      c.cipher_data.ucb [] c.cipher_data.tag (slice c.cipher_data.key 0 c.key_len)
      c.cipher_data.subkey true).2.1) 0 len) 0 len
      = (env.P.gcm_intermediate (slice i.mem 0 len) c.cipher_data.ucb [] c.cipher_data.tag
        (slice c.cipher_data.key 0 c.key_len) c.cipher_data.subkey true).2.1 := by
    rw [slice_memcpy_zero]
    exact slice_ofList_eq _ _ hlen
  have hinv := hI.text_inv _ _ _ _ _ hrc
  simp only [hin, hinv, hrc, if_true]
  refine ⟨trivial, trivial, ?_, hr, henc, trivial⟩
  intro j hj
  simp only [memcpy]
  rw [if_pos ⟨Nat.zero_le _, by omega⟩]
  simp only [ofList, Nat.zero_add, Nat.sub_zero]
  exact getD_slice _ _ _ hj

theorem gcm_payload_updates_cons (env : Env) (c : EVP_CIPHER_CTX) (ch : Chunk)
    (rest : List Chunk) :
    gcm_payload_updates env c (ch :: rest)
      = if (ibmca_aes_gcm_cipher env c (some { addr := 2, mem := zeroBuf })
            (some { addr := 1, mem := ch.data }) ch.len).ret < 0
        then (false, (ibmca_aes_gcm_cipher env c (some { addr := 2, mem := zeroBuf })
            (some { addr := 1, mem := ch.data }) ch.len).ctx, [])
        else ((gcm_payload_updates env (ibmca_aes_gcm_cipher env c
                (some { addr := 2, mem := zeroBuf }) (some { addr := 1, mem := ch.data })
                ch.len).ctx rest).1,
              (gcm_payload_updates env (ibmca_aes_gcm_cipher env c
                (some { addr := 2, mem := zeroBuf }) (some { addr := 1, mem := ch.data })
                ch.len).ctx rest).2.1,
              { data := (ibmca_aes_gcm_cipher env c (some { addr := 2, mem := zeroBuf })
                  (some { addr := 1, mem := ch.data }) ch.len).out, len := ch.len }
                :: (gcm_payload_updates env (ibmca_aes_gcm_cipher env c
                  (some { addr := 2, mem := zeroBuf }) (some { addr := 1, mem := ch.data })
                  ch.len).ctx rest).2.2) := rfl

/-- The payload updates of an encrypting session that all report success, within the
capacity, and the same updates of their outputs on the decrypting twin. -/
theorem gcm_payload_updates_twin (env : Env) (hI : GcmInverts env.P) (pts : List Chunk) :
    ∀ c : EVP_CIPHER_CTX, Ready c → c.encrypt = true →
      c.cipher_data.ptlen + totalLen pts ≤ 2 ^ 36 - 32 →
      (gcm_payload_updates env c pts).1 = true →
      (gcm_payload_updates env (flipDir c) (gcm_payload_updates env c pts).2.2).1 = true ∧
      (gcm_payload_updates env (flipDir c) (gcm_payload_updates env c pts).2.2).2.1
        = flipDir (gcm_payload_updates env c pts).2.1 ∧
      chunksAgree (gcm_payload_updates env (flipDir c) (gcm_payload_updates env c pts).2.2).2.2
        pts ∧
      Ready (gcm_payload_updates env c pts).2.1 ∧
      (gcm_payload_updates env c pts).2.1.encrypt = true := by
  induction pts with
  | nil =>
    intro c hr henc _ _
    exact ⟨rfl, rfl, trivial, hr, henc⟩
  | cons ch rest ih =>
    intro c hr henc hcap hok
    have hcap1 : c.cipher_data.ptlen + ch.len ≤ 2 ^ 36 - 32 := by
      simp only [totalLen, List.map_cons, List.sum_cons] at hcap
      omega
    by_cases hret : (ibmca_aes_gcm_cipher env c (some { addr := 2, mem := zeroBuf })
        (some { addr := 1, mem := ch.data }) ch.len).ret < 0
    · rw [gcm_payload_updates_cons] at hok
      simp only [if_pos hret] at hok
      exact absurd hok (by simp)
    · have hE : gcm_payload_updates env c (ch :: rest)
          = ((gcm_payload_updates env (ibmca_aes_gcm_cipher env c
                (some { addr := 2, mem := zeroBuf }) (some { addr := 1, mem := ch.data })
                ch.len).ctx rest).1,
             (gcm_payload_updates env (ibmca_aes_gcm_cipher env c
                (some { addr := 2, mem := zeroBuf }) (some { addr := 1, mem := ch.data })
                ch.len).ctx rest).2.1,
             { data := (ibmca_aes_gcm_cipher env c (some { addr := 2, mem := zeroBuf })
                 (some { addr := 1, mem := ch.data }) ch.len).out, len := ch.len }
               :: (gcm_payload_updates env (ibmca_aes_gcm_cipher env c
                (some { addr := 2, mem := zeroBuf }) (some { addr := 1, mem := ch.data })
                ch.len).ctx rest).2.2) := by
        rw [gcm_payload_updates_cons]
        simp only [if_neg hret]
      rw [hE] at hok ⊢
      simp only at hok ⊢
      obtain ⟨h1, h2, h3, h4, h5, h6⟩ := cipher_payload_twin env hI c
        { addr := 2, mem := zeroBuf } { addr := 2, mem := zeroBuf }
        { addr := 1, mem := ch.data } 1 ch.len hr henc hcap1 hret
      have hcap2 : (ibmca_aes_gcm_cipher env c (some { addr := 2, mem := zeroBuf })
          (some { addr := 1, mem := ch.data }) ch.len).ctx.cipher_data.ptlen + totalLen rest
          ≤ 2 ^ 36 - 32 := by
        rw [h6]
        simp only [totalLen, List.map_cons, List.sum_cons] at hcap ⊢
        omega
      obtain ⟨i1, i2, i3, i4, i5⟩ := ih _ h4 h5 hcap2 hok
      rw [gcm_payload_updates_cons]
      simp only [h1, if_neg hret, h2]
      exact ⟨i1, i2, ⟨rfl, h3, i3⟩, i4, i5⟩

/-- Installing the same key and IV on a fresh encrypting and a fresh decrypting session
gives twins; after a successful setup the session is ready and nothing is counted. -/
theorem gcm_setup_twin (env : Env) (hI : GcmInverts env.P) (key_len : Nat) (key iv : Buf) :
    (gcm_setup env false key_len key iv).1 = (gcm_setup env true key_len key iv).1 ∧
    (gcm_setup env false key_len key iv).2 = flipDir (gcm_setup env true key_len key iv).2 ∧
    ((gcm_setup env true key_len key iv).1 = true →
      Ready (gcm_setup env true key_len key iv).2) ∧
    (gcm_setup env true key_len key iv).2.encrypt = true ∧
    (gcm_setup env true key_len key iv).2.cipher_data.ptlen = 0 := by
  simp only [gcm_setup, gcm_new, ibmca_aes_gcm_ctrl, ibmca_aes_gcm_init_key, gcm_zero,
    gcm_derive, flipDir, hI.init_dir, Ready]
  simp only [ne_eq, not_true_eq_false, if_false, one_ne_zero, not_false_eq_true, if_true]
  split
  · simp
  · simp

/-- The finalize of an encrypting session that is ready: it succeeds exactly when the
closing primitive call does, and then `buf` holds the tag and `taglen = 16`. -/
theorem cipher_final_enc (env : Env) (c : EVP_CIPHER_CTX) (hr : Ready c)
    (henc : c.encrypt = true) (hf : (ibmca_aes_gcm_cipher env c none none 0).ret = 0) :
    (env.P.gcm_last c.cipher_data.icb c.cipher_data.aadlen c.cipher_data.ptlen
      c.cipher_data.tag none 16 (slice c.cipher_data.key 0 c.key_len) c.cipher_data.subkey
      true).1 = 0 ∧
    (ibmca_aes_gcm_cipher env c none none 0).ctx.buf
      = memcpy c.buf 0 (ofList (env.P.gcm_last c.cipher_data.icb c.cipher_data.aadlen
          c.cipher_data.ptlen c.cipher_data.tag none 16 (slice c.cipher_data.key 0 c.key_len)
          c.cipher_data.subkey true).2) 0 16 ∧
    (ibmca_aes_gcm_cipher env c none none 0).ctx.encrypt = true ∧
    (ibmca_aes_gcm_cipher env c none none 0).ctx.cipher_data.taglen = 16 := by
  obtain ⟨hk, ht, hiv⟩ := hr
  have ht1 : ¬ c.cipher_data.tls_aadlen ≥ 0 := by omega
  unfold ibmca_aes_gcm_cipher ibmca_gcm_tag at hf ⊢
  simp only [if_neg hk, if_neg ht1, if_neg hiv, henc, if_true] at hf ⊢
  by_cases hrc : (env.P.gcm_last c.cipher_data.icb c.cipher_data.aadlen c.cipher_data.ptlen
      c.cipher_data.tag none 16 (slice c.cipher_data.key 0 c.key_len) c.cipher_data.subkey
      true).1 = 0
  · simp only [hrc, ne_eq, not_true_eq_false, if_false, one_ne_zero] at hf ⊢
    exact ⟨trivial, trivial, trivial, trivial⟩
  · simp [hrc] at hf

theorem ctrl_get_tag (env : Env) (c : EVP_CIPHER_CTX) (ptr : Buf) (henc : c.encrypt = true)
    (ht : c.cipher_data.taglen = 16) :
    (ibmca_aes_gcm_ctrl env c Ctrl.GET_TAG 16 ptr).ret = 1 ∧
    (ibmca_aes_gcm_ctrl env c Ctrl.GET_TAG 16 ptr).out = memcpy ptr 0 c.buf 0 16 := by
  unfold ibmca_aes_gcm_ctrl
  simp only [henc, ht]
  have h : ¬ ((16 : Int) ≤ 0 ∨ (16 : Int) > 16 ∨ true = false ∨ (16 : Int) < 0) := by decide
  rw [if_neg h]
  exact ⟨rfl, rfl⟩

theorem ctrl_set_tag (env : Env) (c : EVP_CIPHER_CTX) (ptr : Buf) (henc : c.encrypt = false) :
    ibmca_aes_gcm_ctrl env c Ctrl.SET_TAG 16 ptr
      = { ret := 1,
          ctx := { c with buf := memcpy c.buf 0 ptr 0 16,
                          cipher_data := { c.cipher_data with taglen := 16 } },
          out := ptr, calls := [] } := by
  unfold ibmca_aes_gcm_ctrl
  simp only [henc]
  have h : ¬ ((16 : Int) ≤ 0 ∨ (16 : Int) > 16 ∨ false = true) := by decide
  rw [if_neg h]
  rfl

/-- The finalize of a decrypting session that is ready and holds a 16-byte expected tag:
it succeeds when the closing primitive call accepts the tag in `buf`. -/
theorem cipher_final_dec (env : Env) (c : EVP_CIPHER_CTX) (hr : Ready c)
    (henc : c.encrypt = false) (ht : c.cipher_data.taglen = 16)
    (hacc : (env.P.gcm_last c.cipher_data.icb c.cipher_data.aadlen c.cipher_data.ptlen
      c.cipher_data.tag (some (slice c.buf 0 16)) 16 (slice c.cipher_data.key 0 c.key_len)
      c.cipher_data.subkey false).1 = 0) :
    (ibmca_aes_gcm_cipher env c none none 0).ret = 0 := by
  obtain ⟨hk, ht0, hiv⟩ := hr
  have ht1 : ¬ c.cipher_data.tls_aadlen ≥ 0 := by omega
  have h16 : ¬ ((16 : Int) < 0) := by decide
  have e16 : Int.toNat 16 = 16 := rfl
  unfold ibmca_aes_gcm_cipher ibmca_gcm_tag
  simp only [if_neg hk, if_neg ht1, if_neg hiv, henc, ht, if_neg h16, e16, hacc,
    Bool.false_eq_true, if_false, ne_eq, not_true_eq_false, one_ne_zero]

/-- Finalize and `get_tag` on an encrypting session, then `set_tag` and finalize on its
decrypting twin: if the encrypting finalize succeeds, so do all the others. -/
theorem gcm_final_twin (env : Env) (hI : GcmInverts env.P) (c : EVP_CIPHER_CTX)
    (hr : Ready c) (henc : c.encrypt = true)
    (hf : (ibmca_aes_gcm_cipher env c none none 0).ret = 0) :
    (ibmca_aes_gcm_ctrl env (ibmca_aes_gcm_cipher env c none none 0).ctx
      Ctrl.GET_TAG 16 zeroBuf).ret = 1 ∧
    (ibmca_aes_gcm_ctrl env (flipDir c) Ctrl.SET_TAG 16
      (ibmca_aes_gcm_ctrl env (ibmca_aes_gcm_cipher env c none none 0).ctx
        Ctrl.GET_TAG 16 zeroBuf).out).ret = 1 ∧
    (ibmca_aes_gcm_cipher env
      (ibmca_aes_gcm_ctrl env (flipDir c) Ctrl.SET_TAG 16
        (ibmca_aes_gcm_ctrl env (ibmca_aes_gcm_cipher env c none none 0).ctx
          Ctrl.GET_TAG 16 zeroBuf).out).ctx
      none none 0).ret = 0 := by
  obtain ⟨hrc, hbuf, he, htl⟩ := cipher_final_enc env c hr henc hf
  obtain ⟨hg1, hg2⟩ := ctrl_get_tag env _ zeroBuf he htl
  have hacc := hI.tag_accept _ _ _ _ _ _ hrc
  rw [ctrl_set_tag env (flipDir c) _ rfl]
  refine ⟨hg1, rfl, ?_⟩
  refine cipher_final_dec env _ ?_ ?_ ?_ ?_
  · exact hr
  · rfl
  · rfl
  · simp only [flipDir]
    rw [hg2, hbuf, slice_memcpy_zero, slice_memcpy_zero, slice_memcpy_zero]
    exact hacc

/-! ## Claims on the AES-GCM controller -/

/-- C6, what the code does: on a session with key and IV set in which payload has been
processed, the helper `ibmca_gcm_aad` does return the ordering error `-2`, but the public
cipher operation tests it with `!` and so returns the input length, as on success; no
primitive is called and the session state is unchanged. -/
theorem aad_after_payload_returns_length (env : Env) (c : EVP_CIPHER_CTX) (i : Ptr)
    (len : Nat) (hk : c.cipher_data.key_set ≠ 0) (ht : c.cipher_data.tls_aadlen < 0)
    (hiv : c.cipher_data.iv_set ≠ 0) (hp : c.cipher_data.ptlen ≠ 0) :
    (ibmca_gcm_aad env c i.mem len c.encrypt).1 = -2 ∧
    (ibmca_aes_gcm_cipher env c none (some i) len).ret = toInt32 len ∧
    (ibmca_aes_gcm_cipher env c none (some i) len).calls = [] ∧
    (ibmca_aes_gcm_cipher env c none (some i) len).ctx = c := by
  rw [cipher_aad_eq env c i len hk ht hiv, ibmca_gcm_aad_after_payload env c i.mem len _ hp]
  exact ⟨rfl, rfl, rfl, rfl⟩

/-- C6, evaluated: after 8 payload bytes, a 4-byte associated-data submission returns `4`. -/
theorem aad_after_payload_returns_length_witness :
    payloadCtx.cipher_data.key_set ≠ 0 ∧ payloadCtx.cipher_data.tls_aadlen < 0 ∧
    payloadCtx.cipher_data.iv_set ≠ 0 ∧ payloadCtx.cipher_data.ptlen = 8 ∧
    (ibmca_aes_gcm_cipher toyEnv payloadCtx none (some { addr := 1, mem := exKey }) 4).ret = 4 ∧
    (ibmca_aes_gcm_cipher toyEnv payloadCtx none (some { addr := 1, mem := exKey }) 4).calls
      = [] :=
  have h := aad_after_payload_returns_length toyEnv payloadCtx { addr := 1, mem := exKey } 4
    (by decide) (by decide) (by decide) (by decide)
  ⟨by decide, by decide, by decide, by decide, h.2.1, h.2.2.1⟩

/-- C8, what the code does: on a session with key and IV set, a submission that would take
`aadlen` or `ptlen` past its bound makes no primitive call, writes no output and leaves the
session unchanged, but the public cipher operation returns the input length, as on
success: the helpers return `-1` and the caller tests them with `!`. -/
theorem capacity_error_returns_length (env : Env) (c : EVP_CIPHER_CTX) (o i : Ptr) (len : Nat)
    (hk : c.cipher_data.key_set ≠ 0) (ht : c.cipher_data.tls_aadlen < 0)
    (hiv : c.cipher_data.iv_set ≠ 0) :
    (c.cipher_data.ptlen = 0 →
      ((c.cipher_data.aadlen + len) % 2 ^ 64 > 2 ^ 61
        ∨ (c.cipher_data.aadlen + len) % 2 ^ 64 < len) →
      (ibmca_aes_gcm_cipher env c none (some i) len).ret = toInt32 len ∧
      (ibmca_aes_gcm_cipher env c none (some i) len).calls = [] ∧
      (ibmca_aes_gcm_cipher env c none (some i) len).ctx = c) ∧
    (((c.cipher_data.ptlen + len) % 2 ^ 64 > 2 ^ 36 - 32
        ∨ (c.cipher_data.ptlen + len) % 2 ^ 64 < len) →
      (ibmca_aes_gcm_cipher env c (some o) (some i) len).ret = toInt32 len ∧
      (ibmca_aes_gcm_cipher env c (some o) (some i) len).calls = [] ∧
      (ibmca_aes_gcm_cipher env c (some o) (some i) len).out = o.mem ∧
      (ibmca_aes_gcm_cipher env c (some o) (some i) len).ctx = c) := by
  constructor
  · intro hp hcap
    rw [cipher_aad_eq env c i len hk ht hiv, ibmca_gcm_aad_capacity env c i.mem len _ hp hcap]
    exact ⟨rfl, rfl, rfl⟩
  · intro hcap
    rw [cipher_payload_eq env c o i len hk ht hiv,
      ibmca_aes_gcm_capacity env c i.mem o.mem len _ hcap]
    exact ⟨rfl, rfl, rfl, rfl⟩

/-- C8, evaluated: on a session with nothing processed, an associated-data submission of
`2 ^ 61 + 1` bytes returns `1` and a payload submission of `2 ^ 36 + 5` bytes returns `5`,
both without any primitive call. -/
theorem capacity_error_returns_length_witness :
    readyCtx.cipher_data.key_set ≠ 0 ∧ readyCtx.cipher_data.tls_aadlen < 0 ∧
    readyCtx.cipher_data.iv_set ≠ 0 ∧
    (ibmca_aes_gcm_cipher toyEnv readyCtx none (some { addr := 1, mem := exKey })
      (2 ^ 61 + 1)).ret = 1 ∧
    (ibmca_aes_gcm_cipher toyEnv readyCtx none (some { addr := 1, mem := exKey })
      (2 ^ 61 + 1)).calls = [] ∧
    (ibmca_aes_gcm_cipher toyEnv readyCtx (some { addr := 2, mem := zeroBuf })
      (some { addr := 1, mem := exKey }) (2 ^ 36 + 5)).ret = 5 ∧
    (ibmca_aes_gcm_cipher toyEnv readyCtx (some { addr := 2, mem := zeroBuf })
      (some { addr := 1, mem := exKey }) (2 ^ 36 + 5)).calls = [] :=
  have hk : readyCtx.cipher_data.key_set ≠ 0 := by decide
  have ht : readyCtx.cipher_data.tls_aadlen < 0 := by decide
  have hiv : readyCtx.cipher_data.iv_set ≠ 0 := by decide
  have ha := (capacity_error_returns_length toyEnv readyCtx { addr := 2, mem := zeroBuf }
    { addr := 1, mem := exKey } (2 ^ 61 + 1) hk ht hiv).1 (by decide) (by decide)
  have hp := (capacity_error_returns_length toyEnv readyCtx { addr := 2, mem := zeroBuf }
    { addr := 1, mem := exKey } (2 ^ 36 + 5) hk ht hiv).2 (by decide)
  ⟨hk, ht, hiv, ha.1.trans (by decide), ha.2.1, hp.1.trans (by decide), hp.2.1⟩

/-- C9: record decrypt wipes unauthenticated plaintext.  For every decrypting call of the
record-framed operation in which the closing call of the primitive -- the tag check
against the trailing 16 bytes -- is reached and fails, the result is `-1` and every byte
of the payload region `out[8 .. len - 16)` is zero on return. -/
theorem record_decrypt_wipes_plaintext (env : Env) (c : EVP_CIPHER_CTX) (out in_ : Option Ptr)
    (len : Nat) (henc : c.encrypt = false)
    (hfail : (ibmca_aes_gcm_tls_cipher env c out in_ len).calls.any GcmCall.lastFailed = true) :
    (ibmca_aes_gcm_tls_cipher env c out in_ len).ret = -1 ∧
    ∀ i, 8 ≤ i → i < len - 16 → (ibmca_aes_gcm_tls_cipher env c out in_ len).out i = 0 := by
  unfold ibmca_aes_gcm_tls_cipher at hfail ⊢
  simp only [henc] at hfail ⊢
  split
  · rename_i h
    rw [if_pos h] at hfail
    simp at hfail
  · rename_i h
    rw [if_neg h] at hfail
    have hlen : ¬ len < EVP_GCM_TLS_EXPLICIT_IV_LEN + EVP_GCM_TLS_TAG_LEN := fun h1 => h (Or.inr h1)
    obtain ⟨h1, h2⟩ := tls_aad_step_wipes env len _ (ctrl_calls env _ _ _ _) hfail
    refine ⟨h1, ?_⟩
    intro i h8 h16
    apply h2 i h8
    simp only [EVP_GCM_TLS_EXPLICIT_IV_LEN, EVP_GCM_TLS_TAG_LEN] at hlen ⊢
    omega

/-- C9, evaluated: a 30-byte record of `9`s on a decrypting session of `toyEnv`; the tag
check fails, the result is `-1` and the 6 payload bytes are zero. -/
theorem record_decrypt_wipes_plaintext_witness :
    (recordCtx false).encrypt = false ∧
    (ibmca_aes_gcm_tls_cipher toyEnv (recordCtx false) (some exRecord) (some exRecord)
      30).calls.any GcmCall.lastFailed = true ∧
    (ibmca_aes_gcm_tls_cipher toyEnv (recordCtx false) (some exRecord) (some exRecord) 30).ret
      = -1 ∧
    slice (ibmca_aes_gcm_tls_cipher toyEnv (recordCtx false) (some exRecord) (some exRecord)
      30).out 8 6 = [0, 0, 0, 0, 0, 0] ∧
    exRecord.mem 8 = 9 :=
  have h := record_decrypt_wipes_plaintext toyEnv (recordCtx false) (some exRecord)
    (some exRecord) 30 (by decide) (by decide)
  ⟨by decide, by decide, h.1, by
    simp only [slice, List.range, List.range.loop, List.map]
    simp only [h.2 8 (by decide) (by decide), h.2 9 (by decide) (by decide),
      h.2 10 (by decide) (by decide), h.2 11 (by decide) (by decide),
      h.2 12 (by decide) (by decide), h.2 13 (by decide) (by decide)], rfl⟩

/-- C10, as stated, fails for the calls rejected by the first check: on a dispatched
encrypting session (key set, record header pending, IV set), a record of 23 bytes, and a
30-byte record whose `out` differs from `in`, are rejected with `-1` and returned before
the label `err`, so `iv_set` is still `1` and `tls_aadlen` still `13` on return. -/
theorem record_rejected_keeps_state :
    (recordCtx true).cipher_data.key_set ≠ 0 ∧ (recordCtx true).cipher_data.tls_aadlen ≥ 0 ∧
    (ibmca_aes_gcm_cipher toyEnv (recordCtx true) (some exRecord) (some exRecord) 23).ret = -1 ∧
    (ibmca_aes_gcm_cipher toyEnv (recordCtx true) (some exRecord) (some exRecord)
      23).ctx.cipher_data.iv_set = 1 ∧
    (ibmca_aes_gcm_cipher toyEnv (recordCtx true) (some exRecord) (some exRecord)
      23).ctx.cipher_data.tls_aadlen = 13 ∧
    (ibmca_aes_gcm_cipher toyEnv (recordCtx true) (some { addr := 8192, mem := zeroBuf })
      (some exRecord) 30).ret = -1 ∧
    (ibmca_aes_gcm_cipher toyEnv (recordCtx true) (some { addr := 8192, mem := zeroBuf })
      (some exRecord) 30).ctx.cipher_data.iv_set = 1 ∧
    (ibmca_aes_gcm_cipher toyEnv (recordCtx true) (some { addr := 8192, mem := zeroBuf })
      (some exRecord) 30).ctx.cipher_data.tls_aadlen = 13 := by
  refine ⟨?_, ?_, ?_, ?_, ?_, ?_, ?_, ?_⟩ <;> decide

/-- C10, amended: for every dispatched call of the record-framed operation (key set,
`tls_aadlen >= 0`) that passes the first check (`out == in` and `len >= 24`), whatever
its outcome, `iv_set = 0` and `tls_aadlen = -1` on return; a call rejected by the first
check returns `-1`, calls no primitive and leaves the session state unchanged. -/
theorem record_state_cleared (env : Env) (c : EVP_CIPHER_CTX) (out in_ : Option Ptr)
    (len : Nat) (hk : c.cipher_data.key_set ≠ 0) (ht : c.cipher_data.tls_aadlen ≥ 0) :
    (out.map Ptr.addr = in_.map Ptr.addr → 24 ≤ len →
      (ibmca_aes_gcm_cipher env c out in_ len).ctx.cipher_data.iv_set = 0 ∧
      (ibmca_aes_gcm_cipher env c out in_ len).ctx.cipher_data.tls_aadlen = -1) ∧
    (out.map Ptr.addr ≠ in_.map Ptr.addr ∨ len < 24 →
      (ibmca_aes_gcm_cipher env c out in_ len).ret = -1 ∧
      (ibmca_aes_gcm_cipher env c out in_ len).calls = [] ∧
      (ibmca_aes_gcm_cipher env c out in_ len).ctx = c) := by
  have hd : ibmca_aes_gcm_cipher env c out in_ len = ibmca_aes_gcm_tls_cipher env c out in_ len := by
    unfold ibmca_aes_gcm_cipher
    simp only [if_neg hk, if_pos ht]
  rw [hd]
  constructor
  · intro hsame hlen
    exact tls_cipher_resets env c out in_ len hsame hlen
  · intro hrej
    unfold ibmca_aes_gcm_tls_cipher
    have h1 : out.map Ptr.addr ≠ in_.map Ptr.addr
        ∨ len < EVP_GCM_TLS_EXPLICIT_IV_LEN + EVP_GCM_TLS_TAG_LEN := hrej
    simp only [if_pos h1]
    exact ⟨trivial, trivial, trivial⟩

/-- C10 amended, evaluated: a 30-byte record processed in place on the encrypting session
`recordCtx true` succeeds with result `30` and clears the per-record state. -/
theorem record_state_cleared_witness :
    (recordCtx true).cipher_data.key_set ≠ 0 ∧ (recordCtx true).cipher_data.tls_aadlen ≥ 0 ∧
    (recordCtx true).cipher_data.iv_set = 1 ∧
    (ibmca_aes_gcm_cipher toyEnv (recordCtx true) (some exRecord) (some exRecord) 30).ret = 30 ∧
    (ibmca_aes_gcm_cipher toyEnv (recordCtx true) (some exRecord) (some exRecord)
      30).ctx.cipher_data.iv_set = 0 ∧
    (ibmca_aes_gcm_cipher toyEnv (recordCtx true) (some exRecord) (some exRecord)
      30).ctx.cipher_data.tls_aadlen = -1 :=
  have h := (record_state_cleared toyEnv (recordCtx true) (some exRecord) (some exRecord) 30
    (by decide) (by decide)).1 rfl (by decide)
  ⟨by decide, by decide, by decide, by decide, h.1, h.2⟩

/-- The toy primitive fulfils the contract `GcmInverts`. -/
theorem toyGcm_inverts : GcmInverts toyEnv.P := by
  constructor
  · intro iv key
    rfl
  · intro ucb aad tag key subkey
    rfl
  · intro pt ucb tag key subkey _
    simp [toyEnv, toyGcm]
  · intro pt ucb tag key subkey _
    simp [toyEnv, toyGcm, List.sum_reverse]
  · intro icb aadlen ptlen tag key subkey _
    have h : slice (ofList ((tag.sum + aadlen + ptlen) % 256 :: List.replicate 15 0)) 0 16
        = (tag.sum + aadlen + ptlen) % 256 :: List.replicate 15 0 :=
      slice_ofList_eq _ 16 (by simp)
    simp only [toyEnv, toyGcm, if_true, Bool.false_eq_true, if_false]
    rw [h]
    simp

/-- C5, as stated, fails past the payload capacity: with a primitive that fulfils the
contract, a plaintext of `2 ^ 36` bytes is "processed" by the encrypting session with every
call reporting success, but the submission is dropped at the capacity check, nothing is
encrypted, and decrypting the output does not give back the plaintext. -/
theorem round_trip_fails_past_capacity :
    GcmInverts toyEnv.P ∧
    (gcm_encrypt_session toyEnv 16 exKey exIv exAad hugePlain).ok = true ∧
    ¬ gcm_roundtrip toyEnv 16 exKey exIv exAad hugePlain := by
  refine ⟨toyGcm_inverts, by decide, ?_⟩
  intro h
  have h2 := h.2
  have hout : ∃ o rest, (gcm_decrypt_session toyEnv 16 exKey exIv exAad
      (gcm_encrypt_session toyEnv 16 exKey exIv exAad hugePlain).outs
      (gcm_encrypt_session toyEnv 16 exKey exIv exAad hugePlain).tag).outs = o :: rest
      ∧ o.data 0 = 0 := ⟨_, _, rfl, rfl⟩
  obtain ⟨o, rest, ho, h0⟩ := hout
  rw [ho] at h2
  have h3 : o.data 0 = 7 := h2.2.1 0 (by rw [h2.1]; decide)
  rw [h0] at h3
  exact absurd h3 (by decide)

/-- C5, amended: for a primitive that fulfils the contract `GcmInverts`, every key, IV,
associated-data chunk sequence and plaintext chunk sequence of at most `2 ^ 36 - 32` bytes
in total: if the encrypting session `set_key, set_iv, update_aad*, update_payload*,
finalize, get_tag` reports success at every call, then the decrypting session on the
produced ciphertext chunks, with the tag passed through `set_tag`, reports success at
every call, its finalize included, and its output is the plaintext. -/
theorem aead_round_trip (env : Env) (hI : GcmInverts env.P) (key_len : Nat) (key iv : Buf)
    (aads pts : List Chunk) (hcap : totalLen pts ≤ 2 ^ 36 - 32)
    (hok : (gcm_encrypt_session env key_len key iv aads pts).ok = true) :
    gcm_roundtrip env key_len key iv aads pts := by
  obtain ⟨s1, s2, s3, s4, s5⟩ := gcm_setup_twin env hI key_len key iv
  unfold gcm_encrypt_session at hok
  simp only [Bool.and_eq_true, decide_eq_true_eq] at hok
  obtain ⟨⟨⟨⟨hs, ha⟩, hp⟩, hf⟩, _⟩ := hok
  have hrs := s3 hs
  obtain ⟨a1, a2, a3, a4, a5⟩ := gcm_aad_updates_twin env hI aads _ hrs s4
  have hra := a3 ha
  have hcap1 : (gcm_aad_updates env (gcm_setup env true key_len key iv).2 aads).2.cipher_data.ptlen
      + totalLen pts ≤ 2 ^ 36 - 32 := by
    rw [a5, s5]
    omega
  obtain ⟨p1, p2, p3, p4, p5⟩ := gcm_payload_updates_twin env hI pts _ hra a4 hcap1 hp
  obtain ⟨f1, f2, f3⟩ := gcm_final_twin env hI _ p4 p5 hf
  unfold gcm_roundtrip gcm_decrypt_session gcm_encrypt_session
  simp only [s1, s2, a1, a2, p1, p2, hs, ha, f2, f3, p3, Bool.and_self, decide_True, and_self]

/-- C5 amended, evaluated: the toy primitive, 4 bytes of associated data and the three
plaintext chunks of `exPlain` (5, 0 and 3 bytes). -/
theorem aead_round_trip_witness :
    GcmInverts toyEnv.P ∧ totalLen exPlain ≤ 2 ^ 36 - 32 ∧
    (gcm_encrypt_session toyEnv 16 exKey exIv exAad exPlain).ok = true ∧
    (gcm_encrypt_session toyEnv 16 exKey exIv exAad exPlain).outs.map Chunk.bytes
      = [[5, 4, 3, 2, 1], [], [7, 4, 1]] ∧
    gcm_roundtrip toyEnv 16 exKey exIv exAad exPlain :=
  ⟨toyGcm_inverts, by decide, by decide, by decide,
    aead_round_trip toyEnv toyGcm_inverts 16 exKey exIv exAad exPlain (by decide) (by decide)⟩

theorem readyCtx_reachable : GcmReachable toyEnv readyCtx :=
  GcmReachable.init_key _ none (some exIv)
    (GcmReachable.init_key _ (some exKey) none (GcmReachable.init true 16))

/-- C7, as stated, fails at the boundary: on a session with key and IV set, an
associated-data submission of `2 ^ 61` bytes and a payload submission of `2 ^ 36 - 32`
bytes are accepted, so `aadlen = 2 ^ 61` and `ptlen = 2 ^ 36 - 32` are reachable and the
strict bounds do not hold. -/
theorem counters_reach_their_bounds :
    GcmReachable toyEnv fullAadCtx ∧ fullAadCtx.cipher_data.aadlen = 2 ^ 61 ∧
    GcmReachable toyEnv fullPayloadCtx ∧ fullPayloadCtx.cipher_data.ptlen = 2 ^ 36 - 32 ∧
    ¬ (∀ c, GcmReachable toyEnv c →
        c.cipher_data.aadlen < 2 ^ 61 ∧ c.cipher_data.ptlen < 2 ^ 36 - 32) := by
  have h1 : GcmReachable toyEnv fullAadCtx :=
    GcmReachable.cipher _ _ _ _ readyCtx_reachable (by norm_num)
  have h2 : fullAadCtx.cipher_data.aadlen = 2 ^ 61 := by decide
  have h3 : GcmReachable toyEnv fullPayloadCtx :=
    GcmReachable.cipher _ _ _ _ readyCtx_reachable (by norm_num)
  have h4 : fullPayloadCtx.cipher_data.ptlen = 2 ^ 36 - 32 := by decide
  refine ⟨h1, h2, h3, h4, ?_⟩
  intro h
  have h5 := (h fullAadCtx h1).1
  rw [h2] at h5
  exact absurd h5 (by decide)

/-- C7, amended: in every session state reachable from a fresh session through the
operations of the controller, `aadlen ≤ 2 ^ 61` and `ptlen ≤ 2 ^ 36 - 32`; and the helpers
get past their capacity check (they call the primitive) only if `aadlen + len ≤ 2 ^ 61`,
respectively `ptlen + len ≤ 2 ^ 36 - 32`. -/
theorem counters_within_bounds (env : Env) (c : EVP_CIPHER_CTX) (hr : GcmReachable env c) :
    c.cipher_data.aadlen ≤ 2 ^ 61 ∧ c.cipher_data.ptlen ≤ 2 ^ 36 - 32 ∧
    (∀ (aad : Buf) (len : Nat) (enc : Bool), len < 2 ^ 64 →
      (ibmca_gcm_aad env c aad len enc).2.2 ≠ [] → c.cipher_data.aadlen + len ≤ 2 ^ 61) ∧
    (∀ (in_ out : Buf) (len : Nat) (enc : Bool), len < 2 ^ 64 →
      (ibmca_aes_gcm env c in_ out len enc).2.2.2 ≠ [] →
      c.cipher_data.ptlen + len ≤ 2 ^ 36 - 32) := by
  have hb := reachable_bounded env c hr
  refine ⟨hb.1, hb.2, ?_, ?_⟩
  · intro aad len enc hlen hcall
    unfold ibmca_gcm_aad at hcall
    simp only at hcall
    by_cases hp : c.cipher_data.ptlen ≠ 0
    · rw [if_pos hp] at hcall
      exact absurd rfl hcall
    · rw [if_neg hp] at hcall
      by_cases hcap : (c.cipher_data.aadlen + len) % 2 ^ 64 > 2 ^ 61
          ∨ (c.cipher_data.aadlen + len) % 2 ^ 64 < len
      · rw [if_pos hcap] at hcall
        exact absurd rfl hcall
      · have := hb.1
        omega
  · intro in_ out len enc hlen hcall
    unfold ibmca_aes_gcm at hcall
    simp only at hcall
    by_cases hcap : (c.cipher_data.ptlen + len) % 2 ^ 64 > 2 ^ 36 - 32
        ∨ (c.cipher_data.ptlen + len) % 2 ^ 64 < len
    · rw [if_pos hcap] at hcall
      exact absurd rfl hcall
    · have := hb.2
      omega

/-- C7 amended, evaluated on the session holding `2 ^ 61` bytes of associated data. -/
theorem counters_within_bounds_witness :
    GcmReachable toyEnv fullAadCtx ∧ fullAadCtx.cipher_data.aadlen ≤ 2 ^ 61 ∧
    fullAadCtx.cipher_data.ptlen ≤ 2 ^ 36 - 32 :=
  have h1 : GcmReachable toyEnv fullAadCtx :=
    GcmReachable.cipher _ _ _ _ readyCtx_reachable (by norm_num)
  ⟨h1, (counters_within_bounds toyEnv fullAadCtx h1).1,
    (counters_within_bounds toyEnv fullAadCtx h1).2.1⟩

/-! ## Claims on the record header and the tag access -/

theorem shl8_or (a b : Nat) (hb : b < 256) : (a <<< 8) ||| b = 256 * a + b := by
  rw [Nat.shiftLeft_eq, Nat.mul_comm, show (256 : Nat) = 2 ^ 8 from rfl]
  exact (Nat.mul_add_lt_is_or hb a).symm

/-- The length read by `EVP_CTRL_AEAD_TLS1_AAD` from a 13-byte header. -/
theorem tls1_aad_len (buf header : Buf) (h11 : header 11 < 256) (h12 : header 12 < 256) :
    ((memcpy buf 0 header 0 13 11 % 256) <<< 8) ||| (memcpy buf 0 header 0 13 12 % 256)
      = 256 * header 11 + header 12 := by
  have e11 : memcpy buf 0 header 0 13 11 = header 11 := by simp [memcpy]
  have e12 : memcpy buf 0 header 0 13 12 = header 12 := by simp [memcpy]
  rw [e11, e12, Nat.mod_eq_of_lt h11, Nat.mod_eq_of_lt h12]
  exact shl8_or _ _ h12

/-- The result of `EVP_CTRL_AEAD_TLS1_AAD` on a 13-byte header, by the length it carries. -/
theorem tls1_aad_eq (env : Env) (c : EVP_CIPHER_CTX) (header : Buf) (L : Nat)
    (h11 : header 11 < 256) (h12 : header 12 < 256) (hL : L = 256 * header 11 + header 12) :
    ibmca_aes_gcm_ctrl env c Ctrl.TLS1_AAD 13 header =
      if L < 8 ∨ (c.encrypt = false ∧ L - 8 < 16) then
        { ret := 0,
          ctx := { c with buf := memcpy c.buf 0 header 0 13,
                          cipher_data := { c.cipher_data with tls_aadlen := 13 } },
          out := header, calls := [] }
      else
        { ret := 16,
          ctx := { c with
            buf := fun i =>
              if i = 12 then (L - (if c.encrypt then 8 else 24)) % 256
              else if i = 11 then (L - (if c.encrypt then 8 else 24)) / 256
              else memcpy c.buf 0 header 0 13 i,
            cipher_data := { c.cipher_data with tls_aadlen := 13 } },
          out := header, calls := [] } := by
  have hlen := tls1_aad_len c.buf header h11 h12
  have h11n : @LT.lt Nat _ (header 11) 256 := h11
  have h12n : @LT.lt Nat _ (header 12) 256 := h12
  have hL2 : L < 65536 := by omega
  unfold ibmca_aes_gcm_ctrl
  simp only [EVP_AEAD_TLS1_AAD_LEN, EVP_GCM_TLS_EXPLICIT_IV_LEN, EVP_GCM_TLS_TAG_LEN]
  simp only [show ((13 : Int).toNat) = 13 from rfl, show (13 - 2 : Nat) = 11 from rfl,
    show (13 - 1 : Nat) = 12 from rfl, hlen, ← hL, ne_eq, not_true_eq_false, if_false]
  by_cases h8 : L < 8
  · simp only [h8, true_or, if_true]
  · simp only [h8, false_or, if_false]
    cases henc : c.encrypt
    · by_cases h16 : L - 8 < 16
      · simp only [h16, and_self, if_true]
      · simp only [h16, and_false, if_false, if_true, Bool.false_eq_true]
        have e1 : (L - 8 - 16) &&& 255 = (L - 24) % 256 := by
          rw [show (255 : Nat) = 2 ^ 8 - 1 from rfl, Nat.and_pow_two_sub_one_eq_mod]
          congr 1
        have e2 : ((L - 8 - 16) >>> 8) % 256 = (L - 24) / 256 := by
          rw [Nat.shiftRight_eq_div_pow]
          omega
        simp only [e1, e2, Nat.cast_ofNat]
    · simp only [Bool.true_eq_false, false_and, if_false, if_true]
      have e1 : (L - 8) &&& 255 = (L - 8) % 256 := by
        rw [show (255 : Nat) = 2 ^ 8 - 1 from rfl, Nat.and_pow_two_sub_one_eq_mod]
      have e2 : ((L - 8) >>> 8) % 256 = (L - 8) / 256 := by
        rw [Nat.shiftRight_eq_div_pow]
        omega
      simp only [e1, e2, Nat.cast_ofNat]

/-- C12: for a 13-byte header whose bytes 11 and 12 encode the length `L` big-endian,
`set_record_aad` (`EVP_CTRL_AEAD_TLS1_AAD`) returns 16 exactly when `L >= 8` on an
encrypting session or `L >= 24` on a decrypting one, and returns 0 otherwise; on success
bytes 0..10 of the stored header are the caller's, bytes 11 and 12 hold the big-endian
encoding of `L - 8` (encrypt) or `L - 24` (decrypt), and `tls_aadlen = 13`; every header
size other than 13 is rejected with 0. -/
theorem record_aad_length_patching (env : Env) (c : EVP_CIPHER_CTX) (header : Buf) (L : Nat)
    (h11 : header 11 < 256) (h12 : header 12 < 256) (hL : L = 256 * header 11 + header 12) :
    ((ibmca_aes_gcm_ctrl env c Ctrl.TLS1_AAD 13 header).ret = 16
        ↔ (if c.encrypt then 8 ≤ L else 24 ≤ L)) ∧
    ((ibmca_aes_gcm_ctrl env c Ctrl.TLS1_AAD 13 header).ret = 16
        ∨ (ibmca_aes_gcm_ctrl env c Ctrl.TLS1_AAD 13 header).ret = 0) ∧
    ((ibmca_aes_gcm_ctrl env c Ctrl.TLS1_AAD 13 header).ret = 16 →
      (∀ i, i < 11 → (ibmca_aes_gcm_ctrl env c Ctrl.TLS1_AAD 13 header).ctx.buf i = header i) ∧
      (ibmca_aes_gcm_ctrl env c Ctrl.TLS1_AAD 13 header).ctx.buf 11
        = (L - (if c.encrypt then 8 else 24)) / 256 ∧
      (ibmca_aes_gcm_ctrl env c Ctrl.TLS1_AAD 13 header).ctx.buf 12
        = (L - (if c.encrypt then 8 else 24)) % 256 ∧
      (ibmca_aes_gcm_ctrl env c Ctrl.TLS1_AAD 13 header).ctx.cipher_data.tls_aadlen = 13) ∧
    (∀ arg : Int, arg ≠ 13 → (ibmca_aes_gcm_ctrl env c Ctrl.TLS1_AAD arg header).ret = 0) := by
  have hiff : (L < 8 ∨ (c.encrypt = false ∧ L - 8 < 16))
      ↔ ¬ (if c.encrypt then 8 ≤ L else 24 ≤ L) := by
    cases c.encrypt
    · simp
      omega
    · simp
  refine ⟨?_, ?_, ?_, ?_⟩
  · rw [tls1_aad_eq env c header L h11 h12 hL]
    by_cases hc : L < 8 ∨ (c.encrypt = false ∧ L - 8 < 16)
    · rw [if_pos hc]
      exact ⟨fun h => absurd h (by simp), fun h => absurd h (hiff.mp hc)⟩
    · rw [if_neg hc]
      exact ⟨fun _ => not_not.mp (fun h => hc (hiff.mpr h)), fun _ => rfl⟩
  · rw [tls1_aad_eq env c header L h11 h12 hL]
    by_cases hc : L < 8 ∨ (c.encrypt = false ∧ L - 8 < 16)
    · rw [if_pos hc]
      exact Or.inr rfl
    · rw [if_neg hc]
      exact Or.inl rfl
  · rw [tls1_aad_eq env c header L h11 h12 hL]
    by_cases hc : L < 8 ∨ (c.encrypt = false ∧ L - 8 < 16)
    · rw [if_pos hc]
      intro h
      exact absurd h (by simp)
    · rw [if_neg hc]
      intro _
      refine ⟨?_, ?_, ?_, rfl⟩
      · intro i hi
        have h1 : i ≠ 12 := by omega
        have h2 : i ≠ 11 := by omega
        simp only [h1, h2, if_false, memcpy]
        rw [if_pos (by omega)]
        simp
      · simp
      · simp
  · intro arg harg
    unfold ibmca_aes_gcm_ctrl
    simp [EVP_AEAD_TLS1_AAD_LEN, harg]

/-- C12 at a sample: the header of `recordCtx` carries length 30; the decrypting session
accepts it and stores length 6. -/
theorem record_aad_length_patching_witness :
    (ibmca_aes_gcm_ctrl toyEnv (gcm_setup toyEnv false 16 exKey exIv).2 Ctrl.TLS1_AAD 13
        exHeader).ret = 16 ∧
    (ibmca_aes_gcm_ctrl toyEnv (gcm_setup toyEnv false 16 exKey exIv).2 Ctrl.TLS1_AAD 13
        exHeader).ctx.buf 12 = 6 :=
  have h := record_aad_length_patching toyEnv (gcm_setup toyEnv false 16 exKey exIv).2
    exHeader 30 (by decide) (by decide) (by decide)
  ⟨h.1.mpr (by decide), (h.2.2.1 (h.1.mpr (by decide))).2.2.1⟩

/-! ## Claims on IV generation -/

theorem gctx_iv_store_get (c : EVP_CIPHER_CTX) (b : Buf) (h : c.cipher_data.iv_loc ≠ IvLoc.null) :
    gctx_iv (gctx_iv_store c b) = b := by
  unfold gctx_iv gctx_iv_store
  cases hl : c.cipher_data.iv_loc
  · simp [hl]
  · simp [hl]
  · exact absurd hl h

theorem gctx_iv_derive (env : Env) (c : EVP_CIPHER_CTX) (iv : Buf) (enc : Bool) :
    gctx_iv (gcm_derive env c iv enc).2.1 = gctx_iv c := rfl

theorem gctx_iv_store_data (c : EVP_CIPHER_CTX) (b : Buf) :
    (gctx_iv_store c b).cipher_data.key = c.cipher_data.key ∧
    (gctx_iv_store c b).cipher_data.key_set = c.cipher_data.key_set ∧
    (gctx_iv_store c b).cipher_data.iv_gen = c.cipher_data.iv_gen ∧
    (gctx_iv_store c b).cipher_data.ivlen = c.cipher_data.ivlen ∧
    (gctx_iv_store c b).cipher_data.iv_loc = c.cipher_data.iv_loc ∧
    (gctx_iv_store c b).cipher_data.icb = c.cipher_data.icb ∧
    (gctx_iv_store c b).cipher_data.ucb = c.cipher_data.ucb ∧
    (gctx_iv_store c b).cipher_data.subkey = c.cipher_data.subkey ∧
    (gctx_iv_store c b).cipher_data.tag = c.cipher_data.tag ∧
    (gctx_iv_store c b).cipher_data.aadlen = c.cipher_data.aadlen ∧
    (gctx_iv_store c b).cipher_data.ptlen = c.cipher_data.ptlen ∧
    (gctx_iv_store c b).cipher_data.tls_aadlen = c.cipher_data.tls_aadlen ∧
    (gctx_iv_store c b).cipher_data.taglen = c.cipher_data.taglen ∧
    (gctx_iv_store c b).key_len = c.key_len ∧
    (gctx_iv_store c b).encrypt = c.encrypt ∧
    (gctx_iv_store c b).buf = c.buf := by
  unfold gctx_iv_store
  cases h : c.cipher_data.iv_loc <;> simp [h]

/-- The result of `EVP_CTRL_GCM_IV_GEN` on a session with a key and a generated IV. -/
theorem ctrl_iv_gen_eq (env : Env) (c : EVP_CIPHER_CTX) (arg : Int) (ptr : Buf)
    (hk : c.cipher_data.key_set ≠ 0) (hg : c.cipher_data.iv_gen ≠ 0) :
    ibmca_aes_gcm_ctrl env c Ctrl.IV_GEN arg ptr =
      if (gcm_derive env c (gctx_iv c) c.encrypt).1 ≠ 0 then
        { ret := 0, ctx := (gcm_derive env c (gctx_iv c) c.encrypt).2.1, out := ptr,
          calls := [(gcm_derive env c (gctx_iv c) c.encrypt).2.2] }
      else
        { ret := 1,
          ctx :=
            { gctx_iv_store (gcm_derive env c (gctx_iv c) c.encrypt).2.1
                (store_be64 (gctx_iv c) (c.cipher_data.ivlen - 8).toNat
                  ((load_be64 (gctx_iv c) (c.cipher_data.ivlen - 8).toNat + 1) % 2 ^ 64)) with
              cipher_data :=
                { (gctx_iv_store (gcm_derive env c (gctx_iv c) c.encrypt).2.1
                    (store_be64 (gctx_iv c) (c.cipher_data.ivlen - 8).toNat
                      ((load_be64 (gctx_iv c) (c.cipher_data.ivlen - 8).toNat + 1)
                        % 2 ^ 64))).cipher_data with iv_set := 1 } },
          out := memcpy ptr 0 (gctx_iv c)
            (c.cipher_data.ivlen
              - (if arg ≤ 0 ∨ arg > c.cipher_data.ivlen then c.cipher_data.ivlen else arg)).toNat
            (if arg ≤ 0 ∨ arg > c.cipher_data.ivlen then c.cipher_data.ivlen else arg).toNat,
          calls := [(gcm_derive env c (gctx_iv c) c.encrypt).2.2] } := by
  unfold ibmca_aes_gcm_ctrl ibmca_aes_gcm_setiv
  simp only [hk, hg, or_self, if_false]
  by_cases hd : (gcm_derive env c (gctx_iv c) c.encrypt).1 = 0
  · simp only [hd, if_true, ne_eq, not_true_eq_false, if_false, one_ne_zero]
    rfl
  · simp only [hd, if_false, ne_eq, not_false_eq_true, if_true]

/-- The configuration errors that are rejected with the session untouched and no
primitive call: a decrypt finalize without an expected tag, `set_iv_length` with a
non-positive length, `set_tag` and `get_tag` with a length outside `(0, 16]`, `set_tag` on
an encrypting session, `generate_iv_fixed` with an invalid length, and a record header
whose size is not 13. -/
theorem config_errors_keep_state (env : Env) (c : EVP_CIPHER_CTX) (arg : Int) (ptr : Buf) :
    (c.cipher_data.key_set ≠ 0 → c.cipher_data.tls_aadlen < 0 → c.cipher_data.iv_set ≠ 0 →
      c.encrypt = false → c.cipher_data.taglen < 0 → ∀ out len,
      ibmca_aes_gcm_cipher env c out none len
        = { ret := -1, ctx := c, out := (out.map Ptr.mem).getD (fun _ => 0), calls := [] }) ∧
    (arg ≤ 0 → ibmca_aes_gcm_ctrl env c Ctrl.SET_IVLEN arg ptr
      = { ret := 0, ctx := c, out := ptr, calls := [] }) ∧
    (arg ≤ 0 ∨ arg > 16 ∨ c.encrypt = true → ibmca_aes_gcm_ctrl env c Ctrl.SET_TAG arg ptr
      = { ret := 0, ctx := c, out := ptr, calls := [] }) ∧
    (arg ≤ 0 ∨ arg > 16 → ibmca_aes_gcm_ctrl env c Ctrl.GET_TAG arg ptr
      = { ret := 0, ctx := c, out := ptr, calls := [] }) ∧
    (arg ≠ -1 → arg < 4 ∨ c.cipher_data.ivlen - arg < 8 →
      ibmca_aes_gcm_ctrl env c Ctrl.SET_IV_FIXED arg ptr
        = { ret := 0, ctx := c, out := ptr, calls := [] }) ∧
    (arg ≠ 13 → ibmca_aes_gcm_ctrl env c Ctrl.TLS1_AAD arg ptr
      = { ret := 0, ctx := c, out := ptr, calls := [] }) := by
  refine ⟨?_, ?_, ?_, ?_, ?_, ?_⟩
  · intro hk ht hiv henc htl out len
    have ht1 : ¬ c.cipher_data.tls_aadlen ≥ 0 := by omega
    unfold ibmca_aes_gcm_cipher
    simp only [if_neg hk, if_neg ht1, if_neg hiv, henc, Bool.false_eq_true, if_false, htl,
      if_true]
  · intro h
    unfold ibmca_aes_gcm_ctrl
    simp only [h, if_true]
  · intro h
    unfold ibmca_aes_gcm_ctrl
    simp only [h, if_true]
  · intro h
    have h2 : arg ≤ 0 ∨ arg > 16 ∨ c.encrypt = false ∨ c.cipher_data.taglen < 0 := by
      rcases h with h | h
      · exact Or.inl h
      · exact Or.inr (Or.inl h)
    unfold ibmca_aes_gcm_ctrl
    simp only [h2, if_true]
  · intro h1 h
    unfold ibmca_aes_gcm_ctrl
    simp only [h1, h, if_true, if_false]
  · intro h
    unfold ibmca_aes_gcm_ctrl
    simp only [EVP_AEAD_TLS1_AAD_LEN, ne_eq, h, not_false_eq_true, if_true]

/-- C17, the failing case: a 13-byte record header whose length field is smaller than 8 is
rejected with 0 and without a primitive call, but the header has been copied into the
scratch buffer and `tls_aadlen` has been set to 13. -/
theorem rejected_record_header_is_stored (env : Env) (c : EVP_CIPHER_CTX) (header : Buf)
    (h11 : header 11 < 256) (h12 : header 12 < 256) (hL : 256 * header 11 + header 12 < 8) :
    (ibmca_aes_gcm_ctrl env c Ctrl.TLS1_AAD 13 header).ret = 0 ∧
    (ibmca_aes_gcm_ctrl env c Ctrl.TLS1_AAD 13 header).calls = [] ∧
    (ibmca_aes_gcm_ctrl env c Ctrl.TLS1_AAD 13 header).ctx.cipher_data.tls_aadlen = 13 ∧
    ∀ i, i < 13 → (ibmca_aes_gcm_ctrl env c Ctrl.TLS1_AAD 13 header).ctx.buf i = header i := by
  rw [tls1_aad_eq env c header _ h11 h12 rfl, if_pos (Or.inl hL)]
  refine ⟨rfl, rfl, rfl, ?_⟩
  intro i hi
  simp only [memcpy]
  rw [if_pos ⟨by omega, by omega⟩]
  simp

/-- C17 at the failing input: on `readyCtx` (no record header, `tls_aadlen = -1`, zeroed
scratch buffer) the header `shortHeader`, whose length field is 5, is rejected, and
afterwards `tls_aadlen = 13` and the scratch buffer holds the header. -/
theorem rejected_record_header_is_stored_witness :
    readyCtx.cipher_data.tls_aadlen = -1 ∧ slice readyCtx.buf 0 13 = List.replicate 13 0 ∧
    slice (ibmca_aes_gcm_ctrl toyEnv readyCtx Ctrl.TLS1_AAD 13 shortHeader).ctx.buf 0 13
      = [23, 24, 25, 26, 27, 28, 29, 30, 31, 32, 33, 0, 5] ∧
    ((ibmca_aes_gcm_ctrl toyEnv readyCtx Ctrl.TLS1_AAD 13 shortHeader).ret = 0 ∧
      (ibmca_aes_gcm_ctrl toyEnv readyCtx Ctrl.TLS1_AAD 13 shortHeader).calls = [] ∧
      (ibmca_aes_gcm_ctrl toyEnv readyCtx Ctrl.TLS1_AAD 13 shortHeader).ctx.cipher_data.tls_aadlen
        = 13 ∧
      ∀ i, i < 13 →
        (ibmca_aes_gcm_ctrl toyEnv readyCtx Ctrl.TLS1_AAD 13 shortHeader).ctx.buf i
          = shortHeader i) :=
  ⟨by decide, by decide, by decide,
    rejected_record_header_is_stored toyEnv readyCtx shortHeader (by decide) (by decide)
      (by decide)⟩

/-! ## The tag length on sessions without a finalize -/

theorem untagged_of_eq (c c2 : EVP_CIPHER_CTX) (he : c2.encrypt = c.encrypt)
    (ht : c2.cipher_data.taglen = c.cipher_data.taglen) (h : Untagged c) : Untagged c2 := by
  intro h2
  rw [ht]
  exact h (he ▸ h2)

theorem gctx_iv_store_untagged (c : EVP_CIPHER_CTX) (b : Buf) (h : Untagged c) :
    Untagged (gctx_iv_store c b) :=
  untagged_of_eq c _ (gctx_iv_store_data c b).2.2.2.2.2.2.2.2.2.2.2.2.2.2.1
    (gctx_iv_store_data c b).2.2.2.2.2.2.2.2.2.2.2.2.1 h

theorem setiv_untagged (env : Env) (c : EVP_CIPHER_CTX) (h : Untagged c) :
    Untagged (ibmca_aes_gcm_setiv env c).2.1 := by
  unfold ibmca_aes_gcm_setiv
  split
  · exact h
  · exact untagged_of_eq c _ rfl rfl h

theorem gcm_aad_untagged (env : Env) (c : EVP_CIPHER_CTX) (aad : Buf) (len : Nat) (enc : Bool)
    (h : Untagged c) : Untagged (ibmca_gcm_aad env c aad len enc).2.1 := by
  unfold ibmca_gcm_aad
  simp only
  split
  · exact h
  · split
    · exact h
    · exact untagged_of_eq c _ rfl rfl h

theorem aes_gcm_untagged (env : Env) (c : EVP_CIPHER_CTX) (in_ out : Buf) (len : Nat)
    (enc : Bool) (h : Untagged c) : Untagged (ibmca_aes_gcm env c in_ out len enc).2.1 := by
  unfold ibmca_aes_gcm
  simp only
  split
  · exact h
  · exact untagged_of_eq c _ rfl rfl h

theorem gcm_tag_untagged (env : Env) (c : EVP_CIPHER_CTX) (in_ : Option (List Byte)) (n : Nat)
    (h : Untagged c) : Untagged (ibmca_gcm_tag env c in_ n).2.1 :=
  untagged_of_eq c _ rfl rfl h

theorem ctrl_untagged (env : Env) (c : EVP_CIPHER_CTX) (type : Ctrl) (arg : Int) (ptr : Buf)
    (h : Untagged c) : Untagged (ibmca_aes_gcm_ctrl env c type arg ptr).ctx := by
  have hs := fun c1 (h1 : Untagged c1) => setiv_untagged env c1 h1
  have hst := fun c1 b (h1 : Untagged c1) => gctx_iv_store_untagged c1 b h1
  have hw : ∀ c1 : EVP_CIPHER_CTX, Untagged c1 → ∀ c2 : EVP_CIPHER_CTX,
      c2.encrypt = c1.encrypt → c2.cipher_data.taglen = c1.cipher_data.taglen → Untagged c2 :=
    fun c1 h1 c2 he ht => untagged_of_eq c1 c2 he ht h1
  unfold ibmca_aes_gcm_ctrl
  cases type <;> simp only
  · intro _
    show (-1 : Int) < 0
    decide
  · split
    · exact h
    · split
      · split <;> exact hw _ h _ rfl rfl
      · exact hw _ h _ rfl rfl
  · split
    · exact h
    · rename_i h1
      intro he
      exact absurd (Or.inr (Or.inr he)) h1
  · split <;> exact h
  · split
    · exact hw _ (hst _ _ h) _ rfl rfl
    · split
      · exact h
      · split
        · split
          · exact hst _ _ h
          · exact hw _ (hst _ _ (hst _ _ h)) _ rfl rfl
        · exact hw _ (hst _ _ h) _ rfl rfl
  · split
    · exact h
    · split
      · exact hs _ h
      · exact hw _ (hst _ _ (hs _ h)) _ rfl rfl
  · split
    · exact h
    · split
      · exact hs _ (hst _ _ h)
      · exact hw _ (hs _ (hst _ _ h)) _ rfl rfl
  · split
    · exact h
    · split
      · exact hw _ h _ rfl rfl
      · split <;> exact hw _ h _ rfl rfl
  · exact h

theorem tls_exit_untagged (rv : Int) (c : EVP_CIPHER_CTX) (out : Buf) (calls : List GcmCall)
    (h : Untagged c) : Untagged (tls_exit rv c out calls).ctx :=
  untagged_of_eq c _ rfl rfl h

theorem tls_tag_step_untagged (env : Env) (enc : Bool) (len1 : Nat) (rec1 : Buf)
    (pre : List GcmCall) (c : EVP_CIPHER_CTX) (h : Untagged c) :
    Untagged (tls_tag_step env enc len1 rec1 pre c).ctx := by
  unfold tls_tag_step
  simp only
  split
  · split <;> exact tls_exit_untagged _ _ _ _ (gcm_tag_untagged _ _ _ _ h)
  · split
    · exact tls_exit_untagged _ _ _ _ (gcm_tag_untagged _ _ _ _ h)
    · exact untagged_of_eq c _ rfl rfl h

theorem tls_payload_step_untagged (env : Env) (enc : Bool) (len : Nat) (rec0 : Buf)
    (pre : List GcmCall) (c : EVP_CIPHER_CTX) (h : Untagged c) :
    Untagged (tls_payload_step env enc len rec0 pre c).ctx := by
  unfold tls_payload_step
  simp only
  split
  · exact tls_exit_untagged _ _ _ _ (aes_gcm_untagged _ _ _ _ _ _ h)
  · exact tls_tag_step_untagged _ _ _ _ _ _ (aes_gcm_untagged _ _ _ _ _ _ h)

theorem tls_aad_step_untagged (env : Env) (enc : Bool) (len : Nat) (k : GcmResult)
    (h : Untagged k.ctx) : Untagged (tls_aad_step env enc len k).ctx := by
  unfold tls_aad_step
  simp only
  split
  · exact tls_exit_untagged _ _ _ _ h
  · split
    · exact tls_exit_untagged _ _ _ _ (gcm_aad_untagged _ _ _ _ _ h)
    · exact tls_payload_step_untagged _ _ _ _ _ _ (gcm_aad_untagged _ _ _ _ _ h)

theorem tls_cipher_untagged (env : Env) (c : EVP_CIPHER_CTX) (out in_ : Option Ptr) (len : Nat)
    (h : Untagged c) : Untagged (ibmca_aes_gcm_tls_cipher env c out in_ len).ctx := by
  unfold ibmca_aes_gcm_tls_cipher
  simp only
  split
  · exact h
  · exact tls_aad_step_untagged _ _ _ _ (ctrl_untagged _ _ _ _ _ h)

theorem update_untagged (env : Env) (c : EVP_CIPHER_CTX) (out : Option Ptr) (i : Ptr) (len : Nat)
    (h : Untagged c) : Untagged (ibmca_aes_gcm_cipher env c out (some i) len).ctx := by
  unfold ibmca_aes_gcm_cipher
  simp only
  split
  · exact h
  · split
    · exact tls_cipher_untagged _ _ _ _ _ h
    · split
      · exact h
      · split
        · split <;> exact gcm_aad_untagged _ _ _ _ _ h
        · split <;> exact aes_gcm_untagged _ _ _ _ _ _ h

theorem init_key_untagged (env : Env) (c : EVP_CIPHER_CTX) (key iv : Option Buf) (enc : Bool)
    (h : Untagged c) : Untagged (ibmca_aes_gcm_init_key env c key iv enc).ctx := by
  unfold ibmca_aes_gcm_init_key
  simp only
  split
  · exact h
  · split
    · split <;> exact untagged_of_eq c _ rfl rfl h
    · exact untagged_of_eq c _ rfl rfl h
  · split
    · split <;> exact untagged_of_eq c _ rfl rfl h
    · exact untagged_of_eq _ _ rfl rfl (gctx_iv_store_untagged _ _ h)

/-- In every state reached without a finalize no tag is available. -/
theorem no_finalize_untagged (env : Env) (c : EVP_CIPHER_CTX) (h : GcmNoFinalize env c) :
    Untagged c := by
  induction h with
  | init enc key_len =>
    intro _
    show (-1 : Int) < 0
    decide
  | init_key c key iv _ ih => exact init_key_untagged env c key iv _ ih
  | ctrl c type arg ptr _ ih => exact ctrl_untagged env c type arg ptr ih
  | update c out in_ len _ ih => exact update_untagged env c out in_ len ih

/-- A successful finalize of an encrypting session: `taglen = 16`, the tag is the output of
the closing primitive call and the scratch buffer starts with its 16 bytes. -/
theorem cipher_final_tag (env : Env) (c : EVP_CIPHER_CTX) (out : Option Ptr) (len : Nat)
    (henc : c.encrypt = true) (ht : c.cipher_data.tls_aadlen < 0)
    (hf : (ibmca_aes_gcm_cipher env c out none len).ret = 0) :
    (ibmca_aes_gcm_cipher env c out none len).ctx.encrypt = true ∧
    (ibmca_aes_gcm_cipher env c out none len).ctx.cipher_data.taglen = 16 ∧
    (ibmca_aes_gcm_cipher env c out none len).ctx.cipher_data.tag
      = (env.P.gcm_last c.cipher_data.icb c.cipher_data.aadlen c.cipher_data.ptlen
          c.cipher_data.tag none 16 (slice c.cipher_data.key 0 c.key_len) c.cipher_data.subkey
          true).2 ∧
    ∀ i, i < 16 → (ibmca_aes_gcm_cipher env c out none len).ctx.buf i
      = (ibmca_aes_gcm_cipher env c out none len).ctx.cipher_data.tag.getD i 0 := by
  have ht1 : ¬ c.cipher_data.tls_aadlen ≥ 0 := by omega
  unfold ibmca_aes_gcm_cipher ibmca_gcm_tag at hf ⊢
  by_cases hk : c.cipher_data.key_set = 0
  · simp [hk] at hf
  · by_cases hiv : c.cipher_data.iv_set = 0
    · simp [hk, ht1, hiv] at hf
    · simp only [if_neg hk, if_neg ht1, if_neg hiv, henc, if_true] at hf ⊢
      split at hf
      · exact absurd hf (by simp)
      · rename_i h1
        simp only [if_neg h1, one_ne_zero, if_false]
        refine ⟨trivial, trivial, trivial, ?_⟩
        intro i hi
        simp only [memcpy, ofList]
        rw [if_pos ⟨by omega, by omega⟩]
        simp

/-- C18: `set_tag (tag, len)` returns 1 exactly when the session is decrypting and
`0 < len <= 16`, and then the scratch buffer starts with the `len` tag bytes and
`taglen = len`; `get_tag (out, len)` returns 1 exactly when the session is encrypting,
`0 < len <= 16` and `taglen >= 0`, and then `out` holds the first `len` bytes of the scratch
buffer; a successful finalize of an encrypting session fixes `taglen = 16` and puts the
tag computed by the closing primitive call there, so that `get_tag` after it returns the
first `len` bytes of that tag; in every state reached from a fresh session without a
finalize `get_tag` returns 0. -/
theorem tag_access_guard (env : Env) (c : EVP_CIPHER_CTX) (len : Int) (p : Buf) :
    ((ibmca_aes_gcm_ctrl env c Ctrl.SET_TAG len p).ret = 1
      ↔ c.encrypt = false ∧ 0 < len ∧ len ≤ 16) ∧
    ((ibmca_aes_gcm_ctrl env c Ctrl.SET_TAG len p).ret = 1 →
      (∀ i, i < len.toNat → (ibmca_aes_gcm_ctrl env c Ctrl.SET_TAG len p).ctx.buf i = p i) ∧
      (ibmca_aes_gcm_ctrl env c Ctrl.SET_TAG len p).ctx.cipher_data.taglen = len) ∧
    ((ibmca_aes_gcm_ctrl env c Ctrl.GET_TAG len p).ret = 1
      ↔ c.encrypt = true ∧ 0 < len ∧ len ≤ 16 ∧ 0 ≤ c.cipher_data.taglen) ∧
    ((ibmca_aes_gcm_ctrl env c Ctrl.GET_TAG len p).ret = 1 →
      ∀ i, i < len.toNat → (ibmca_aes_gcm_ctrl env c Ctrl.GET_TAG len p).out i = c.buf i) ∧
    (∀ (out : Option Ptr) (n : Nat), c.encrypt = true → c.cipher_data.tls_aadlen < 0 →
      (ibmca_aes_gcm_cipher env c out none n).ret = 0 →
      (ibmca_aes_gcm_cipher env c out none n).ctx.cipher_data.taglen = 16 ∧
      (0 < len → len ≤ 16 →
        (ibmca_aes_gcm_ctrl env (ibmca_aes_gcm_cipher env c out none n).ctx Ctrl.GET_TAG len
          p).ret = 1 ∧
        ∀ i, i < len.toNat →
          (ibmca_aes_gcm_ctrl env (ibmca_aes_gcm_cipher env c out none n).ctx Ctrl.GET_TAG len
            p).out i
            = (env.P.gcm_last c.cipher_data.icb c.cipher_data.aadlen c.cipher_data.ptlen
                c.cipher_data.tag none 16 (slice c.cipher_data.key 0 c.key_len)
                c.cipher_data.subkey true).2.getD i 0)) ∧
    (GcmNoFinalize env c → (ibmca_aes_gcm_ctrl env c Ctrl.GET_TAG len p).ret = 0) := by
  have hset : ∀ c1 : EVP_CIPHER_CTX,
      ibmca_aes_gcm_ctrl env c1 Ctrl.SET_TAG len p
        = if len ≤ 0 ∨ len > 16 ∨ c1.encrypt = true then
            { ret := 0, ctx := c1, out := p, calls := [] }
          else
            { ret := 1,
              ctx := { c1 with buf := memcpy c1.buf 0 p 0 len.toNat,
                               cipher_data := { c1.cipher_data with taglen := len } },
              out := p, calls := [] } := fun c1 => by
    unfold ibmca_aes_gcm_ctrl
    rfl
  have hget : ∀ c1 : EVP_CIPHER_CTX,
      ibmca_aes_gcm_ctrl env c1 Ctrl.GET_TAG len p
        = if len ≤ 0 ∨ len > 16 ∨ c1.encrypt = false ∨ c1.cipher_data.taglen < 0 then
            { ret := 0, ctx := c1, out := p, calls := [] }
          else
            { ret := 1, ctx := c1, out := memcpy p 0 c1.buf 0 len.toNat, calls := [] } :=
    fun c1 => by
      unfold ibmca_aes_gcm_ctrl
      rfl
  have hgetout : ∀ c1 : EVP_CIPHER_CTX, (ibmca_aes_gcm_ctrl env c1 Ctrl.GET_TAG len p).ret = 1 →
      ∀ i, i < len.toNat → (ibmca_aes_gcm_ctrl env c1 Ctrl.GET_TAG len p).out i = c1.buf i := by
    intro c1 h i hi
    rw [hget c1] at h ⊢
    split at h
    · exact absurd h (by simp)
    · rename_i h1
      rw [if_neg h1]
      simp only [memcpy]
      rw [if_pos ⟨by omega, by omega⟩]
      simp
  have hgetiff : ∀ c1 : EVP_CIPHER_CTX, ((ibmca_aes_gcm_ctrl env c1 Ctrl.GET_TAG len p).ret = 1
      ↔ c1.encrypt = true ∧ 0 < len ∧ len ≤ 16 ∧ 0 ≤ c1.cipher_data.taglen) := by
    intro c1
    rw [hget c1]
    split
    · rename_i h1
      constructor
      · intro h
        exact absurd h (by simp)
      · rintro ⟨he, h0, h16, ht⟩
        rcases h1 with h1 | h1 | h1 | h1
        · omega
        · omega
        · rw [he] at h1
          exact absurd h1 (by decide)
        · omega
    · rename_i h1
      constructor
      · intro _
        refine ⟨?_, ?_, ?_, ?_⟩
        · cases he : c1.encrypt
          · exact absurd (Or.inr (Or.inr (Or.inl he))) h1
          · rfl
        · by_contra h0
          exact h1 (Or.inl (by omega))
        · by_contra h0
          exact h1 (Or.inr (Or.inl (by omega)))
        · by_contra h0
          exact h1 (Or.inr (Or.inr (Or.inr (by omega))))
      · intro _
        rfl
  refine ⟨?_, ?_, hgetiff c, hgetout c, ?_, ?_⟩
  · rw [hset c]
    split
    · rename_i h1
      constructor
      · intro h
        exact absurd h (by simp)
      · rintro ⟨he, h0, h16⟩
        rcases h1 with h1 | h1 | h1
        · omega
        · omega
        · rw [he] at h1
          exact absurd h1 (by decide)
    · rename_i h1
      constructor
      · intro _
        refine ⟨?_, ?_, ?_⟩
        · cases he : c.encrypt
          · rfl
          · exact absurd (Or.inr (Or.inr he)) h1
        · by_contra h0
          exact h1 (Or.inl (by omega))
        · by_contra h0
          exact h1 (Or.inr (Or.inl (by omega)))
      · intro _
        rfl
  · rw [hset c]
    split
    · intro h
      exact absurd h (by simp)
    · intro _
      refine ⟨?_, rfl⟩
      intro i hi
      simp only [memcpy]
      rw [if_pos ⟨by omega, by omega⟩]
      simp
  · intro out n henc ht hf
    obtain ⟨he, htl, htag, hbuf⟩ := cipher_final_tag env c out n henc ht hf
    refine ⟨htl, ?_⟩
    intro h0 h16
    have hret : (ibmca_aes_gcm_ctrl env (ibmca_aes_gcm_cipher env c out none n).ctx
        Ctrl.GET_TAG len p).ret = 1 :=
      (hgetiff _).mpr ⟨he, h0, h16, by rw [htl]; decide⟩
    refine ⟨hret, ?_⟩
    intro i hi
    rw [hgetout _ hret i hi, hbuf i (by omega), htag]
  · intro hr
    have hu := no_finalize_untagged env c hr
    rw [hget c]
    by_cases he : c.encrypt = true
    · rw [if_pos (Or.inr (Or.inr (Or.inr (hu he))))]
    · have he2 : c.encrypt = false := by
        cases h : c.encrypt
        · rfl
        · exact absurd h he
      rw [if_pos (Or.inr (Or.inr (Or.inl he2)))]

/-- C18, as stated, fails after a finalize whose closing primitive call fails: on an
encrypting session with key and IV the finalize returns -1 and leaves the scratch buffer
as it was, yet `taglen` is 16, so `get_tag` for 16 bytes returns 1 and hands out the sixteen
zero bytes of the scratch buffer, which are not a tag computed at finalize (the failed
closing call left `0xFF` bytes in the tag material). -/
theorem get_tag_after_failed_finalize :
    lastFailCtx.encrypt = true ∧
    lastFailFinal.ret = -1 ∧
    lastFailFinal.calls.map GcmCall.lastFailed = [true] ∧
    lastFailFinal.ctx.cipher_data.taglen = 16 ∧
    lastFailFinal.ctx.cipher_data.tag = List.replicate 16 255 ∧
    (ibmca_aes_gcm_ctrl lastFailEnv lastFailFinal.ctx Ctrl.GET_TAG 16 exIv).ret = 1 ∧
    slice (ibmca_aes_gcm_ctrl lastFailEnv lastFailFinal.ctx Ctrl.GET_TAG 16 exIv).out 0 16
      = List.replicate 16 0 := by
  decide

/-- C18 at samples: on `readyCtx` (encrypting, no finalize yet) `get_tag` returns 0; the
finalize returns 0 and fixes `taglen = 16`, and `get_tag` for 4 bytes after it returns 1
and hands out the first 4 bytes of the tag computed by the closing call. -/
theorem tag_access_guard_witness :
    (GcmNoFinalize toyEnv readyCtx ∧ readyCtx.encrypt = true ∧
      readyCtx.cipher_data.tls_aadlen < 0 ∧
      (ibmca_aes_gcm_cipher toyEnv readyCtx none none 0).ret = 0) ∧
    (ibmca_aes_gcm_ctrl toyEnv readyCtx Ctrl.GET_TAG 4 zeroBuf).ret = 0 ∧
    (ibmca_aes_gcm_cipher toyEnv readyCtx none none 0).ctx.cipher_data.taglen = 16 ∧
    (ibmca_aes_gcm_ctrl toyEnv (ibmca_aes_gcm_cipher toyEnv readyCtx none none 0).ctx
      Ctrl.GET_TAG 4 zeroBuf).ret = 1 ∧
    (∀ i, i < (4 : Int).toNat →
      (ibmca_aes_gcm_ctrl toyEnv (ibmca_aes_gcm_cipher toyEnv readyCtx none none 0).ctx
        Ctrl.GET_TAG 4 zeroBuf).out i
        = (toyEnv.P.gcm_last readyCtx.cipher_data.icb readyCtx.cipher_data.aadlen
            readyCtx.cipher_data.ptlen readyCtx.cipher_data.tag none 16
            (slice readyCtx.cipher_data.key 0 readyCtx.key_len)
            readyCtx.cipher_data.subkey true).2.getD i 0) ∧
    slice (ibmca_aes_gcm_ctrl toyEnv (ibmca_aes_gcm_cipher toyEnv readyCtx none none 0).ctx
      Ctrl.GET_TAG 4 zeroBuf).out 0 4
      = (toyGcm.gcm_last readyCtx.cipher_data.icb 0 0 readyCtx.cipher_data.tag none 16
          (slice exKey 0 16) readyCtx.cipher_data.subkey true).2.take 4 :=
  have hn : GcmNoFinalize toyEnv readyCtx :=
    GcmNoFinalize.init_key _ none (some exIv)
      (GcmNoFinalize.init_key _ (some exKey) none (GcmNoFinalize.init true 16))
  have h5 := (tag_access_guard toyEnv readyCtx 4 zeroBuf).2.2.2.2.1 none 0 (by decide)
    (by decide) (by decide)
  have h6 := h5.2 (by decide) (by decide)
  ⟨⟨hn, by decide, by decide, by decide⟩,
    (tag_access_guard toyEnv readyCtx 4 zeroBuf).2.2.2.2.2 hn, h5.1, h6.1, h6.2, by decide⟩

/-! ## Claims on re-keying -/

/-- Model of `set_key (K)` without an IV argument on a session in which no IV is set: the key is
stored and `key_set` marked, nothing else changes and no primitive is called. -/
theorem set_key_without_iv (env : Env) (c : EVP_CIPHER_CTX) (K : Buf) (enc : Bool)
    (hiv : c.cipher_data.iv_set = 0) :
    ibmca_aes_gcm_init_key env c (some K) none enc
      = { ret := 1,
          ctx := { c with cipher_data :=
            { c.cipher_data with key := memcpy c.cipher_data.key 0 K 0 c.key_len,
                                 key_set := 1 } },
          out := fun _ => 0, calls := [] } := by
  unfold ibmca_aes_gcm_init_key
  simp only [hiv, ne_eq, not_true_eq_false, if_false]

/-- Model of `set_key (K)` without an IV argument on a session in which an IV is set: the
derivation call gets the bytes of the session's IV buffer and `K`; when it succeeds its
outputs are stored and the counters and the tag are reset. -/
theorem set_key_rederives (env : Env) (c : EVP_CIPHER_CTX) (K : Buf) (enc : Bool)
    (hiv : c.cipher_data.iv_set ≠ 0) :
    (ibmca_aes_gcm_init_key env c (some K) none enc).calls
      = [GcmCall.init (slice (gctx_iv c) 0 c.cipher_data.ivlen.toNat) (slice K 0 c.key_len) enc
          (env.P.gcm_init (slice (gctx_iv c) 0 c.cipher_data.ivlen.toNat) (slice K 0 c.key_len)
            enc).1] ∧
    ((env.P.gcm_init (slice (gctx_iv c) 0 c.cipher_data.ivlen.toNat) (slice K 0 c.key_len)
        enc).1 = 0 →
      (ibmca_aes_gcm_init_key env c (some K) none enc).ret = 1 ∧
      ((ibmca_aes_gcm_init_key env c (some K) none enc).ctx.cipher_data.icb,
       (ibmca_aes_gcm_init_key env c (some K) none enc).ctx.cipher_data.ucb,
       (ibmca_aes_gcm_init_key env c (some K) none enc).ctx.cipher_data.subkey)
        = (env.P.gcm_init (slice (gctx_iv c) 0 c.cipher_data.ivlen.toNat) (slice K 0 c.key_len)
            enc).2 ∧
      (ibmca_aes_gcm_init_key env c (some K) none enc).ctx.cipher_data.aadlen = 0 ∧
      (ibmca_aes_gcm_init_key env c (some K) none enc).ctx.cipher_data.ptlen = 0 ∧
      (ibmca_aes_gcm_init_key env c (some K) none enc).ctx.cipher_data.tag
        = List.replicate 16 0) := by
  have hiv1 : gctx_iv { c with cipher_data :=
      { c.cipher_data with key := memcpy c.cipher_data.key 0 K 0 c.key_len } } = gctx_iv c := rfl
  unfold ibmca_aes_gcm_init_key gcm_derive
  simp only [ne_eq, hiv, not_false_eq_true, if_true, hiv1, slice_memcpy_zero]
  constructor
  · split <;> rfl
  · intro hrc
    simp only [hrc, not_true_eq_false, if_false]
    exact ⟨trivial, trivial, trivial, trivial, trivial⟩

/-- Model of `set_iv (V)` before any key, then `set_key (K)` without an IV argument: the
derivation call gets exactly `V` and `K`. -/
theorem set_key_buffered_iv (env : Env) (c : EVP_CIPHER_CTX) (V K : Buf) (enc : Bool)
    (hk : c.cipher_data.key_set = 0) (hloc : c.cipher_data.iv_loc ≠ IvLoc.null) :
    (ibmca_aes_gcm_init_key env (ibmca_aes_gcm_init_key env c none (some V) enc).ctx (some K)
      none enc).calls
      = [GcmCall.init (slice V 0 c.cipher_data.ivlen.toNat) (slice K 0 c.key_len) enc
          (env.P.gcm_init (slice V 0 c.cipher_data.ivlen.toNat) (slice K 0 c.key_len) enc).1] := by
  have h1 : ibmca_aes_gcm_init_key env c none (some V) enc
      = { ret := 1,
          ctx := { gctx_iv_store c (memcpy (gctx_iv c) 0 V 0 c.cipher_data.ivlen.toNat) with
            cipher_data :=
              { (gctx_iv_store c (memcpy (gctx_iv c) 0 V 0
                  c.cipher_data.ivlen.toNat)).cipher_data with iv_set := 1, iv_gen := 0 } },
          out := fun _ => 0, calls := [] } := by
    unfold ibmca_aes_gcm_init_key
    simp only [hk, ne_eq, not_true_eq_false, if_false]
  have hd := gctx_iv_store_data c (memcpy (gctx_iv c) 0 V 0 c.cipher_data.ivlen.toNat)
  have hg := gctx_iv_store_get c (memcpy (gctx_iv c) 0 V 0 c.cipher_data.ivlen.toNat) hloc
  have h2 := (set_key_rederives env (ibmca_aes_gcm_init_key env c none (some V) enc).ctx K enc
    (by rw [h1]; exact one_ne_zero)).1
  rw [h2]
  have e1 : gctx_iv (ibmca_aes_gcm_init_key env c none (some V) enc).ctx
      = memcpy (gctx_iv c) 0 V 0 c.cipher_data.ivlen.toNat := by
    rw [h1]
    exact hg
  have e2 : (ibmca_aes_gcm_init_key env c none (some V) enc).ctx.cipher_data.ivlen
      = c.cipher_data.ivlen := by
    rw [h1]
    exact hd.2.2.2.1
  have e3 : (ibmca_aes_gcm_init_key env c none (some V) enc).ctx.key_len = c.key_len := by
    rw [h1]
    exact hd.2.2.2.2.2.2.2.2.2.2.2.2.2.1
  rw [e1, e2, e3, slice_memcpy_zero]

theorem sha_submit_fails (P : ShaPrim) (part : SHA_MSG_PART) (ctx : IBMCA_SHA_CTX)
    (in_data : Buf) (f n : Nat) (calls : List ShaCall) (copies : List (Nat × Nat))
    (hpre : ∀ c, c ∈ calls → c.rc = 0)
    (h : ∃ c, c ∈ (sha_submit P part ctx in_data f n calls copies).calls ∧ c.rc ≠ 0) :
    (sha_submit P part ctx in_data f n calls copies).ret = 0 := by
  unfold sha_submit at h ⊢
  by_cases hn : n ≠ 0
  · simp only [if_pos hn] at h ⊢
    obtain ⟨c, hc, hrc⟩ := h
    rw [List.mem_append] at hc
    rcases hc with hc | hc
    · exact absurd (hpre c hc) hrc
    · rw [List.mem_singleton] at hc
      rw [hc] at hrc
      rw [if_pos hrc]
  · simp only [if_neg hn] at h ⊢
    obtain ⟨c, hc, hrc⟩ := h
    exact absurd (hpre c hc) hrc

theorem sha_fill_fails (bs : Nat) (P : ShaPrim) (part : SHA_MSG_PART) (ctx : IBMCA_SHA_CTX)
    (in_data : Buf) (x : Nat)
    (h : ∃ c, c ∈ (sha_fill bs P part ctx in_data x).calls ∧ c.rc ≠ 0) :
    (sha_fill bs P part ctx in_data x).ret = 0 := by
  unfold sha_fill at h ⊢
  simp only at h ⊢
  split
  · rename_i h1
    rw [if_pos h1] at h
    split
    · rfl
    · rename_i h2
      rw [if_neg h2] at h
      apply sha_submit_fails _ _ _ _ _ _ _ _ _ h
      intro c hc
      rw [List.mem_singleton] at hc
      rw [hc]
      exact not_not.mp h2
  · rename_i h1
    rw [if_neg h1] at h
    obtain ⟨c, hc, _⟩ := h
    simp at hc

/-- An `update` in which a primitive call fails returns 0. -/
theorem sha_update_fails (bs : Nat) (P : ShaPrim) (ctx : IBMCA_SHA_CTX) (in_data : Buf)
    (x : Nat) (h : ∃ c, c ∈ (sha_update bs P ctx in_data x).calls ∧ c.rc ≠ 0) :
    (sha_update bs P ctx in_data x).ret = 0 := by
  have hnil : ∀ c : ShaCall, c ∈ ([] : List ShaCall) → c.rc = 0 := by
    intro c hc
    simp at hc
  unfold sha_update at h ⊢
  simp only at h ⊢
  split
  · rename_i h1
    rw [if_pos h1] at h
    obtain ⟨c, hc, _⟩ := h
    simp at hc
  · rename_i h1
    rw [if_neg h1] at h
    split
    · rename_i h2
      rw [if_pos h2] at h
      exact sha_submit_fails _ _ _ _ _ _ _ _ hnil h
    · rename_i h2
      rw [if_neg h2] at h
      split
      · rename_i h3
        rw [if_pos h3] at h
        exact sha_fill_fails _ _ _ _ _ _ h
      · rename_i h3
        rw [if_neg h3] at h
        split
        · rename_i h4
          rw [if_pos h4] at h
          split
          · rename_i h5
            rw [if_pos h5] at h
            exact sha_fill_fails _ _ _ _ _ _ h
          · rename_i h5
            rw [if_neg h5] at h
            exact sha_submit_fails _ _ _ _ _ _ _ _ hnil h
        · rename_i h4
          rw [if_neg h4] at h
          exact sha_submit_fails _ _ _ _ _ _ _ _ hnil h

/-- The top-up branch when its first primitive call, the submission of the completed
tail, fails: no further call, `tail_len` and the bytes `tail[0 : tail_len]` are as before. -/
theorem sha_fill_first_fails (bs : Nat) (P : ShaPrim) (part : SHA_MSG_PART)
    (ctx : IBMCA_SHA_CTX) (in_data : Buf) (x : Nat) (call : ShaCall) (rest : List ShaCall)
    (hc : (sha_fill bs P part ctx in_data x).calls = call :: rest) (hrc : call.rc ≠ 0) :
    rest = [] ∧ (sha_fill bs P part ctx in_data x).ctx.tail_len = ctx.tail_len ∧
    slice (sha_fill bs P part ctx in_data x).ctx.tail 0 ctx.tail_len
      = slice ctx.tail 0 ctx.tail_len := by
  unfold sha_fill at hc ⊢
  simp only at hc ⊢
  split
  · rename_i h1
    rw [if_pos h1] at hc
    split
    · rename_i h2
      rw [if_pos h2] at hc
      simp only [List.cons.injEq] at hc
      refine ⟨hc.2.symm, rfl, ?_⟩
      apply slice_congr
      intro i hi
      simp only [memcpy]
      rw [if_neg (by omega)]
    · rename_i h2
      rw [if_neg h2] at hc
      obtain ⟨rest2, hr2⟩ := sha_submit_head P SHA_MSG_PART.MIDDLE
        { c := (P part (slice (memcpy ctx.tail ctx.tail_len in_data 0
              ((2 ^ 32 + bs - ctx.tail_len % 2 ^ 32) % 2 ^ 32)) 0 bs) ctx.c).2.1,
          tail := (sha_split bs (memcpy ctx.tail ctx.tail_len in_data 0
              ((2 ^ 32 + bs - ctx.tail_len % 2 ^ 32) % 2 ^ 32)) in_data
              ((2 ^ 32 + bs - ctx.tail_len % 2 ^ 32) % 2 ^ 32)
              (x - (2 ^ 32 + bs - ctx.tail_len % 2 ^ 32) % 2 ^ 32)).2.2.1,
          tail_len := (sha_split bs (memcpy ctx.tail ctx.tail_len in_data 0
              ((2 ^ 32 + bs - ctx.tail_len % 2 ^ 32) % 2 ^ 32)) in_data
              ((2 ^ 32 + bs - ctx.tail_len % 2 ^ 32) % 2 ^ 32)
              (x - (2 ^ 32 + bs - ctx.tail_len % 2 ^ 32) % 2 ^ 32)).1 }
        in_data ((2 ^ 32 + bs - ctx.tail_len % 2 ^ 32) % 2 ^ 32)
        (sha_split bs (memcpy ctx.tail ctx.tail_len in_data 0
              ((2 ^ 32 + bs - ctx.tail_len % 2 ^ 32) % 2 ^ 32)) in_data
              ((2 ^ 32 + bs - ctx.tail_len % 2 ^ 32) % 2 ^ 32)
              (x - (2 ^ 32 + bs - ctx.tail_len % 2 ^ 32) % 2 ^ 32)).2.1
        { part := part, len := bs,
          data := slice (memcpy ctx.tail ctx.tail_len in_data 0
              ((2 ^ 32 + bs - ctx.tail_len % 2 ^ 32) % 2 ^ 32)) 0 bs,
          rc := (P part (slice (memcpy ctx.tail ctx.tail_len in_data 0
              ((2 ^ 32 + bs - ctx.tail_len % 2 ^ 32) % 2 ^ 32)) 0 bs) ctx.c).1 }
        ((ctx.tail_len, (2 ^ 32 + bs - ctx.tail_len % 2 ^ 32) % 2 ^ 32) ::
          (sha_split bs (memcpy ctx.tail ctx.tail_len in_data 0
              ((2 ^ 32 + bs - ctx.tail_len % 2 ^ 32) % 2 ^ 32)) in_data
              ((2 ^ 32 + bs - ctx.tail_len % 2 ^ 32) % 2 ^ 32)
              (x - (2 ^ 32 + bs - ctx.tail_len % 2 ^ 32) % 2 ^ 32)).2.2.2)
      rw [hr2] at hc
      simp only [List.cons.injEq] at hc
      rw [← hc.1] at hrc
      exact absurd (not_not.mp h2) hrc
  · rename_i h1
    rw [if_neg h1] at hc
    exact absurd hc (by simp)

/-- The top-up branch when its first primitive call succeeds: `tail_len` already is the
length of the unaligned remainder of the input that follows the top-up, and the buffer
holds those trailing input bytes. -/
theorem sha_fill_first_ok (bs : Nat) (hbs : bs = 64 ∨ bs = 128) (P : ShaPrim)
    (part : SHA_MSG_PART) (ctx : IBMCA_SHA_CTX) (in_data : Buf) (x : Nat)
    (ht : ctx.tail_len ≤ bs) (hx : x < 2 ^ 64)
    (call : ShaCall) (rest : List ShaCall)
    (hc : (sha_fill bs P part ctx in_data x).calls = call :: rest) (hrc : call.rc = 0) :
    (sha_fill bs P part ctx in_data x).ctx.tail_len = (x - (bs - ctx.tail_len)) % bs ∧
    slice (sha_fill bs P part ctx in_data x).ctx.tail 0 ((x - (bs - ctx.tail_len)) % bs)
      = slice in_data (x - (x - (bs - ctx.tail_len)) % bs)
          ((x - (bs - ctx.tail_len)) % bs) := by
  have hbpos : 0 < bs := by rcases hbs with rfl | rfl <;> norm_num
  have hf := fill_size_eq bs hbs ctx.tail_len ht
  have hx2 : x - (bs - ctx.tail_len) < 2 ^ 64 := by omega
  unfold sha_fill at hc ⊢
  simp only [hf] at hc ⊢
  split
  · rename_i h1
    rw [if_pos h1] at hc
    split
    · rename_i h2
      rw [if_pos h2] at hc
      simp only [List.cons.injEq] at hc
      rw [← hc.1] at hrc
      exact absurd hrc h2
    · rw [(sha_submit_ctx _ _ _ _ _ _ _ _).2.1, (sha_submit_ctx _ _ _ _ _ _ _ _).1]
      refine ⟨(sha_split_len bs hbs _ in_data _ _ hx2).1, ?_⟩
      have h := sha_split_tail bs hbs (memcpy ctx.tail ctx.tail_len in_data 0
        (bs - ctx.tail_len)) in_data (bs - ctx.tail_len) (x - (bs - ctx.tail_len)) hx2
      have hle : (x - (bs - ctx.tail_len)) % bs ≤ x - (bs - ctx.tail_len) :=
        Nat.mod_le _ _
      have ho : bs - ctx.tail_len
          + (x - (bs - ctx.tail_len) - (x - (bs - ctx.tail_len)) % bs)
          = x - (x - (bs - ctx.tail_len)) % bs := by omega
      rw [ho] at h
      exact h
  · rename_i h1
    rw [if_neg h1] at hc
    exact absurd hc (by simp)

theorem sha_submit_init_ok (P : ShaPrim) (part : SHA_MSG_PART) (ctx : IBMCA_SHA_CTX)
    (in_data : Buf) (f n : Nat) (calls : List ShaCall) (copies : List (Nat × Nat))
    (hpre : ∀ c, c ∈ calls → c.rc = 0) :
    ∀ c, c ∈ (sha_submit P part ctx in_data f n calls copies).calls.dropLast → c.rc = 0 := by
  unfold sha_submit
  split
  · intro c hc
    simp only [List.dropLast_concat] at hc
    exact hpre c hc
  · intro c hc
    exact hpre c (List.mem_of_mem_dropLast hc)

theorem sha_fill_init_ok (bs : Nat) (P : ShaPrim) (part : SHA_MSG_PART) (ctx : IBMCA_SHA_CTX)
    (in_data : Buf) (x : Nat) :
    ∀ c, c ∈ (sha_fill bs P part ctx in_data x).calls.dropLast → c.rc = 0 := by
  unfold sha_fill
  simp only
  split
  · split
    · intro c hc
      simp at hc
    · rename_i h2
      apply sha_submit_init_ok
      intro c hc
      rw [List.mem_singleton] at hc
      rw [hc]
      exact not_not.mp h2
  · intro c hc
    simp at hc

/-- Every primitive call of an `update` but the last one succeeded: a failing call is the
last call the `update` makes. -/
theorem sha_update_init_ok (bs : Nat) (P : ShaPrim) (ctx : IBMCA_SHA_CTX) (in_data : Buf)
    (x : Nat) :
    ∀ c, c ∈ (sha_update bs P ctx in_data x).calls.dropLast → c.rc = 0 := by
  by_cases hx0 : x = 0
  · intro c hc
    rw [hx0] at hc
    unfold sha_update at hc
    simp at hc
  · by_cases ht0 : ctx.tail_len = 0
    · obtain ⟨part, hp⟩ := sha_update_direct bs P ctx in_data x hx0 ht0
      rw [hp]
      apply sha_submit_init_ok
      intro c hc
      simp at hc
    · obtain ⟨part, hp⟩ := sha_update_pending bs P ctx in_data x hx0 ht0
      rw [hp]
      exact sha_fill_init_ok bs P part ctx in_data x

/-- C20, as the code has it: an `update` in which a primitive call fails returns 0, and the
failing call is the last one it makes.  When the failing call is the first one of an
`update` that found a pending tail (the submission of the topped-up buffer), no further
call is made and `tail_len` and the bytes `tail[0 : tail_len]` are as before the `update`.
In the other cases the buffered state has already been replaced when the call is made:
without a pending tail, `tail_len` is the input length modulo the block size; after a
successful top-up, `tail_len` is the length of the rest of the input modulo the block
size; and in both the buffer holds the last `tail_len` input bytes. -/
theorem update_failure_state (bs : Nat) (hbs : bs = 64 ∨ bs = 128) (P : ShaPrim)
    (ctx : IBMCA_SHA_CTX) (in_data : Buf) (x : Nat)
    (ht : ctx.tail_len ≤ bs) (hx : x < 2 ^ 64) :
    ((∃ c, c ∈ (sha_update bs P ctx in_data x).calls ∧ c.rc ≠ 0) →
      (sha_update bs P ctx in_data x).ret = 0) ∧
    (∀ c, c ∈ (sha_update bs P ctx in_data x).calls.dropLast → c.rc = 0) ∧
    (ctx.tail_len ≠ 0 → ∀ call rest, (sha_update bs P ctx in_data x).calls = call :: rest →
      call.rc ≠ 0 →
      rest = [] ∧ (sha_update bs P ctx in_data x).ctx.tail_len = ctx.tail_len ∧
      slice (sha_update bs P ctx in_data x).ctx.tail 0 ctx.tail_len
        = slice ctx.tail 0 ctx.tail_len) ∧
    (ctx.tail_len ≠ 0 → ∀ call rest, (sha_update bs P ctx in_data x).calls = call :: rest →
      call.rc = 0 →
      (sha_update bs P ctx in_data x).ctx.tail_len = (x - (bs - ctx.tail_len)) % bs ∧
      slice (sha_update bs P ctx in_data x).ctx.tail 0 ((x - (bs - ctx.tail_len)) % bs)
        = slice in_data (x - (x - (bs - ctx.tail_len)) % bs)
            ((x - (bs - ctx.tail_len)) % bs)) ∧
    (ctx.tail_len = 0 → x ≠ 0 →
      (sha_update bs P ctx in_data x).ctx.tail_len = x % bs ∧
      slice (sha_update bs P ctx in_data x).ctx.tail 0 (x % bs)
        = slice in_data (x - x % bs) (x % bs)) := by
  refine ⟨sha_update_fails bs P ctx in_data x, sha_update_init_ok bs P ctx in_data x,
    ?_, ?_, ?_⟩
  · intro ht0 call rest hc hrc
    have hx0 : x ≠ 0 := by
      intro h0
      rw [h0] at hc
      unfold sha_update at hc
      simp at hc
    obtain ⟨part, hp⟩ := sha_update_pending bs P ctx in_data x hx0 ht0
    rw [hp] at hc ⊢
    exact sha_fill_first_fails bs P part ctx in_data x call rest hc hrc
  · intro ht0 call rest hc hrc
    have hx0 : x ≠ 0 := by
      intro h0
      rw [h0] at hc
      unfold sha_update at hc
      simp at hc
    obtain ⟨part, hp⟩ := sha_update_pending bs P ctx in_data x hx0 ht0
    rw [hp] at hc ⊢
    exact sha_fill_first_ok bs hbs P part ctx in_data x ht hx call rest hc hrc
  · intro ht0 hx0
    obtain ⟨part, hp⟩ := sha_update_direct bs P ctx in_data x hx0 ht0
    rw [hp, (sha_submit_ctx _ _ _ _ _ _ _ _).1, (sha_submit_ctx _ _ _ _ _ _ _ _).2.1]
    refine ⟨(sha_split_len bs hbs _ in_data _ _ hx).1, ?_⟩
    have h := sha_split_tail bs hbs ctx.tail in_data 0 x hx
    rw [Nat.zero_add] at h
    exact h

/-- C20 at the failing input, for the claim as stated: on the freshly initialised SHA-1
context (nothing buffered, `tail_len = 0`) an `update` of 70 bytes whose primitive call
fails returns 0, yet `tail_len` is 6 and the buffer holds the last six input bytes. -/
theorem update_failure_changes_tail :
    ibmca_sha1_init.tail_len = 0 ∧
    (ibmca_sha1_update failPrim ibmca_sha1_init exInput 70).ret = 0 ∧
    (ibmca_sha1_update failPrim ibmca_sha1_init exInput 70).calls.map ShaCall.rc = [1] ∧
    (ibmca_sha1_update failPrim ibmca_sha1_init exInput 70).ctx.tail_len = 6 ∧
    slice (ibmca_sha1_update failPrim ibmca_sha1_init exInput 70).ctx.tail 0 6
      = [65, 66, 67, 68, 69, 70] := by
  decide

set_option maxRecDepth 8192 in
/-- C20 at a sample: on the SHA-1 context that buffers the 10 bytes `1 .. 10`, an `update` of
70 bytes with a failing primitive makes one call, the submission of the topped-up buffer;
it returns 0 and keeps `tail_len = 10` and the ten buffered bytes. -/
theorem update_failure_state_witness :
    ((ibmca_sha1_update failPrim ibmca_sha1_init exInput 10).ctx.tail_len ≤ 64 ∧
      (70 : Nat) < 2 ^ 64 ∧
      (ibmca_sha1_update failPrim ibmca_sha1_init exInput 10).ctx.tail_len ≠ 0 ∧
      (sha_update 64 failPrim (ibmca_sha1_update failPrim ibmca_sha1_init exInput 10).ctx
        exKey 70).calls.map ShaCall.rc = [1]) ∧
    (sha_update 64 failPrim (ibmca_sha1_update failPrim ibmca_sha1_init exInput 10).ctx
      exKey 70).ret = 0 ∧
    (sha_update 64 failPrim (ibmca_sha1_update failPrim ibmca_sha1_init exInput 10).ctx
      exKey 70).ctx.tail_len
      = (ibmca_sha1_update failPrim ibmca_sha1_init exInput 10).ctx.tail_len ∧
    slice (sha_update 64 failPrim (ibmca_sha1_update failPrim ibmca_sha1_init exInput 10).ctx
      exKey 70).ctx.tail 0 (ibmca_sha1_update failPrim ibmca_sha1_init exInput 10).ctx.tail_len
      = slice (ibmca_sha1_update failPrim ibmca_sha1_init exInput 10).ctx.tail 0
          (ibmca_sha1_update failPrim ibmca_sha1_init exInput 10).ctx.tail_len ∧
    slice (ibmca_sha1_update failPrim ibmca_sha1_init exInput 10).ctx.tail 0 10
      = [1, 2, 3, 4, 5, 6, 7, 8, 9, 10] :=
  have T := update_failure_state 64 (Or.inl rfl) failPrim
    (ibmca_sha1_update failPrim ibmca_sha1_init exInput 10).ctx exKey 70 (by decide)
    (by decide)
  have hc : (sha_update 64 failPrim (ibmca_sha1_update failPrim ibmca_sha1_init exInput 10).ctx
      exKey 70).calls
      = [{ part := SHA_MSG_PART.FIRST, len := 64,
           data := slice (memcpy (ibmca_sha1_update failPrim ibmca_sha1_init exInput 10).ctx.tail
             10 exKey 0 54) 0 64,
           rc := 1 }] := by decide
  have h3 := T.2.2.1 (by decide) _ _ hc (by decide)
  ⟨⟨by decide, by decide, by decide, by decide⟩,
    T.1 ⟨_, by rw [hc]; exact List.mem_singleton.mpr rfl, by decide⟩, h3.2.1, h3.2.2,
    by decide⟩

/-! ## The helpers on two sessions with the same material -/

/-- The tag step of an encrypting record call that does not return -1: the closing call
succeeded, the result is the record length as an `int`, the tag is at the end of the
record and the bytes before it are untouched. -/
theorem tls_tag_step_enc (env : Env) (len1 : Nat) (rec1 : Buf) (pre : List GcmCall)
    (c : EVP_CIPHER_CTX) (hok : (tls_tag_step env true len1 rec1 pre c).ret ≠ -1) :
    (ibmca_gcm_tag env c none 16).1 ≠ 0 ∧
    (tls_tag_step env true len1 rec1 pre c).ret = toInt32 (len1 + 8 + 16) ∧
    (tls_tag_step env true len1 rec1 pre c).out
      = memcpy rec1 (8 + len1) (ofList (ibmca_gcm_tag env c none 16).2.1.cipher_data.tag) 0 16 ∧
    (tls_tag_step env true len1 rec1 pre c).ctx.cipher_data.tag
      = (ibmca_gcm_tag env c none 16).2.1.cipher_data.tag := by
  unfold tls_tag_step at hok ⊢
  simp only [if_true, EVP_GCM_TLS_TAG_LEN, EVP_GCM_TLS_EXPLICIT_IV_LEN] at hok ⊢
  by_cases h : (ibmca_gcm_tag env c none 16).1 = 0
  · rw [if_pos h] at hok
    exact absurd rfl hok
  · rw [if_neg h]
    exact ⟨h, rfl, rfl, rfl⟩

/-- The tag step of a decrypting record call, by the outcome of the closing call. -/
theorem tls_tag_step_dec (env : Env) (len1 : Nat) (rec1 : Buf) (pre : List GcmCall)
    (c : EVP_CIPHER_CTX) :
    ((ibmca_gcm_tag env c (some (slice rec1 (8 + len1) 16)) 16).1 ≠ 0 →
      (tls_tag_step env false len1 rec1 pre c).ret = toInt32 len1 ∧
      (tls_tag_step env false len1 rec1 pre c).out = rec1) ∧
    ((ibmca_gcm_tag env c (some (slice rec1 (8 + len1) 16)) 16).1 = 0 →
      (tls_tag_step env false len1 rec1 pre c).ret = -1) := by
  unfold tls_tag_step
  simp only [Bool.false_eq_true, if_false, EVP_GCM_TLS_TAG_LEN, EVP_GCM_TLS_EXPLICIT_IV_LEN]
  constructor
  · intro h
    rw [if_neg h]
    exact ⟨rfl, rfl⟩
  · intro h
    rw [if_pos h]
    rfl

/-- The payload step of an encrypting record call that does not return -1, within the
capacity: the primitive call succeeded, the result is the record length as an `int`, the
first 8 bytes of the record are untouched, the payload region holds the output of the
primitive and the 16 bytes after it hold the tag. -/
theorem tls_payload_step_enc (env : Env) (len : Nat) (rec0 : Buf) (pre : List GcmCall)
    (c : EVP_CIPHER_CTX) (h24 : 24 ≤ len) (hcap : c.cipher_data.ptlen + (len - 24) ≤ 2 ^ 36 - 32)
    (hok : (tls_payload_step env true len rec0 pre c).ret ≠ -1) :
    (env.P.gcm_intermediate (slice rec0 8 (len - 24)) c.cipher_data.ucb [] c.cipher_data.tag
      (slice c.cipher_data.key 0 c.key_len) c.cipher_data.subkey true).1 = 0 ∧
    (tls_payload_step env true len rec0 pre c).ret = toInt32 len ∧
    (∀ i, i < 8 → (tls_payload_step env true len rec0 pre c).out i = rec0 i) ∧
    (∀ i, i < len - 24 → (tls_payload_step env true len rec0 pre c).out (8 + i)
      = (env.P.gcm_intermediate (slice rec0 8 (len - 24)) c.cipher_data.ucb []
          c.cipher_data.tag (slice c.cipher_data.key 0 c.key_len) c.cipher_data.subkey
          true).2.1.getD i 0) ∧
    (∀ i, i < 16 → (tls_payload_step env true len rec0 pre c).out (len - 16 + i)
      = (tls_payload_step env true len rec0 pre c).ctx.cipher_data.tag.getD i 0) ∧
    (∀ i, len ≤ i → (tls_payload_step env true len rec0 pre c).out i = rec0 i) := by
  have hsl : slice (fun i => rec0 (8 + i)) 0 (len - 24) = slice rec0 8 (len - 24) := by
    apply slice_congr
    intro i _
    simp
  unfold tls_payload_step at hok ⊢
  simp only [EVP_GCM_TLS_TAG_LEN, EVP_GCM_TLS_EXPLICIT_IV_LEN, show (8 + 16 : Nat) = 24 from rfl]
    at hok ⊢
  rw [ibmca_aes_gcm_ok env c _ _ (len - 24) true hcap] at hok ⊢
  simp only [hsl] at hok ⊢
  by_cases hrc : (env.P.gcm_intermediate (slice rec0 8 (len - 24)) c.cipher_data.ucb []
      c.cipher_data.tag (slice c.cipher_data.key 0 c.key_len) c.cipher_data.subkey true).1 = 0
  · simp only [hrc, if_true, one_ne_zero, if_false] at hok ⊢
    obtain ⟨_, hret, hout, htag⟩ := tls_tag_step_enc env _ _ _ _ hok
    rw [hret, hout, htag]
    refine ⟨trivial, ?_, ?_, ?_, ?_, ?_⟩
    · congr 1
      omega
    · intro i hi
      simp only [memcpy]
      rw [if_neg (by omega), if_neg (by omega)]
    · intro i hi
      simp only [memcpy, ofList]
      rw [if_neg (by omega), if_pos (by omega), if_pos ⟨by omega, by omega⟩]
      congr 1
      omega
    · intro i hi
      simp only [memcpy, ofList]
      rw [if_pos ⟨by omega, by omega⟩]
      congr 1
      omega
    · intro i hi
      simp only [memcpy]
      rw [if_neg (by omega), if_pos (by omega), if_neg (by omega)]
      congr 1
      omega
  · simp only [hrc, if_false, if_true] at hok
    exact absurd rfl hok

/-- A record call that gets past the IV step and the associated-data step continues with
the payload step. -/
theorem tls_aad_step_eq (env : Env) (enc : Bool) (len : Nat) (k : GcmResult)
    (hk : 0 < k.ret)
    (ha : (ibmca_gcm_aad env k.ctx k.ctx.buf (k.ctx.cipher_data.tls_aadlen % 2 ^ 64).toNat
      enc).1 ≠ 0) :
    tls_aad_step env enc len k
      = tls_payload_step env enc len k.out
          (k.calls ++ (ibmca_gcm_aad env k.ctx k.ctx.buf
            (k.ctx.cipher_data.tls_aadlen % 2 ^ 64).toNat enc).2.2)
          (ibmca_gcm_aad env k.ctx k.ctx.buf (k.ctx.cipher_data.tls_aadlen % 2 ^ 64).toNat
            enc).2.1 := by
  unfold tls_aad_step
  simp only [if_neg (not_le.mpr hk), if_neg ha]

/-- A record call that does not return -1 got past the IV step and the associated-data
step. -/
theorem tls_aad_step_ok (env : Env) (enc : Bool) (len : Nat) (k : GcmResult)
    (hok : (tls_aad_step env enc len k).ret ≠ -1) :
    0 < k.ret ∧
    (ibmca_gcm_aad env k.ctx k.ctx.buf (k.ctx.cipher_data.tls_aadlen % 2 ^ 64).toNat
      enc).1 ≠ 0 := by
  unfold tls_aad_step at hok
  by_cases hk : k.ret ≤ 0
  · rw [if_pos hk] at hok
    exact absurd rfl hok
  · simp only [if_neg hk] at hok
    refine ⟨not_le.mp hk, ?_⟩
    intro ha
    rw [if_pos ha] at hok
    exact absurd rfl hok

/-- The state and the output of `EVP_CTRL_GCM_IV_GEN` when the derivation call succeeds. -/
theorem ctrl_iv_gen_material (env : Env) (c : EVP_CIPHER_CTX) (ptr : Buf)
    (hk : c.cipher_data.key_set ≠ 0) (hg : c.cipher_data.iv_gen ≠ 0)
    (h8 : 8 ≤ c.cipher_data.ivlen)
    (hrc : (env.P.gcm_init (slice (gctx_iv c) 0 c.cipher_data.ivlen.toNat)
      (slice c.cipher_data.key 0 c.key_len) c.encrypt).1 = 0) :
    (ibmca_aes_gcm_ctrl env c Ctrl.IV_GEN 8 ptr).ret = 1 ∧
    (ibmca_aes_gcm_ctrl env c Ctrl.IV_GEN 8 ptr).ctx.key_len = c.key_len ∧
    (ibmca_aes_gcm_ctrl env c Ctrl.IV_GEN 8 ptr).ctx.cipher_data.key = c.cipher_data.key ∧
    (ibmca_aes_gcm_ctrl env c Ctrl.IV_GEN 8 ptr).ctx.cipher_data.icb
      = (env.P.gcm_init (slice (gctx_iv c) 0 c.cipher_data.ivlen.toNat)
          (slice c.cipher_data.key 0 c.key_len) c.encrypt).2.1 ∧
    (ibmca_aes_gcm_ctrl env c Ctrl.IV_GEN 8 ptr).ctx.cipher_data.ucb
      = (env.P.gcm_init (slice (gctx_iv c) 0 c.cipher_data.ivlen.toNat)
          (slice c.cipher_data.key 0 c.key_len) c.encrypt).2.2.1 ∧
    (ibmca_aes_gcm_ctrl env c Ctrl.IV_GEN 8 ptr).ctx.cipher_data.subkey
      = (env.P.gcm_init (slice (gctx_iv c) 0 c.cipher_data.ivlen.toNat)
          (slice c.cipher_data.key 0 c.key_len) c.encrypt).2.2.2 ∧
    (ibmca_aes_gcm_ctrl env c Ctrl.IV_GEN 8 ptr).ctx.cipher_data.tag = List.replicate 16 0 ∧
    (ibmca_aes_gcm_ctrl env c Ctrl.IV_GEN 8 ptr).ctx.cipher_data.aadlen = 0 ∧
    (ibmca_aes_gcm_ctrl env c Ctrl.IV_GEN 8 ptr).ctx.cipher_data.ptlen = 0 ∧
    (ibmca_aes_gcm_ctrl env c Ctrl.IV_GEN 8 ptr).ctx.encrypt = c.encrypt ∧
    (ibmca_aes_gcm_ctrl env c Ctrl.IV_GEN 8 ptr).ctx.buf = c.buf ∧
    (ibmca_aes_gcm_ctrl env c Ctrl.IV_GEN 8 ptr).ctx.cipher_data.tls_aadlen
      = c.cipher_data.tls_aadlen ∧
    (ibmca_aes_gcm_ctrl env c Ctrl.IV_GEN 8 ptr).out
      = memcpy ptr 0 (gctx_iv c) (c.cipher_data.ivlen.toNat - 8) 8 ∧
    (ibmca_aes_gcm_ctrl env c Ctrl.IV_GEN 8 ptr).calls
      = [GcmCall.init (slice (gctx_iv c) 0 c.cipher_data.ivlen.toNat)
          (slice c.cipher_data.key 0 c.key_len) c.encrypt 0] := by
  have hd : (gcm_derive env c (gctx_iv c) c.encrypt).1 = 0 := hrc
  have harg : ¬ ((8 : Int) ≤ 0 ∨ (8 : Int) > c.cipher_data.ivlen) := by omega
  have hoff : (c.cipher_data.ivlen - 8).toNat = c.cipher_data.ivlen.toNat - 8 := by omega
  rw [ctrl_iv_gen_eq env c 8 ptr hk hg, if_neg (by rw [hd]; simp)]
  simp only [if_neg harg, hoff, (gctx_iv_store_data _ _).1, (gctx_iv_store_data _ _).2.2.2.2.2.1,
    (gctx_iv_store_data _ _).2.2.2.2.2.2.1, (gctx_iv_store_data _ _).2.2.2.2.2.2.2.1,
    (gctx_iv_store_data _ _).2.2.2.2.2.2.2.2.1, (gctx_iv_store_data _ _).2.2.2.2.2.2.2.2.2.1,
    (gctx_iv_store_data _ _).2.2.2.2.2.2.2.2.2.2.1,
    (gctx_iv_store_data _ _).2.2.2.2.2.2.2.2.2.2.2.1,
    (gctx_iv_store_data _ _).2.2.2.2.2.2.2.2.2.2.2.2.2.1,
    (gctx_iv_store_data _ _).2.2.2.2.2.2.2.2.2.2.2.2.2.2.1,
    (gctx_iv_store_data _ _).2.2.2.2.2.2.2.2.2.2.2.2.2.2.2]
  refine ⟨trivial, rfl, rfl, rfl, rfl, rfl, rfl, rfl, rfl, rfl, rfl, rfl, ?_, ?_⟩
  · rfl
  · unfold gcm_derive
    simp only [hrc]

/-- A call of `EVP_CTRL_GCM_IV_GEN` with a positive result had a successful derivation. -/
theorem ctrl_iv_gen_pos (env : Env) (c : EVP_CIPHER_CTX) (arg : Int) (ptr : Buf)
    (hk : c.cipher_data.key_set ≠ 0) (hg : c.cipher_data.iv_gen ≠ 0)
    (h : 0 < (ibmca_aes_gcm_ctrl env c Ctrl.IV_GEN arg ptr).ret) :
    (env.P.gcm_init (slice (gctx_iv c) 0 c.cipher_data.ivlen.toNat)
      (slice c.cipher_data.key 0 c.key_len) c.encrypt).1 = 0 := by
  rw [ctrl_iv_gen_eq env c arg ptr hk hg] at h
  by_cases hd : (gcm_derive env c (gctx_iv c) c.encrypt).1 = 0
  · exact hd
  · rw [if_pos hd] at h
    exact absurd h (by simp)

/-- A record call on a session without a key or without a generated IV fails at the IV
step of an encrypting session. -/
theorem ctrl_iv_gen_guard (env : Env) (c : EVP_CIPHER_CTX) (arg : Int) (ptr : Buf)
    (h : 0 < (ibmca_aes_gcm_ctrl env c Ctrl.IV_GEN arg ptr).ret) :
    c.cipher_data.key_set ≠ 0 ∧ c.cipher_data.iv_gen ≠ 0 := by
  by_contra hn
  have h2 : c.cipher_data.iv_gen = 0 ∨ c.cipher_data.key_set = 0 := by
    by_cases hg : c.cipher_data.iv_gen = 0
    · exact Or.inl hg
    · by_cases hk : c.cipher_data.key_set = 0
      · exact Or.inr hk
      · exact absurd ⟨hk, hg⟩ hn
  unfold ibmca_aes_gcm_ctrl at h
  simp only [h2, if_true] at h
  exact absurd h (by decide)

/-- A record call with `out == in` and at least 24 bytes is the IV step followed by the
other steps. -/
theorem tls_cipher_eq (env : Env) (c : EVP_CIPHER_CTX) (r : Ptr) (len : Nat) (h24 : 24 ≤ len) :
    ibmca_aes_gcm_tls_cipher env c (some r) (some r) len
      = tls_aad_step env c.encrypt len
          (ibmca_aes_gcm_ctrl env c (if c.encrypt then Ctrl.IV_GEN else Ctrl.SET_IV_INV) 8
            r.mem) := by
  have h : ¬ ((some r).map Ptr.addr ≠ (some r).map Ptr.addr
      ∨ len < EVP_GCM_TLS_EXPLICIT_IV_LEN + EVP_GCM_TLS_TAG_LEN) := by
    simp only [EVP_GCM_TLS_EXPLICIT_IV_LEN, EVP_GCM_TLS_TAG_LEN, ne_eq, not_true_eq_false,
      false_or]
    omega
  unfold ibmca_aes_gcm_tls_cipher
  simp only [if_neg h]
  rfl

/-- An encrypting record call that does not return -1: the IV step succeeded, the result
is `len` as an `int`, the record starts with the trailing 8 bytes of the IV of the
derivation call, the bytes that follow hold the output of the primitive's encrypt step on
the payload, and the last 16 bytes hold the tag of the closing call. -/
theorem tls_cipher_enc (env : Env) (c : EVP_CIPHER_CTX) (r : Ptr) (len : Nat)
    (henc : c.encrypt = true) (h8 : 8 ≤ c.cipher_data.ivlen) (h24 : 24 ≤ len)
    (hcap : len - 24 ≤ 2 ^ 36 - 32)
    (hok : (ibmca_aes_gcm_tls_cipher env c (some r) (some r) len).ret ≠ -1) :
    c.cipher_data.key_set ≠ 0 ∧ c.cipher_data.iv_gen ≠ 0 ∧
    (env.P.gcm_init (slice (gctx_iv c) 0 c.cipher_data.ivlen.toNat)
      (slice c.cipher_data.key 0 c.key_len) true).1 = 0 ∧
    (ibmca_aes_gcm_tls_cipher env c (some r) (some r) len).ret = toInt32 len ∧
    (∀ i, i < 8 → (ibmca_aes_gcm_tls_cipher env c (some r) (some r) len).out i
      = gctx_iv c (c.cipher_data.ivlen.toNat - 8 + i)) ∧
    (∀ i, i < len - 24 → (ibmca_aes_gcm_tls_cipher env c (some r) (some r) len).out (8 + i)
      = (env.P.gcm_intermediate (slice r.mem 8 (len - 24))
          (ibmca_gcm_aad env (ibmca_aes_gcm_ctrl env c Ctrl.IV_GEN 8 r.mem).ctx c.buf
            (c.cipher_data.tls_aadlen % 2 ^ 64).toNat true).2.1.cipher_data.ucb []
          (ibmca_gcm_aad env (ibmca_aes_gcm_ctrl env c Ctrl.IV_GEN 8 r.mem).ctx c.buf
            (c.cipher_data.tls_aadlen % 2 ^ 64).toNat true).2.1.cipher_data.tag
          (slice c.cipher_data.key 0 c.key_len)
          (ibmca_gcm_aad env (ibmca_aes_gcm_ctrl env c Ctrl.IV_GEN 8 r.mem).ctx c.buf
            (c.cipher_data.tls_aadlen % 2 ^ 64).toNat true).2.1.cipher_data.subkey
          true).2.1.getD i 0) ∧
    (∀ i, i < 16 → (ibmca_aes_gcm_tls_cipher env c (some r) (some r) len).out (len - 16 + i)
      = (ibmca_aes_gcm_tls_cipher env c (some r) (some r) len).ctx.cipher_data.tag.getD i 0) ∧
    (∀ i, len ≤ i → (ibmca_aes_gcm_tls_cipher env c (some r) (some r) len).out i = r.mem i) := by
  rw [tls_cipher_eq env c r len h24] at hok ⊢
  simp only [henc, if_true] at hok ⊢
  obtain ⟨hk0, ha0⟩ := tls_aad_step_ok env true len _ hok
  obtain ⟨hk, hg⟩ := ctrl_iv_gen_guard env c 8 r.mem hk0
  have hrc := ctrl_iv_gen_pos env c 8 r.mem hk hg hk0
  obtain ⟨_, hkl, hkey, _, _, _, _, _, hpt, _, hbuf, htl, hout, _⟩ :=
    ctrl_iv_gen_material env c r.mem hk hg h8 hrc
  rw [tls_aad_step_eq env true len _ hk0 ha0] at hok ⊢
  rw [hbuf, htl] at hok ⊢
  have hcap2 : (ibmca_gcm_aad env (ibmca_aes_gcm_ctrl env c Ctrl.IV_GEN 8 r.mem).ctx c.buf
      (c.cipher_data.tls_aadlen % 2 ^ 64).toNat true).2.1.cipher_data.ptlen + (len - 24)
      ≤ 2 ^ 36 - 32 := by
    have : (ibmca_gcm_aad env (ibmca_aes_gcm_ctrl env c Ctrl.IV_GEN 8 r.mem).ctx c.buf
        (c.cipher_data.tls_aadlen % 2 ^ 64).toNat true).2.1.cipher_data.ptlen = 0 := by
      rw [← hpt]
      unfold ibmca_gcm_aad
      simp only
      split
      · rfl
      · split <;> rfl
    rw [this]
    omega
  have hkey2 : (ibmca_gcm_aad env (ibmca_aes_gcm_ctrl env c Ctrl.IV_GEN 8 r.mem).ctx c.buf
      (c.cipher_data.tls_aadlen % 2 ^ 64).toNat true).2.1.cipher_data.key = c.cipher_data.key ∧
      (ibmca_gcm_aad env (ibmca_aes_gcm_ctrl env c Ctrl.IV_GEN 8 r.mem).ctx c.buf
      (c.cipher_data.tls_aadlen % 2 ^ 64).toNat true).2.1.key_len = c.key_len := by
    rw [← hkey, ← hkl]
    unfold ibmca_gcm_aad
    simp only
    split
    · exact ⟨rfl, rfl⟩
    · split <;> exact ⟨rfl, rfl⟩
  obtain ⟨_, hret, hiv, hct, htag, hrest⟩ := tls_payload_step_enc env len _ _ _ h24 hcap2 hok
  have hsl : slice (ibmca_aes_gcm_ctrl env c Ctrl.IV_GEN 8 r.mem).out 8 (len - 24)
      = slice r.mem 8 (len - 24) := by
    apply slice_congr
    intro i _
    rw [hout]
    simp only [memcpy]
    rw [if_neg (by omega)]
  rw [hsl, hkey2.1, hkey2.2] at hct
  refine ⟨hk, hg, by rw [← henc]; exact hrc, hret, ?_, hct, htag, ?_⟩
  · intro i hi
    rw [hiv i hi, hout]
    simp only [memcpy]
    rw [if_pos ⟨by omega, by omega⟩]
    congr 1
  · intro i hi
    rw [hrest i hi, hout]
    simp only [memcpy]
    rw [if_neg (by omega)]

theorem tls_tag_step_calls (env : Env) (enc : Bool) (len1 : Nat) (rec1 : Buf)
    (pre : List GcmCall) (c : EVP_CIPHER_CTX) :
    ∃ rest, (tls_tag_step env enc len1 rec1 pre c).calls = pre ++ rest := by
  unfold tls_tag_step
  simp only
  split
  · split <;> exact ⟨_, rfl⟩
  · split <;> exact ⟨_, rfl⟩

theorem tls_payload_step_calls (env : Env) (enc : Bool) (len : Nat) (rec0 : Buf)
    (pre : List GcmCall) (c : EVP_CIPHER_CTX) :
    ∃ rest, (tls_payload_step env enc len rec0 pre c).calls = pre ++ rest := by
  unfold tls_payload_step
  simp only
  split
  · exact ⟨_, rfl⟩
  · obtain ⟨rest, h⟩ := tls_tag_step_calls env enc
      (len - (EVP_GCM_TLS_EXPLICIT_IV_LEN + EVP_GCM_TLS_TAG_LEN))
      (fun i => if EVP_GCM_TLS_EXPLICIT_IV_LEN ≤ i then
        (ibmca_aes_gcm env c (fun i => rec0 (EVP_GCM_TLS_EXPLICIT_IV_LEN + i))
          (fun i => rec0 (EVP_GCM_TLS_EXPLICIT_IV_LEN + i))
          (len - (EVP_GCM_TLS_EXPLICIT_IV_LEN + EVP_GCM_TLS_TAG_LEN)) enc).2.2.1
          (i - EVP_GCM_TLS_EXPLICIT_IV_LEN) else rec0 i)
      (pre ++ (ibmca_aes_gcm env c (fun i => rec0 (EVP_GCM_TLS_EXPLICIT_IV_LEN + i))
          (fun i => rec0 (EVP_GCM_TLS_EXPLICIT_IV_LEN + i))
          (len - (EVP_GCM_TLS_EXPLICIT_IV_LEN + EVP_GCM_TLS_TAG_LEN)) enc).2.2.2)
      (ibmca_aes_gcm env c (fun i => rec0 (EVP_GCM_TLS_EXPLICIT_IV_LEN + i))
          (fun i => rec0 (EVP_GCM_TLS_EXPLICIT_IV_LEN + i))
          (len - (EVP_GCM_TLS_EXPLICIT_IV_LEN + EVP_GCM_TLS_TAG_LEN)) enc).2.1
    rw [h, List.append_assoc]
    exact ⟨_, rfl⟩

theorem tls_aad_step_calls (env : Env) (enc : Bool) (len : Nat) (k : GcmResult) :
    ∃ rest, (tls_aad_step env enc len k).calls = k.calls ++ rest := by
  unfold tls_aad_step
  simp only
  split
  · exact ⟨[], by simp [tls_exit]⟩
  · split
    · exact ⟨_, rfl⟩
    · obtain ⟨rest, h⟩ := tls_payload_step_calls env enc len k.out
        (k.calls ++ (ibmca_gcm_aad env k.ctx k.ctx.buf
          (k.ctx.cipher_data.tls_aadlen % 2 ^ 64).toNat enc).2.2)
        (ibmca_gcm_aad env k.ctx k.ctx.buf (k.ctx.cipher_data.tls_aadlen % 2 ^ 64).toNat enc).2.1
      rw [h, List.append_assoc]
      exact ⟨_, rfl⟩

/-- The first primitive call of an encrypting record call that does not return -1 is the
derivation from the session's current IV. -/
theorem tls_cipher_enc_calls (env : Env) (c : EVP_CIPHER_CTX) (r : Ptr) (len : Nat)
    (henc : c.encrypt = true) (h8 : 8 ≤ c.cipher_data.ivlen) (h24 : 24 ≤ len)
    (hok : (ibmca_aes_gcm_tls_cipher env c (some r) (some r) len).ret ≠ -1) :
    ∃ rest, (ibmca_aes_gcm_tls_cipher env c (some r) (some r) len).calls
      = GcmCall.init (slice (gctx_iv c) 0 c.cipher_data.ivlen.toNat)
          (slice c.cipher_data.key 0 c.key_len) true 0 :: rest := by
  rw [tls_cipher_eq env c r len h24] at hok ⊢
  simp only [henc, if_true] at hok ⊢
  obtain ⟨hk0, _⟩ := tls_aad_step_ok env true len _ hok
  obtain ⟨hk, hg⟩ := ctrl_iv_gen_guard env c 8 r.mem hk0
  have hrc := ctrl_iv_gen_pos env c 8 r.mem hk hg hk0
  have hcalls := (ctrl_iv_gen_material env c r.mem hk hg h8 hrc).2.2.2.2.2.2.2.2.2.2.2.2.2
  obtain ⟨rest, h⟩ := tls_aad_step_calls env true len (ibmca_aes_gcm_ctrl env c Ctrl.IV_GEN 8 r.mem)
  rw [h, hcalls, henc]
  exact ⟨_, rfl⟩

theorem tls_tag_step_dec_ret (env : Env) (len1 : Nat) (rec1 : Buf) (pre : List GcmCall)
    (c : EVP_CIPHER_CTX) (hok : (tls_tag_step env false len1 rec1 pre c).ret ≠ -1) :
    (tls_tag_step env false len1 rec1 pre c).ret = toInt32 len1 := by
  by_cases ht : (ibmca_gcm_tag env c (some (slice rec1 (8 + len1) 16)) 16).1 = 0
  · exact absurd ((tls_tag_step_dec env len1 rec1 pre c).2 ht) hok
  · exact ((tls_tag_step_dec env len1 rec1 pre c).1 ht).1

/-- A decrypting record call that does not return -1 returns the payload length as an
`int`. -/
theorem tls_cipher_dec_ret (env : Env) (c : EVP_CIPHER_CTX) (r : Ptr) (len : Nat)
    (hdec : c.encrypt = false) (h24 : 24 ≤ len)
    (hok : (ibmca_aes_gcm_tls_cipher env c (some r) (some r) len).ret ≠ -1) :
    (ibmca_aes_gcm_tls_cipher env c (some r) (some r) len).ret = toInt32 (len - 24) := by
  rw [tls_cipher_eq env c r len h24] at hok ⊢
  simp only [hdec, Bool.false_eq_true, if_false] at hok ⊢
  obtain ⟨hk0, ha0⟩ := tls_aad_step_ok env false len _ hok
  rw [tls_aad_step_eq env false len _ hk0 ha0] at hok ⊢
  unfold tls_payload_step at hok ⊢
  simp only [EVP_GCM_TLS_TAG_LEN, EVP_GCM_TLS_EXPLICIT_IV_LEN, show (8 + 16 : Nat) = 24 from rfl]
    at hok ⊢
  split
  · rename_i h
    rw [if_pos h] at hok
    exact absurd rfl hok
  · rename_i h
    rw [if_neg h] at hok
    exact tls_tag_step_dec_ret env _ _ _ _ hok

/-- A record call with `out != in` or fewer than 24 bytes returns -1 at once. -/
theorem tls_cipher_guard (env : Env) (c : EVP_CIPHER_CTX) (out in_ : Option Ptr) (len : Nat)
    (h : out.map Ptr.addr ≠ in_.map Ptr.addr ∨ len < 24) :
    (ibmca_aes_gcm_tls_cipher env c out in_ len).ret = -1 ∧
    (ibmca_aes_gcm_tls_cipher env c out in_ len).calls = [] ∧
    (ibmca_aes_gcm_tls_cipher env c out in_ len).ctx = c := by
  have h2 : out.map Ptr.addr ≠ in_.map Ptr.addr
      ∨ len < EVP_GCM_TLS_EXPLICIT_IV_LEN + EVP_GCM_TLS_TAG_LEN := h
  unfold ibmca_aes_gcm_tls_cipher
  simp only [if_pos h2, and_self]

/-! ## Claims on the record-framed operation -/

/-- C13, as the code has it: `process_record` returns -1 for every call with `len < 24` or
with `out` different from `in`.  For a call on a record of `24 <= len < 2 ^ 31` bytes that
returns a non-negative result: on an encrypting session whose IV has at least 8 bytes the
result is `len`, the first primitive call is the derivation from the session's IV, the
output starts with the trailing 8 bytes of that IV, continues with the `len - 24` bytes the
primitive's encrypt step produced from the payload, and ends with the 16 bytes of the tag
computed by the closing call; on a decrypting session the result is `len - 24`. -/
theorem record_layout_and_result (env : Env) (c : EVP_CIPHER_CTX) (r : Ptr) (len : Nat)
    (h24 : 24 ≤ len) (h31 : len < 2 ^ 31)
    (hok : 0 ≤ (ibmca_aes_gcm_tls_cipher env c (some r) (some r) len).ret) :
    (∀ (out in_ : Option Ptr) (l : Nat), out.map Ptr.addr ≠ in_.map Ptr.addr ∨ l < 24 →
      (ibmca_aes_gcm_tls_cipher env c out in_ l).ret = -1) ∧
    (c.encrypt = true → 8 ≤ c.cipher_data.ivlen →
      (ibmca_aes_gcm_tls_cipher env c (some r) (some r) len).ret = len ∧
      (∃ rest, (ibmca_aes_gcm_tls_cipher env c (some r) (some r) len).calls
        = GcmCall.init (slice (gctx_iv c) 0 c.cipher_data.ivlen.toNat)
            (slice c.cipher_data.key 0 c.key_len) true 0 :: rest) ∧
      (∀ i, i < 8 → (ibmca_aes_gcm_tls_cipher env c (some r) (some r) len).out i
        = gctx_iv c (c.cipher_data.ivlen.toNat - 8 + i)) ∧
      (∀ i, i < len - 24 → (ibmca_aes_gcm_tls_cipher env c (some r) (some r) len).out (8 + i)
        = (env.P.gcm_intermediate (slice r.mem 8 (len - 24))
            (ibmca_gcm_aad env (ibmca_aes_gcm_ctrl env c Ctrl.IV_GEN 8 r.mem).ctx c.buf
              (c.cipher_data.tls_aadlen % 2 ^ 64).toNat true).2.1.cipher_data.ucb []
            (ibmca_gcm_aad env (ibmca_aes_gcm_ctrl env c Ctrl.IV_GEN 8 r.mem).ctx c.buf
              (c.cipher_data.tls_aadlen % 2 ^ 64).toNat true).2.1.cipher_data.tag
            (slice c.cipher_data.key 0 c.key_len)
            (ibmca_gcm_aad env (ibmca_aes_gcm_ctrl env c Ctrl.IV_GEN 8 r.mem).ctx c.buf
              (c.cipher_data.tls_aadlen % 2 ^ 64).toNat true).2.1.cipher_data.subkey
            true).2.1.getD i 0) ∧
      (∀ i, i < 16 → (ibmca_aes_gcm_tls_cipher env c (some r) (some r) len).out (len - 16 + i)
        = (ibmca_aes_gcm_tls_cipher env c (some r) (some r) len).ctx.cipher_data.tag.getD i 0)) ∧
    (c.encrypt = false →
      (ibmca_aes_gcm_tls_cipher env c (some r) (some r) len).ret = ((len - 24 : Nat) : Int)) := by
  have hne : (ibmca_aes_gcm_tls_cipher env c (some r) (some r) len).ret ≠ -1 := by omega
  refine ⟨fun out in_ l h => (tls_cipher_guard env c out in_ l h).1, ?_, ?_⟩
  · intro henc h8
    obtain ⟨_, _, _, hret, hiv, hct, htag, _⟩ :=
      tls_cipher_enc env c r len henc h8 h24 (by omega) hne
    refine ⟨?_, tls_cipher_enc_calls env c r len henc h8 h24 hne, hiv, hct, htag⟩
    rw [hret]
    exact (toInt32_nonneg len h31).2
  · intro hdec
    rw [tls_cipher_dec_ret env c r len hdec h24 hne]
    exact (toInt32_nonneg (len - 24) (by omega)).2

/-- C13 at the failing input, for the claim as stated: an encrypting record call on a record
of `2 ^ 32 + 30` bytes goes through all steps and returns 30, which is not negative and is
not `len`. -/
theorem record_result_is_truncated :
    (idleRecordCtx true).encrypt = true ∧ (idleRecordCtx true).cipher_data.ivlen = 12 ∧
    (ibmca_aes_gcm_tls_cipher idleEnv (idleRecordCtx true) (some exRecord) (some exRecord)
      (2 ^ 32 + 30)).calls.length = 4 ∧
    (ibmca_aes_gcm_tls_cipher idleEnv (idleRecordCtx true) (some exRecord) (some exRecord)
      (2 ^ 32 + 30)).ret = 30 := by
  decide

/-- C13 at a sample: the 30-byte record `exPayloadRecord` on the encrypting session
`recordCtx`: the result is 30 and the output is the eight `0xAB` bytes of the IV, the six
payload bytes reversed by the toy primitive, and the tag. -/
theorem record_layout_and_result_witness :
    slice (ibmca_aes_gcm_tls_cipher toyEnv (recordCtx true) (some exPayloadRecord)
      (some exPayloadRecord) 30).out 0 14
      = [171, 171, 171, 171, 171, 171, 171, 171, 6, 5, 4, 3, 2, 1] ∧
    (ibmca_aes_gcm_tls_cipher toyEnv (recordCtx true) (some exPayloadRecord)
      (some exPayloadRecord) 30).ret = 30 :=
  ⟨by decide,
    ((record_layout_and_result toyEnv (recordCtx true) exPayloadRecord 30 (by decide)
      (by decide) (by decide)).2.1 (by decide) (by decide)).1⟩

/-! ## The record round trip -/

theorem sha_split_copies (bs : Nat) (hbs : bs = 64 ∨ bs = 128) (tail in_data : Buf) (f x : Nat) :
    ∀ oc, oc ∈ (sha_split bs tail in_data f x).2.2.2 → oc.1 + oc.2 ≤ bs := by
  intro oc hoc
  unfold sha_split at hoc
  simp only [mask_and bs hbs] at hoc
  have hpos : 0 < bs := by rcases hbs with rfl | rfl <;> decide
  split at hoc
  · simp only [List.mem_singleton] at hoc
    rw [hoc]
    simp only [Nat.zero_add]
    exact le_of_lt (Nat.mod_lt _ hpos)
  · simp at hoc

theorem sha_fill_copies (bs : Nat) (hbs : bs = 64 ∨ bs = 128) (P : ShaPrim)
    (part : SHA_MSG_PART) (ctx : IBMCA_SHA_CTX) (in_data : Buf) (x : Nat)
    (ht : ctx.tail_len ≤ bs) :
    ∀ oc, oc ∈ (sha_fill bs P part ctx in_data x).copies → oc.1 + oc.2 ≤ bs := by
  have hf := fill_size_eq bs hbs ctx.tail_len ht
  intro oc hoc
  unfold sha_fill at hoc
  simp only [hf] at hoc
  split at hoc
  · split at hoc
    · simp only [List.mem_singleton] at hoc
      rw [hoc]
      simp only
      omega
    · rw [(sha_submit_ctx _ _ _ _ _ _ _ _).2.2, List.mem_cons] at hoc
      rcases hoc with hoc | hoc
      · rw [hoc]
        simp only
        omega
      · exact sha_split_copies bs hbs _ _ _ _ oc hoc
  · simp only [List.mem_singleton] at hoc
    rw [hoc]
    simp only
    omega

/-- Every copy an `update` makes into the tail buffer stays within the block size. -/
theorem sha_update_copies (bs : Nat) (hbs : bs = 64 ∨ bs = 128) (P : ShaPrim)
    (ctx : IBMCA_SHA_CTX) (in_data : Buf) (x : Nat) (ht : ctx.tail_len ≤ bs) :
    ∀ oc, oc ∈ (sha_update bs P ctx in_data x).copies → oc.1 + oc.2 ≤ bs := by
  intro oc hoc
  unfold sha_update at hoc
  simp only at hoc
  split at hoc
  · simp at hoc
  · split at hoc
    · rw [(sha_submit_ctx _ _ _ _ _ _ _ _).2.2] at hoc
      exact sha_split_copies bs hbs _ _ _ _ oc hoc
    · split at hoc
      · exact sha_fill_copies bs hbs P _ ctx in_data x ht oc hoc
      · split at hoc
        · split at hoc
          · exact sha_fill_copies bs hbs P _ ctx in_data x ht oc hoc
          · rw [(sha_submit_ctx _ _ _ _ _ _ _ _).2.2] at hoc
            exact sha_split_copies bs hbs _ _ _ _ oc hoc
        · rw [(sha_submit_ctx _ _ _ _ _ _ _ _).2.2] at hoc
          simp at hoc

/-- C23: for each of the three digests, in every state reachable from `init` the buffered
length is at most the block size (64 for SHA-1 and SHA-256, 128 for SHA-512, the size of
`tail`), and every copy an `update` of any length below `2 ^ 64` makes into `tail`, at
offset `o` with `n` bytes, has `o + n <=` block size, so it writes only positions in
`[0, block size)`; the state after it is within the bound again. -/
theorem partial_buffer_bounds (bs hlen : Nat) (P : ShaPrim) (ctx : IBMCA_SHA_CTX)
    (hbs : (bs = SHA_BLOCK_SIZE ∧ hlen = 20) ∨ (bs = SHA256_BLOCK_SIZE ∧ hlen = 32)
      ∨ (bs = SHA512_BLOCK_SIZE ∧ hlen = 64))
    (hr : ShaReachable bs hlen P ctx) :
    ctx.tail_len ≤ bs ∧
    ∀ (in_data : Buf) (inlen : Nat), inlen < 2 ^ 64 →
      (∀ oc, oc ∈ (sha_update bs P ctx in_data inlen).copies → oc.1 + oc.2 ≤ bs) ∧
      (sha_update bs P ctx in_data inlen).ctx.tail_len ≤ bs := by
  have hb : bs = 64 ∨ bs = 128 := by
    rcases hbs with ⟨h, _⟩ | ⟨h, _⟩ | ⟨h, _⟩
    · exact Or.inl h
    · exact Or.inl h
    · exact Or.inr h
  have ht := sha_reachable_tail_le bs hlen hb P ctx hr
  exact ⟨ht, fun in_data inlen hx =>
    ⟨sha_update_copies bs hb P ctx in_data inlen ht,
      sha_update_tail_le bs hb P ctx in_data inlen ht hx⟩⟩

/-- C23 at a sample: the SHA-512 state that buffers 10 bytes, updated with 200 bytes: the
copies made are 118 bytes at offset 10 and 82 bytes at offset 0. -/
theorem partial_buffer_bounds_witness :
    (sha_update SHA512_BLOCK_SIZE sumPrim
      (sha_update SHA512_BLOCK_SIZE sumPrim (sha_init 64) exInput 10).ctx exInput 200).copies
      = [(10, 118), (0, 82)] ∧
    (sha_update SHA512_BLOCK_SIZE sumPrim (sha_init 64) exInput 10).ctx.tail_len
      ≤ SHA512_BLOCK_SIZE ∧
    ∀ (in_data : Buf) (inlen : Nat), inlen < 2 ^ 64 →
      (∀ oc, oc ∈ (sha_update SHA512_BLOCK_SIZE sumPrim
          (sha_update SHA512_BLOCK_SIZE sumPrim (sha_init 64) exInput 10).ctx in_data
          inlen).copies → oc.1 + oc.2 ≤ SHA512_BLOCK_SIZE) ∧
      (sha_update SHA512_BLOCK_SIZE sumPrim
        (sha_update SHA512_BLOCK_SIZE sumPrim (sha_init 64) exInput 10).ctx in_data
        inlen).ctx.tail_len ≤ SHA512_BLOCK_SIZE :=
  ⟨by decide,
    partial_buffer_bounds SHA512_BLOCK_SIZE 64 sumPrim _ (Or.inr (Or.inr ⟨rfl, rfl⟩))
      (ShaReachable.update _ exInput 10 ShaReachable.init (by decide))⟩

/-- C22 at the failing inputs: a successful SHA-1 `update` of `2 ^ 32 + 70` bytes on the
fresh context hands one call of 64 bytes to the primitive and buffers 6 bytes, 70 bytes
in all; a successful SHA-512 `update` of `2 ^ 32 + 130` bytes hands over 128 bytes and
buffers 2. -/
theorem update_drops_four_gigabytes :
    (ibmca_sha1_update sumPrim ibmca_sha1_init exInput (2 ^ 32 + 70)).ret = 1 ∧
    (ibmca_sha1_update sumPrim ibmca_sha1_init exInput (2 ^ 32 + 70)).calls.map ShaCall.len
      = [64] ∧
    ibmca_sha1_init.tail_len = 0 ∧
    (ibmca_sha1_update sumPrim ibmca_sha1_init exInput (2 ^ 32 + 70)).ctx.tail_len = 6 ∧
    (ibmca_sha512_update sumPrim ibmca_sha512_init exInput (2 ^ 32 + 130)).ret = 1 ∧
    (ibmca_sha512_update sumPrim ibmca_sha512_init exInput (2 ^ 32 + 130)).calls.map ShaCall.len
      = [128] ∧
    (ibmca_sha512_update sumPrim ibmca_sha512_init exInput (2 ^ 32 + 130)).ctx.tail_len = 2 := by
  decide

/-! ## Claims on the capacity checks -/

/-- C26: for every 64-bit counter value and every 64-bit length `n`, `ibmca_gcm_aad` (with
`ptlen = 0`) gets past its capacity check, that is, does not return -1, exactly when the
integer sum `aadlen + n` is at most `2 ^ 61`, and `ibmca_aes_gcm` exactly when `ptlen + n`
is at most `2 ^ 36 - 32`; whenever they do, the stored counter is that sum as an integer,
so an accepted submission never wraps modulo `2 ^ 64`. -/
theorem capacity_guard_is_exact (env : Env) (c : EVP_CIPHER_CTX) (aad in_ out : Buf) (n : Nat)
    (enc : Bool) (ha : c.cipher_data.aadlen < 2 ^ 64) (hp : c.cipher_data.ptlen < 2 ^ 64)
    (hn : n < 2 ^ 64) :
    (c.cipher_data.ptlen = 0 →
      ((ibmca_gcm_aad env c aad n enc).1 ≠ -1 ↔ c.cipher_data.aadlen + n ≤ 2 ^ 61) ∧
      ((ibmca_gcm_aad env c aad n enc).1 ≠ -1 →
        (ibmca_gcm_aad env c aad n enc).2.1.cipher_data.aadlen = c.cipher_data.aadlen + n)) ∧
    ((ibmca_aes_gcm env c in_ out n enc).1 ≠ -1 ↔ c.cipher_data.ptlen + n ≤ 2 ^ 36 - 32) ∧
    ((ibmca_aes_gcm env c in_ out n enc).1 ≠ -1 →
      (ibmca_aes_gcm env c in_ out n enc).2.1.cipher_data.ptlen = c.cipher_data.ptlen + n) := by
  have hrc : ∀ r : Nat, (if r = 0 then (1 : Int) else 0) ≠ -1 := by
    intro r
    split <;> decide
  refine ⟨?_, ?_, ?_⟩
  · intro hp0
    unfold ibmca_gcm_aad
    simp only [hp0, ne_eq, not_true_eq_false, if_false]
    by_cases hcap : (c.cipher_data.aadlen + n) % 2 ^ 64 > 2 ^ 61
        ∨ (c.cipher_data.aadlen + n) % 2 ^ 64 < n
    · simp only [if_pos hcap, not_true_eq_false, false_iff, false_implies, and_true]
      omega
    · simp only [if_neg hcap]
      have hle : c.cipher_data.aadlen + n ≤ 2 ^ 61 := by omega
      refine ⟨⟨fun _ => hle, fun _ => hrc _⟩, fun _ => ?_⟩
      exact Nat.mod_eq_of_lt (by omega)
  · unfold ibmca_aes_gcm
    simp only
    by_cases hcap : (c.cipher_data.ptlen + n) % 2 ^ 64 > 2 ^ 36 - 32
        ∨ (c.cipher_data.ptlen + n) % 2 ^ 64 < n
    · simp only [if_pos hcap, ne_eq, not_true_eq_false, false_iff]
      omega
    · simp only [if_neg hcap]
      have hle : c.cipher_data.ptlen + n ≤ 2 ^ 36 - 32 := by omega
      exact ⟨fun _ => hle, fun _ => hrc _⟩
  · unfold ibmca_aes_gcm
    simp only
    by_cases hcap : (c.cipher_data.ptlen + n) % 2 ^ 64 > 2 ^ 36 - 32
        ∨ (c.cipher_data.ptlen + n) % 2 ^ 64 < n
    · simp only [if_pos hcap, ne_eq, not_true_eq_false, false_implies]
    · simp only [if_neg hcap]
      intro _
      exact Nat.mod_eq_of_lt (by omega)

/-- C26 at samples: with `aadlen = 2 ^ 61` (the session `fullAadCtx`) one more byte is refused
although the sum does not wrap, and `2 ^ 64 - 1` more bytes are refused although the sum
modulo `2 ^ 64` is below the limit. -/
theorem capacity_guard_is_exact_witness :
    fullAadCtx.cipher_data.aadlen = 2 ^ 61 ∧
    (ibmca_gcm_aad toyEnv fullAadCtx exKey (2 ^ 64 - 1) true).1 = -1 ∧
    ((ibmca_gcm_aad toyEnv fullAadCtx exKey 0 true).1 ≠ -1
      ↔ fullAadCtx.cipher_data.aadlen + 0 ≤ 2 ^ 61) :=
  ⟨by decide, by decide,
    ((capacity_guard_is_exact toyEnv fullAadCtx exKey exKey exKey 0 true (by decide)
      (by decide) (by decide)).1 (by decide)).1⟩

/-! ## IV storage: capacity, index ranges, duplication -/

/-- Without `copy_session` the heap block is never too small: `set_iv_length` keeps the
property that an embedded IV has `ivlen ≤ 16` and that a heap block has more than 16 bytes
and at least `ivlen`. -/
theorem set_ivlen_keeps_capacity (env : Env) (c : EVP_CIPHER_CTX) (arg : Int)
    (he : c.cipher_data.iv_loc = IvLoc.embedded → c.cipher_data.ivlen ≤ 16)
    (hh : c.cipher_data.iv_loc = IvLoc.heap →
      16 < c.cipher_data.iv_cap ∧ c.cipher_data.ivlen ≤ c.cipher_data.iv_cap) :
    ((ibmca_aes_gcm_ctrl env c Ctrl.SET_IVLEN arg zeroBuf).ctx.cipher_data.iv_loc
        = IvLoc.embedded →
      (ibmca_aes_gcm_ctrl env c Ctrl.SET_IVLEN arg zeroBuf).ctx.cipher_data.ivlen ≤ 16) ∧
    ((ibmca_aes_gcm_ctrl env c Ctrl.SET_IVLEN arg zeroBuf).ctx.cipher_data.iv_loc
        = IvLoc.heap →
      16 < (ibmca_aes_gcm_ctrl env c Ctrl.SET_IVLEN arg zeroBuf).ctx.cipher_data.iv_cap ∧
      (ibmca_aes_gcm_ctrl env c Ctrl.SET_IVLEN arg zeroBuf).ctx.cipher_data.ivlen
        ≤ (ibmca_aes_gcm_ctrl env c Ctrl.SET_IVLEN arg zeroBuf).ctx.cipher_data.iv_cap) := by
  unfold ibmca_aes_gcm_ctrl
  simp only [EVP_MAX_IV_LENGTH]
  by_cases h0 : arg ≤ 0
  · simp only [h0, if_true]
    exact ⟨he, hh⟩
  · simp only [h0, if_false]
    by_cases h1 : arg > ((16 : Nat) : Int) ∧ arg > c.cipher_data.ivlen
    · simp only [h1, and_self, if_true]
      cases hm : env.OPENSSL_malloc arg.toNat with
      | none => simp
      | some fresh =>
        simp only [reduceCtorEq, false_implies, true_and, true_implies]
        have := h1.1
        constructor
        · omega
        · omega
    · simp only [h1, if_false]
      constructor
      · intro hl
        have := he hl
        by_contra hc
        exact h1 ⟨by push_cast; omega, by omega⟩
      · intro hl
        have := hh hl
        refine ⟨this.1, ?_⟩
        by_contra hc
        exact h1 ⟨by push_cast; omega, by omega⟩

/-- C25 at the failing input: `set_iv_length (17)`, `set_iv_length (8)`, `copy_session`, then
`set_iv_length (12)` on the duplicate, all reporting success, reach a state whose IV refers
to a heap block of 8 bytes while the IV length is 12. -/
theorem copy_then_grow_exceeds_capacity :
    IvLenReachable toyEnv grownDup.ctx ∧
    (EVP_CIPHER_CTX_copy toyEnv shrunkCtx).1 = 1 ∧
    grownDup.ret = 1 ∧
    iv_capacity grownDup.ctx = some 8 ∧
    grownDup.ctx.cipher_data.ivlen = 12 := by
  refine ⟨?_, by decide, by decide, by decide, by decide⟩
  exact IvLenReachable.set_ivlen _ 12
    (IvLenReachable.copy _
      (IvLenReachable.set_ivlen _ 8
        (IvLenReachable.set_ivlen _ 17 (IvLenReachable.init true 16))))

/-- C24 at the failing inputs: on a decrypting session with IV length 12, reached by `set_key`
and `generate_iv_fixed`, `set_external_iv_low` with 16 bytes gets past its guards and
reports success although its copy starts 4 positions before the IV; on an encrypting session
with IV length 4, reached by `set_key`, `set_iv_length (4)` and `generate_iv_fixed`,
`next_iv` reports success although its counter starts 4 positions before the IV. -/
theorem iv_access_outside_iv :
    GcmReachable toyEnv invCtx ∧
    invCtx.cipher_data.ivlen = 12 ∧
    (ibmca_aes_gcm_ctrl toyEnv invCtx Ctrl.SET_IV_INV 16 exIv).ret = 1 ∧
    set_iv_inv_access 12 16 = [{ first := -4, count := 16 }] ∧
    (¬ ∀ a ∈ set_iv_inv_access 12 16, a.inside 12) ∧
    GcmReachable toyEnv shortIvCtx ∧
    shortIvCtx.cipher_data.ivlen = 4 ∧
    (ibmca_aes_gcm_ctrl toyEnv shortIvCtx Ctrl.IV_GEN 4 zeroBuf).ret = 1 ∧
    iv_gen_access 4 4 = [{ first := 0, count := 4 }, { first := -4, count := 8 }] ∧
    (¬ ∀ a ∈ iv_gen_access 4 4, a.inside 4) := by
  refine ⟨?_, by decide, by decide, by decide, by decide, ?_, by decide, by decide, by decide,
    by decide⟩
  · exact GcmReachable.ctrl _ _ _ _
      (GcmReachable.init_key _ (some exKey) none (GcmReachable.init false 16))
  · exact GcmReachable.ctrl _ _ _ _
      (GcmReachable.ctrl _ _ _ _
        (GcmReachable.init_key _ (some exKey) none (GcmReachable.init true 16)))

/-! ## Context duplication -/

/-- The duplicate's IV holds the source's `ivlen` bytes whenever `copy_session` succeeds. -/
theorem copy_keeps_iv_bytes (env : Env) (c : EVP_CIPHER_CTX)
    (hok : (EVP_CIPHER_CTX_copy env c).1 = 1) (i : Nat) (hi : i < c.cipher_data.ivlen.toNat) :
    gctx_iv (EVP_CIPHER_CTX_copy env c).2 i = gctx_iv c i := by
  unfold EVP_CIPHER_CTX_copy ibmca_aes_gcm_ctrl_copy at *
  cases hl : c.cipher_data.iv_loc with
  | embedded => simp [hl, gctx_iv]
  | heap =>
    rw [hl] at hok
    simp only at hok ⊢
    cases hm : env.OPENSSL_malloc c.cipher_data.ivlen.toNat with
    | none => rw [hm] at hok; simp at hok
    | some fresh =>
      simp only [gctx_iv, hl, memcpy]
      simp [hi]
  | null =>
    rw [hl] at hok
    simp only at hok ⊢
    cases hm : env.OPENSSL_malloc c.cipher_data.ivlen.toNat with
    | none => rw [hm] at hok; simp at hok
    | some fresh =>
      simp only [gctx_iv, hl, memcpy]
      simp [hi]

/-- The two models of `EVP_CTRL_COPY`, on session states and on flat memory, agree on the
return value and on whether the duplicate is left with a `NULL` IV pointer, for a source
seen both ways and allocations that fail together. -/
theorem copy_views_agree (env : Env) (c : EVP_CIPHER_CTX) (m : Mem) (pc out : IvPtrs)
    (malloc : Option Int)
    (hloc : pc.iv = some pc.iv_noconst ↔ c.cipher_data.iv_loc = IvLoc.embedded)
    (hm : malloc = none ↔ env.OPENSSL_malloc c.cipher_data.ivlen.toNat = none) :
    (ctrl_copy_ptr m pc out malloc).ret = (EVP_CIPHER_CTX_copy env c).1 ∧
    ((ctrl_copy_ptr m pc out malloc).ctx.iv = none ↔
      (EVP_CIPHER_CTX_copy env c).2.cipher_data.iv_loc = IvLoc.null) := by
  unfold ctrl_copy_ptr EVP_CIPHER_CTX_copy ibmca_aes_gcm_ctrl_copy
  by_cases he : c.cipher_data.iv_loc = IvLoc.embedded
  · have hp := hloc.mpr he
    simp [hp, he]
  · have hp : ¬ pc.iv = some pc.iv_noconst := fun h => he (hloc.mp h)
    rw [if_neg hp]
    cases hmal : malloc with
    | none =>
      have hn := hm.mp hmal
      cases hl : c.cipher_data.iv_loc with
      | embedded => exact absurd hl he
      | heap => simp [hn]
      | null => simp [hn]
    | some p =>
      have hn : env.OPENSSL_malloc c.cipher_data.ivlen.toNat ≠ none := by
        intro h
        have := hm.mpr h
        rw [hmal] at this
        exact absurd this (by simp)
      obtain ⟨fresh, hfr⟩ := Option.ne_none_iff_exists'.mp hn
      cases hl : c.cipher_data.iv_loc with
      | embedded => exact absurd hl he
      | heap => simp [hfr]
      | null => simp [hfr]

/-! ## Cipher wrappers, RSA and random numbers -/

/-- With at least `sizeof (pre_iv)` and `iv_length` bytes of input, every chaining-IV read of
an accepted call lies within the `inlen` bytes of its buffer. -/
theorem cipher_iv_reads_inside (vec_size iv_length : Nat) (mode : CipherMode) (enc : Bool)
    (inlen rv : Nat) (hv : vec_size ≤ inlen) (hi : iv_length ≤ inlen) :
    ∀ r ∈ (ibmca_cipher_iv_reads vec_size iv_length mode enc inlen rv).2, r.inside inlen := by
  intro r hr
  unfold ibmca_cipher_iv_reads at hr
  split at hr
  · simp at hr
  · simp only at hr
    split at hr
    · simp at hr
    · split at hr
      · split at hr
        · simp at hr
        · split at hr
          · simp only [List.mem_singleton] at hr
            subst hr
            simp only [ChainRead.inside]
            omega
          · simp at hr
      · have hm : r ∈ (if mode = CipherMode.OFB then ([] : List ChainRead)
            else [{ source := ChainSource.input, first := (inlen : Int) - vec_size,
                    count := vec_size }]) := by
          split at hr <;> exact hr
        split at hm
        · simp at hm
        · simp only [List.mem_singleton] at hm
          subst hm
          simp only [ChainRead.inside]
          omega

/-- C27 at the failing inputs: a decrypting DES CFB call of 3 bytes is accepted and reads its
saved IV from 5 positions before the input; a decrypting AES CFB call of 5 bytes reads it
from 11 positions before the input; an encrypting DES CFB call of 3 bytes copies the next IV
from 5 positions before the output. -/
theorem chaining_iv_read_before_buffer :
    ibmca_des_cipher CipherMode.CFB false 3 0
      = (1, [{ source := ChainSource.input, first := -5, count := 8 }]) ∧
    (¬ ∀ r ∈ (ibmca_des_cipher CipherMode.CFB false 3 0).2, r.inside 3) ∧
    ibmca_aes_128_cipher CipherMode.CFB false 5 0
      = (1, [{ source := ChainSource.input, first := -11, count := 16 }]) ∧
    (¬ ∀ r ∈ (ibmca_aes_128_cipher CipherMode.CFB false 5 0).2, r.inside 5) ∧
    ibmca_des_cipher CipherMode.CFB true 3 0
      = (1, [{ source := ChainSource.output, first := -5, count := 8 }]) ∧
    (¬ ∀ r ∈ (ibmca_des_cipher CipherMode.CFB true 3 0).2, r.inside 3) := by
  decide

/-- C28 at the failing inputs: with the one-byte modulus 255, `ibmca_mod_exp` writes the
three bytes of the exponent 65537 starting 2 positions before its one-byte buffer, and the
three bytes of the input 70000 starting 2 positions before its buffer; `ibmca_mod_exp_crt`
leaves through its error exit on an input longer than its key. -/
theorem mod_exp_packing_before_buffer :
    ibmca_mod_exp_packing 2 65537 255
      = { key_length := 1, plen := 3, inputlen := 1, exponent_off := -2, input_off := 0 } ∧
    ibmca_mod_exp_packing 70000 3 255
      = { key_length := 1, plen := 1, inputlen := 3, exponent_off := 0, input_off := -2 } ∧
    ibmca_mod_exp_crt_input_off 70000 3 5 = none := by
  decide

/-- The offsets of `ibmca_mod_exp` are non-negative exactly when exponent and input are no
longer than the modulus. -/
theorem mod_exp_packing_inside (a p m : Nat) :
    (0 ≤ (ibmca_mod_exp_packing a p m).exponent_off ↔ BN_num_bytes p ≤ BN_num_bytes m) ∧
    (0 ≤ (ibmca_mod_exp_packing a p m).input_off ↔ BN_num_bytes a ≤ BN_num_bytes m) := by
  simp only [ibmca_mod_exp_packing]
  constructor <;> omega

/-- C29 at the failing input: for a key with every component present, the `OLDER_OPENSSL`
build takes the CRT path and the current build the plain path; the older build makes the
specified choice for every key, the current build exactly for the keys that lack one of
`p`, `q`, `dmp1`, `dmq1`. -/
theorem rsa_mod_exp_variants_differ :
    ibmca_rsa_mod_exp_older fullKey = RsaPath.crt ∧
    ibmca_rsa_mod_exp fullKey = RsaPath.mod_exp ∧
    (∀ k, ibmca_rsa_mod_exp_older k = rsa_path_spec k) ∧
    (∀ k, ibmca_rsa_mod_exp k = rsa_path_spec k ↔
      ¬ (k.p = true ∧ k.q = true ∧ k.dmp1 = true ∧ k.dmq1 = true)) := by
  refine ⟨by decide, by decide, ?_, ?_⟩
  · rintro ⟨n, d, p, q, dmp1, dmq1, iqmp⟩
    cases n <;> cases d <;> cases p <;> cases q <;> cases dmp1 <;> cases dmq1 <;>
      cases iqmp <;> decide
  · rintro ⟨n, d, p, q, dmp1, dmq1, iqmp⟩
    cases n <;> cases d <;> cases p <;> cases q <;> cases dmp1 <;> cases dmq1 <;>
      cases iqmp <;> decide

/-- C30 at the failing input: `ibmca_rand_bytes` returns 1 whatever the status of the
primitive; with a primitive that fails with status 19 and stores nothing it returns 1 and
leaves the buffer as it was. -/
theorem rand_bytes_ignores_failure :
    (∀ prim buf num, (ibmca_rand_bytes prim buf num).1 = 1) ∧
    (failRng 16 zeroBuf).1 = 19 ∧
    (ibmca_rand_bytes failRng zeroBuf 16).1 = 1 ∧
    (∀ i, (ibmca_rand_bytes failRng zeroBuf 16).2 i = zeroBuf i) := by
  refine ⟨?_, by decide, by decide, fun i => rfl⟩
  intro prim buf num
  unfold ibmca_rand_bytes
  have h : ¬ (((prim num buf).1 % 2 ^ 32 : Nat) : Int) < 0 := by omega
  simp only [h, if_false]

/-! ## The bit count -/

/-- With enough fuel the bit count brackets its argument between two powers of 2. -/
theorem num_bits_aux_spec (fuel : Nat) :
    ∀ n, n ≤ fuel →
      n < 2 ^ num_bits_aux fuel n ∧ (n ≠ 0 → 2 ^ (num_bits_aux fuel n - 1) ≤ n) := by
  induction fuel with
  | zero =>
    intro n hn
    have : n = 0 := by omega
    subst this
    simp [num_bits_aux]
  | succ f ih =>
    intro n hn
    unfold num_bits_aux
    by_cases h0 : n = 0
    · subst h0
      simp
    · simp only [h0, if_false, Nat.add_sub_cancel]
      have hle : n / 2 ≤ f := by omega
      obtain ⟨h1, h2⟩ := ih (n / 2) hle
      refine ⟨?_, fun _ => ?_⟩
      · rw [pow_succ]
        omega
      · by_cases h3 : n / 2 = 0
        · rw [h3]
          cases f with
          | zero => simp [num_bits_aux]; omega
          | succ g => simp [num_bits_aux]; omega
        · have h4 := h2 h3
          have h5 : num_bits_aux f (n / 2) = (num_bits_aux f (n / 2) - 1) + 1 := by
            cases f with
            | zero => omega
            | succ g =>
              unfold num_bits_aux
              simp [h3]
          rw [h5, pow_succ]
          omega

/-- `BN_num_bits n` is the least bit count that holds `n`. -/
theorem BN_num_bits_spec (n : Nat) :
    n < 2 ^ BN_num_bits n ∧ (n ≠ 0 → 2 ^ (BN_num_bits n - 1) ≤ n) :=
  num_bits_aux_spec n n (Nat.le_refl n)

end Ibmca
